import Mathlib

/-!
# snowdrop-http: the incremental HTTP/1.x request parser

A shallow embedding of `httpparser/chunked.go` and `httpparser/httpparser.go`.

* A Go `byte` is a natural number below 256; a `[]byte` is a list of them
  (a `nil` slice and an empty slice are both the empty list).
* A Go `int` is a 64-bit two's-complement integer: arithmetic on it is done in
  `Int` and reduced with `wrap64`.
* A Go `uint` (the fields `headerValueBegin` and `startLineOffset`) is a natural
  number; the one addition made on it is reduced modulo `2 ^ 64`.
* Callbacks act on an explicit observer state `σ`.
* A slice expression out of range is a run-time panic: the functions that
  slice return `Option`, `none` being the panic.
-/

namespace httpparser

abbrev Bytes := List Nat

/-- Reduction of an integer to the range of a 64-bit Go `int`. -/
def wrap64 (x : Int) : Int := (x + 2 ^ 63) % 2 ^ 64 - 2 ^ 63

/-- The slice expression `data[lo:hi]` with `hi ≤ len(data)`; `none` is the
bounds panic. -/
def slice (data : Bytes) (lo hi : Int) : Option Bytes :=
  if 0 ≤ lo ∧ lo ≤ hi ∧ hi ≤ (data.length : Int) then
    some ((data.take hi.toNat).drop lo.toNat)
  else none

/-- The slice expression `data[lo:]`. -/
def sliceFrom (data : Bytes) (lo : Int) : Option Bytes :=
  slice data lo data.length

/-- Error values: the package's error variables, a value of type `Upgrade`,
and any other error value a callback may return. -/
inductive Err where
  | ErrInvalidMethod
  | ErrInvalidPath
  | ErrBufferOverflow
  | ErrProtocolNotSupported
  | ErrRequestSyntaxError
  | ErrInvalidHeader
  | ErrInvalidContentLength
  | ErrInvalidChunkSize
  | ErrTooBigChunkSize
  | ErrInvalidChunkSplitter
  | ErrBodyTooBig
  | ErrParserIsDead
  | ErrConnectionClosed
  | Upgrade (tag : Nat)
  | other (tag : Nat)
  deriving DecidableEq, Repr

/-! ## chunked.go -/

inductive chunkedBodyState where
  | chunkLength
  | chunkLengthCR
  | chunkBody
  | chunkBodyEnd
  | chunkBodyCR
  | lastChunk
  | lastChunkCR
  | transferCompleted
  deriving DecidableEq, Repr

structure chunkedBodyParser where
  state : chunkedBodyState
  chunkLength : Int
  chunkBodyBegin : Int
  maxChunkSize : Int
  deriving DecidableEq, Repr

def NewChunkedBodyParser (maxChunkSize : Int) : chunkedBodyParser :=
  { state := .chunkLength, chunkLength := 0, chunkBodyBegin := 0, maxChunkSize := maxChunkSize }

def chunkedBodyParser.Clear (p : chunkedBodyParser) : chunkedBodyParser :=
  { p with state := .chunkLength, chunkLength := 0 }

def chunkedBodyParser.complete (p : chunkedBodyParser) : chunkedBodyParser :=
  { p with state := .transferCompleted }

/-- What one `Feed` call of the chunked parser leaves behind: the parser, the
observer state after the body callbacks, and the three returned values. -/
structure ChunkedResult (σ : Type) where
  parser : chunkedBodyParser
  obs : σ
  done : Bool
  extraBytes : Bytes
  err : Option Err

/-- The test of line 60 of chunked.go, as written there. -/
def hexRangeCheckFails (char : Nat) : Bool :=
  (char < 48 && char > 57) && (char < 97 && char > 102) && (char < 65 && char > 70)

/-- The byte expression `(char&0xF)+9*(char>>6)` converted to `int`. -/
def nibble (char : Nat) : Int :=
  (((char &&& 0xF) + 9 * (char >>> 6)) % 256 : Nat)

/-- The `for i, char := range data` loop of `chunkedBodyParser.Feed` together
with the statements after it; `rest` is `data[i:]`. -/
def chunkedBodyParser.feedLoop {σ : Type} (callback : σ → Bytes → σ) (data : Bytes) :
    Nat → Bytes → chunkedBodyParser → σ → Option (ChunkedResult σ)
  | _, [], p, s =>
    if p.state = .chunkBody then
      match sliceFrom data p.chunkBodyBegin with
      | none => none
      | some piece =>
        some ⟨{ p with chunkBodyBegin := 0 }, callback s piece, false, [], none⟩
    else
      some ⟨{ p with chunkBodyBegin := 0 }, s, false, [], none⟩
  | i, char :: rest, p, s =>
    match p.state with
    | .chunkLength =>
      if char = 13 then
        feedLoop callback data (i + 1) rest { p with state := .chunkLengthCR } s
      else if char = 10 then
        if p.chunkLength = 0 then
          feedLoop callback data (i + 1) rest { p with state := .lastChunk } s
        else
          feedLoop callback data (i + 1) rest
            { p with chunkBodyBegin := (i : Int) + 1, state := .chunkBody } s
      else if hexRangeCheckFails char then
        some ⟨p.complete, s, true, [], some .ErrInvalidChunkSize⟩
      else
        let p1 := { p with chunkLength := wrap64 (wrap64 (p.chunkLength * 16) + nibble char) }
        if p1.chunkLength > p1.maxChunkSize then
          some ⟨p1.complete, s, true, [], some .ErrTooBigChunkSize⟩
        else
          feedLoop callback data (i + 1) rest p1 s
    | .chunkLengthCR =>
      if char ≠ 10 then
        some ⟨p.complete, s, true, [], some .ErrInvalidChunkSplitter⟩
      else if p.chunkLength = 0 then
        feedLoop callback data (i + 1) rest { p with state := .lastChunk } s
      else
        feedLoop callback data (i + 1) rest
          { p with chunkBodyBegin := (i : Int) + 1, state := .chunkBody } s
    | .chunkBody =>
      let p1 := { p with chunkLength := wrap64 (p.chunkLength - 1) }
      if p1.chunkLength = 0 then
        feedLoop callback data (i + 1) rest { p1 with state := .chunkBodyEnd } s
      else
        feedLoop callback data (i + 1) rest p1 s
    | .chunkBodyEnd =>
      match slice data p.chunkBodyBegin i with
      | none => none
      | some piece =>
        let s1 := callback s piece
        if char = 13 then
          feedLoop callback data (i + 1) rest { p with state := .chunkBodyCR } s1
        else if char = 10 then
          feedLoop callback data (i + 1) rest { p with state := .chunkLength } s1
        else
          some ⟨p.complete, s1, true, [], some .ErrInvalidChunkSplitter⟩
    | .chunkBodyCR =>
      if char ≠ 10 then
        some ⟨p.complete, s, true, [], some .ErrInvalidChunkSplitter⟩
      else
        feedLoop callback data (i + 1) rest { p with state := .chunkLength } s
    | .lastChunk =>
      if char = 13 then
        feedLoop callback data (i + 1) rest { p with state := .lastChunkCR } s
      else if char = 10 then
        some ⟨p.complete, s, true, rest, none⟩
      else
        some ⟨p.complete, s, true, [], some .ErrInvalidChunkSplitter⟩
    | .lastChunkCR =>
      if char ≠ 10 then
        some ⟨p.complete, s, true, [], some .ErrInvalidChunkSplitter⟩
      else
        some ⟨p.complete, s, true, rest, none⟩
    | .transferCompleted =>
      feedLoop callback data (i + 1) rest p s

/-- The method `chunkedBodyParser.Feed`. -/
def chunkedBodyParser.Feed {σ : Type} (callback : σ → Bytes → σ) (p : chunkedBodyParser)
    (s : σ) (data : Bytes) : Option (ChunkedResult σ) :=
  let p0 := if p.state = .transferCompleted then p.Clear else p
  if data.length = 0 then
    some ⟨p0, s, false, [], none⟩
  else
    chunkedBodyParser.feedLoop callback data 0 data p0 s


/-! ## settings.go -/

def maxMethodLength : Nat := 7
def maxProtocolLength : Nat := 10
def maxPathLength : Int := 4092
def maxHeaderLineLength : Int := 4092
def maxBodyLength : Int := 2147483647
def maxChunkLength : Int := 65535
def initialPathBufferLength : Int := 2046
def initialHeadersBufferLength : Int := 2046

/-- A byte slice used as a scratch buffer: its contents and its capacity.
The `nil` slice has no contents and capacity 0. -/
structure Buffer where
  bytes : Bytes
  cap : Nat
  deriving DecidableEq, Repr

def Buffer.nil : Buffer := ⟨[], 0⟩

/-- The call `make([]byte, 0, n)`. -/
def Buffer.make (n : Int) : Buffer := ⟨[], n.toNat⟩

/-- The reslice `b[:0]`. -/
def Buffer.truncate (b : Buffer) : Buffer := ⟨[], b.cap⟩

/-- Capacity chosen by the Go runtime when `append` outgrows a slice. The
language leaves the policy open; doubling stands for it here. -/
def growslice (oldCap : Nat) : Nat := 2 * oldCap + 8

/-- The call `append(b, c)`. -/
def Buffer.append (b : Buffer) (c : Nat) : Buffer :=
  ⟨b.bytes ++ [c], if b.bytes.length < b.cap then b.cap else growslice b.cap⟩

structure Settings where
  MaxPathLength : Int
  MaxHeaderLineLength : Int
  MaxBodyLength : Int
  MaxChunkLength : Int
  InitialPathBufferLength : Int
  InitialHeadersBufferLength : Int
  maxBufferLength : Int
  /-- The field `Buffer []byte`; `none` is `nil`. -/
  Buffer : Option Buffer
  deriving DecidableEq, Repr

def PrepareSettings (settings : Settings) : Settings :=
  let settings := if settings.MaxPathLength < 1 then
    { settings with MaxPathLength := maxPathLength } else settings
  let settings := if settings.MaxHeaderLineLength < 1 then
    { settings with MaxHeaderLineLength := maxHeaderLineLength } else settings
  let settings := if settings.MaxBodyLength < 1 then
    { settings with MaxBodyLength := maxBodyLength } else settings
  let settings := if settings.MaxChunkLength < 1 then
    { settings with MaxChunkLength := maxChunkLength } else settings
  let settings := if settings.InitialPathBufferLength < 1 then
    { settings with InitialPathBufferLength := initialPathBufferLength } else settings
  let settings := if settings.InitialHeadersBufferLength < 1 then
    { settings with InitialHeadersBufferLength := initialHeadersBufferLength } else settings
  let settings :=
    [settings.MaxPathLength, settings.MaxHeaderLineLength, settings.MaxBodyLength].foldl
      (fun st value => if value > st.maxBufferLength then { st with maxBufferLength := value } else st)
      settings
  if settings.Buffer = none then
    { settings with Buffer := some (Buffer.make settings.maxBufferLength) }
  else settings

/-! ## httpparser.go -/

/-- The bytes of a string literal, as in `[]byte("...")`. -/
def str (s : String) : Bytes := s.toList.map Char.toNat

def contentLength : Bytes := str "content-length"
def transferEncoding : Bytes := str "transfer-encoding"
def connection : Bytes := str "connection"
def chunked : Bytes := str "chunked"
def closeConnection : Bytes := str "close"

/-- The interface `Protocol`: every callback acts on the observer state and
returns an error value (`none` is `nil`). -/
structure Protocol (σ : Type) where
  OnMessageBegin : σ → σ × Option Err
  OnMethod : σ → Bytes → σ × Option Err
  OnPath : σ → Bytes → σ × Option Err
  OnProtocol : σ → Bytes → σ × Option Err
  OnHeadersBegin : σ → σ × Option Err
  OnHeader : σ → Bytes → Bytes → σ × Option Err
  OnHeadersComplete : σ → σ × Option Err
  OnBody : σ → Bytes → σ × Option Err
  OnMessageComplete : σ → σ × Option Err

inductive parsingState where
  | dead
  | messageBegin
  | method
  | path
  | protocol
  | protocolCR
  | protocolLF
  | headerKey
  | headerColon
  | headerValue
  | headerValueCR
  | headerValueLF
  | headerValueDoubleCR
  | body
  | bodyConnectionClose
  deriving DecidableEq, Repr

/-- The struct `httpRequestParser`; its `protocol` field is passed to the
methods as a separate argument. -/
structure httpRequestParser where
  settings : Settings
  state : parsingState
  headerValueBegin : Nat
  headersBuffer : Buffer
  startLineBuff : Buffer
  startLineOffset : Nat
  bodyBytesLeft : Int
  closeConnection : Bool
  isChunked : Bool
  chunksParser : chunkedBodyParser
  deriving DecidableEq, Repr

/-- Modelled from the spec: `IsMethodValid` is called by `Feed` but is not
among the sources; the spec gives the whitelist
`GET POST PUT DELETE HEAD OPTIONS PATCH TRACE CONNECT`. -/
def IsMethodValid (method : Bytes) : Bool :=
  [str "GET", str "POST", str "PUT", str "DELETE", str "HEAD", str "OPTIONS", str "PATCH",
    str "TRACE", str "CONNECT"].contains method

/-- Modelled from the spec: `ascii.IsPrint` of the imported package go-ascii,
the printable ASCII bytes 0x20 to 0x7E. -/
def IsPrint (c : Nat) : Bool := 0x20 ≤ c && c ≤ 0x7E

/-- Modelled from the spec: `parseUint` is called by `Feed` but is not among
the sources; the spec says the value is parsed as an unsigned decimal integer
and that failure is reported. A value that is empty, holds a byte that is not a
decimal digit, or does not fit a Go `int` is a failure (`none`). -/
def parseUint (raw : Bytes) : Option Int :=
  if raw = [] then none
  else if raw.all (fun c => 48 ≤ c && c ≤ 57) then
    let v : Nat := raw.foldl (fun acc c => 10 * acc + (c - 48)) 0
    if v < 2 ^ 63 then some v else none
  else none

def IsProtocolSupported (proto : Bytes) : Bool :=
  if proto = str "HTTP/1.1" ∨ proto = str "HTTP/1.0" ∨ proto = str "HTTP/0.9" ∨
      proto = str "http/1.1" ∨ proto = str "http/1.0" ∨ proto = str "http/0.9" then true
  else false

/-- The loop `for i, char := range sample` comparing `char` with
`data[i] | 0x20`; `none` is the index panic when `data` is too short. -/
def foldLoop : Bytes → Bytes → Option Bool
  | [], _ => some true
  | _ :: _, [] => none
  | char :: sample, d :: data => if char ≠ (d ||| 0x20) % 256 then some false else foldLoop sample data

def EqualFold (sample data : Bytes) : Option Bool :=
  if sample.length ≠ data.length then some false else foldLoop sample data

def httpRequestParser.Clear (p : httpRequestParser) : httpRequestParser :=
  { p with
    state := .method
    isChunked := false
    headersBuffer := p.headersBuffer.truncate
    startLineBuff := p.startLineBuff.truncate
    startLineOffset := 0 }

def httpRequestParser.die (p : httpRequestParser) : httpRequestParser :=
  { p with state := .dead, headersBuffer := Buffer.nil, startLineBuff := Buffer.nil }

/-- How one pass through the body of the `for` loop of `Feed` ends. -/
inductive Step (σ : Type) where
  /-- The loop goes on with the next byte. -/
  | next (p : httpRequestParser) (s : σ)
  /-- `Feed` returns `err`. -/
  | ret (p : httpRequestParser) (s : σ) (err : Option Err)
  /-- `Feed` calls itself on `extra` and returns what that call returns. -/
  | refeed (p : httpRequestParser) (s : σ) (extra : Bytes)
  /-- A slice or index expression is out of range. -/
  | panic

/-- Sequencing: `k` runs when the first part falls through. -/
def Step.andThen {σ : Type} (st : Step σ) (k : httpRequestParser → σ → Step σ) : Step σ :=
  match st with
  | .next p s => k p s
  | .ret p s err => .ret p s err
  | .refeed p s extra => .refeed p s extra
  | .panic => .panic

/-- The statements `if reqErr = callback(); reqErr != nil { p.die(); return reqErr }`
applied to the outcome of the callback. -/
def httpRequestParser.orDie {σ : Type} (p : httpRequestParser) (r : σ × Option Err) : Step σ :=
  match r with
  | (s, none) => .next p s
  | (s, some e) => .ret p.die s (some e)

/-- The statements `p.Clear(); reqErr = p.protocol.OnMessageComplete()` and the
type switch on `reqErr` that follows them. -/
def httpRequestParser.completeMessage {σ : Type} (P : Protocol σ) (p : httpRequestParser)
    (s : σ) : Step σ :=
  let p := p.Clear
  match P.OnMessageComplete s with
  | (s, none) => .next p s
  | (s, some (.Upgrade tag)) => .ret { p with state := .messageBegin } s (some (.Upgrade tag))
  | (s, some e) => .ret p.die s (some e)

/-- The method `pushBodyPiece`: the parser and observer afterwards and the
returned `done`, `extra`, `err`; `none` is a panic. The chunked parser is
given `p.protocol.OnBody` as its callback and drops the error it returns. -/
def httpRequestParser.pushBodyPiece {σ : Type} (P : Protocol σ) (p : httpRequestParser)
    (s : σ) (data : Bytes) : Option (httpRequestParser × σ × Bool × Bytes × Option Err) :=
  if p.isChunked then
    match p.chunksParser.Feed (fun s piece => (P.OnBody s piece).1) s data with
    | none => none
    | some r => some ({ p with chunksParser := r.parser }, r.obs, r.done, r.extraBytes, r.err)
  else
    let dataLen : Int := data.length
    if p.bodyBytesLeft > dataLen then
      match P.OnBody s data with
      | (s, some e) => some (p, s, true, [], some e)
      | (s, none) => some ({ p with bodyBytesLeft := wrap64 (p.bodyBytesLeft - dataLen) }, s, false, [], none)
    else if p.bodyBytesLeft ≤ 0 then
      some (p, s, true, data, none)
    else
      match slice data 0 p.bodyBytesLeft, sliceFrom data p.bodyBytesLeft with
      | some piece, some extra =>
        match P.OnBody s piece with
        | (s, some e) => some (p, s, true, [], some e)
        | (s, none) => some (p, s, true, extra, none)
      | _, _ => none

/-- The choice of body framing once the header block has ended, shared by the
states `headerValueLF` (after `OnHeadersComplete`) and `headerValueDoubleCR`. -/
def httpRequestParser.chooseBody {σ : Type} (P : Protocol σ) (p : httpRequestParser)
    (s : σ) : Step σ :=
  if p.closeConnection then
    .next { p with state := .bodyConnectionClose, bodyBytesLeft := p.settings.MaxBodyLength } s
  else if p.bodyBytesLeft = 0 ∧ ¬ p.isChunked then
    (p.completeMessage P s).andThen fun p s => p.orDie (P.OnMessageBegin s)
  else
    .next { p with state := .body } s

/-- The three recognised headers of state `headerValueLF`: the `switch len(key)`
with its comparison loops. -/
def httpRequestParser.interpretHeader {σ : Type} (p : httpRequestParser) (s : σ)
    (key value : Bytes) : Step σ :=
  if key.length = contentLength.length then
    match foldLoop contentLength key with
    | none => .panic
    | some false => .next p s
    | some true =>
      match parseUint value with
      | none => .ret { p with bodyBytesLeft := 0 }.die s (some .ErrInvalidContentLength)
      | some n => .next { p with bodyBytesLeft := n } s
  else if key.length = transferEncoding.length then
    match foldLoop transferEncoding key with
    | none => .panic
    | some false => .next p s
    | some true =>
      match EqualFold chunked value with
      | none => .panic
      | some b => .next { p with isChunked := b } s
  else if key.length = connection.length then
    match foldLoop connection key with
    | none => .panic
    | some false => .next p s
    | some true =>
      match EqualFold httpparser.closeConnection value with
      | none => .panic
      | some b => .next { p with closeConnection := b } s
  else .next p s

/-- One pass through the body of the loop `for i := 0; i < len(data); i++` of
`Feed`: `c` is `data[i]` and `rest` is `data[i+1:]`. -/
def httpRequestParser.feedStep {σ : Type} (P : Protocol σ) (p : httpRequestParser) (s : σ)
    (c : Nat) (rest : Bytes) : Step σ :=
  match p.state with
  | .method =>
    if c = 32 then
      if ¬ IsMethodValid p.startLineBuff.bytes then
        .ret p.die s (some .ErrInvalidMethod)
      else
        (p.orDie (P.OnMethod s p.startLineBuff.bytes)).andThen fun p s =>
          .next { p with startLineOffset := p.startLineBuff.bytes.length, state := .path } s
    else
      let p := { p with startLineBuff := p.startLineBuff.append c }
      if p.startLineBuff.bytes.length > maxMethodLength then
        .ret p.die s (some .ErrInvalidMethod)
      else .next p s
  | .path =>
    if c = 32 then
      if p.startLineBuff.bytes.length = p.startLineOffset then
        .ret p.die s (some .ErrInvalidPath)
      else
        match sliceFrom p.startLineBuff.bytes p.startLineOffset with
        | none => .panic
        | some piece =>
          (p.orDie (P.OnPath s piece)).andThen fun p s =>
            .next { p with
              startLineOffset := (p.startLineOffset + piece.length) % 2 ^ 64
              state := .protocol } s
    else if ¬ IsPrint c then
      .ret p.die s (some .ErrInvalidPath)
    else
      let p := { p with startLineBuff := p.startLineBuff.append c }
      match sliceFrom p.startLineBuff.bytes p.startLineOffset with
      | none => .panic
      | some piece =>
        if (piece.length : Int) > p.settings.MaxPathLength then
          .ret p.die s (some .ErrBufferOverflow)
        else .next p s
  | .protocol =>
    if c = 13 then .next { p with state := .protocolCR } s
    else if c = 10 then .next { p with state := .protocolLF } s
    else
      let p := { p with startLineBuff := p.startLineBuff.append c }
      match sliceFrom p.startLineBuff.bytes p.startLineOffset with
      | none => .panic
      | some piece =>
        if piece.length > maxProtocolLength then
          .ret p.die s (some .ErrBufferOverflow)
        else .next p s
  | .protocolCR =>
    if c ≠ 10 then .ret p.die s (some .ErrRequestSyntaxError)
    else .next { p with state := .protocolLF } s
  | .protocolLF =>
    match sliceFrom p.startLineBuff.bytes p.startLineOffset with
    | none => .panic
    | some proto =>
      if ¬ IsProtocolSupported proto then
        .ret p.die s (some .ErrProtocolNotSupported)
      else
        (p.orDie (P.OnProtocol s proto)).andThen fun p s =>
        (p.orDie (P.OnHeadersBegin s)).andThen fun p s =>
          if c = 13 then .next { p with state := .headerValueDoubleCR } s
          else if c = 10 then
            (p.orDie (P.OnHeadersComplete s)).andThen fun p s => p.completeMessage P s
          else if ¬ IsPrint c ∨ c = 58 then
            .ret p.die s (some .ErrInvalidHeader)
          else
            .next { p with headersBuffer := p.headersBuffer.append c, state := .headerKey } s
  | .headerKey =>
    if c = 58 then
      .next { p with state := .headerColon, headerValueBegin := p.headersBuffer.bytes.length } s
    else if ¬ IsPrint c then
      .ret p.die s (some .ErrInvalidHeader)
    else
      let p := { p with headersBuffer := p.headersBuffer.append c }
      if (p.headersBuffer.bytes.length : Int) ≥ p.settings.MaxHeaderLineLength then
        .ret p.die s (some .ErrBufferOverflow)
      else .next p s
  | .headerColon =>
    let p := { p with state := .headerValue }
    if ¬ IsPrint c then
      .ret p.die s (some .ErrInvalidHeader)
    else if c ≠ 32 then
      .next { p with headersBuffer := p.headersBuffer.append c } s
    else .next p s
  | .headerValue =>
    if c = 13 then .next { p with state := .headerValueCR } s
    else if c = 10 then .next { p with state := .headerValueLF } s
    else if ¬ IsPrint c then
      .ret p.die s (some .ErrInvalidHeader)
    else
      let p := { p with headersBuffer := p.headersBuffer.append c }
      if (p.headersBuffer.bytes.length : Int) > p.settings.MaxHeaderLineLength then
        .ret p.die s (some .ErrBufferOverflow)
      else .next p s
  | .headerValueCR =>
    if c ≠ 10 then .ret p.die s (some .ErrRequestSyntaxError)
    else .next { p with state := .headerValueLF } s
  | .headerValueLF =>
    match slice p.headersBuffer.bytes 0 p.headerValueBegin,
        sliceFrom p.headersBuffer.bytes p.headerValueBegin with
    | some key, some value =>
      (p.orDie (P.OnHeader s key value)).andThen fun p s =>
      (p.interpretHeader s key value).andThen fun p s =>
        if c = 13 then .next { p with state := .headerValueDoubleCR } s
        else if c = 10 then
          (p.orDie (P.OnHeadersComplete s)).andThen fun p s => p.chooseBody P s
        else
          .next { p with
            headersBuffer := p.headersBuffer.truncate.append c
            state := .headerKey } s
    | _, _ => .panic
  | .headerValueDoubleCR =>
    if c ≠ 10 then .ret p.die s (some .ErrRequestSyntaxError)
    else p.chooseBody P s
  | .body =>
    match p.pushBodyPiece P s (c :: rest) with
    | none => .panic
    | some (p, s, _, _, some err) => .ret p.die s (some err)
    | some (p, s, true, extra, none) =>
      (p.completeMessage P s).andThen fun p s =>
      (p.orDie (P.OnMessageBegin s)).andThen fun p s => .refeed p s extra
    | some (p, s, false, _, none) => .ret p s none
  | .bodyConnectionClose =>
    let p := { p with bodyBytesLeft := wrap64 (p.bodyBytesLeft - ((c :: rest).length : Int)) }
    if p.bodyBytesLeft < (0 : Int) then
      .ret p.die s (some .ErrBodyTooBig)
    else
      (p.orDie (P.OnBody s (c :: rest))).andThen fun p s => .ret p s none
  | .dead => .next p s
  | .messageBegin => .next p s

/-- What a `Feed` call leaves behind: the parser, the observer state and the
returned error. -/
structure FeedResult (σ : Type) where
  parser : httpRequestParser
  obs : σ
  err : Option Err
  deriving DecidableEq

/-- How a call runs: it returns, it panics, or the depth allowed for the
calls of `Feed` to itself is used up. -/
inductive Run (α : Type) where
  | ret (a : α)
  | panic
  | outOfFuel
  deriving DecidableEq

/-- The loop `for i := 0; i < len(data); i++` of `Feed` over the bytes not yet
read; `refeed` is the call of `Feed` to itself. -/
def httpRequestParser.feedLoop {σ : Type}
    (refeed : httpRequestParser → σ → Bytes → Run (FeedResult σ)) (P : Protocol σ) :
    httpRequestParser → σ → Bytes → Run (FeedResult σ)
  | p, s, [] => .ret ⟨p, s, none⟩
  | p, s, c :: rest =>
    match p.feedStep P s c rest with
    | .next p s => feedLoop refeed P p s rest
    | .ret p s err => .ret ⟨p, s, err⟩
    | .refeed p s extra => refeed p s extra
    | .panic => .panic

/-- The part of `Feed` for `len(data) == 0`. -/
def httpRequestParser.feedEmpty {σ : Type} (P : Protocol σ) (p : httpRequestParser) (s : σ) :
    FeedResult σ :=
  if p.closeConnection then
    let p := p.die
    match P.OnMessageComplete s with
    | (s, some e) => ⟨p, s, some e⟩
    | (s, none) =>
      match P.OnMessageComplete s with
      | (s, some (.Upgrade tag)) => ⟨p, s, some (.Upgrade tag)⟩
      | (s, _) => ⟨p, s, some .ErrConnectionClosed⟩
  else ⟨p, s, none⟩

/-- The `case body:` of the switch at the head of `Feed`. -/
def httpRequestParser.feedBody {σ : Type} (P : Protocol σ) (p : httpRequestParser) (s : σ)
    (data : Bytes) : Step σ :=
  match p.pushBodyPiece P s data with
  | none => .panic
  | some (p, s, _, _, some err) => .ret p.die s (some err)
  | some (p, s, true, extra, none) =>
    (p.completeMessage P s).andThen fun p s =>
    (p.orDie (P.OnMessageBegin s)).andThen fun p s =>
      if extra.length > 0 then .refeed p s extra else .ret p s none
  | some (p, s, false, _, none) => .ret p s none

/-- The method `Feed`, its calls to itself nested at most `fuel` deep. -/
def httpRequestParser.FeedN {σ : Type} (P : Protocol σ) :
    Nat → httpRequestParser → σ → Bytes → Run (FeedResult σ)
  | 0, _, _, _ => .outOfFuel
  | fuel + 1, p, s, data =>
    if data.length = 0 then .ret (p.feedEmpty P s)
    else
      match p.state with
      | .dead => .ret ⟨p, s, some .ErrParserIsDead⟩
      | .messageBegin =>
        match p.orDie (P.OnMessageBegin s) with
        | .next p s => httpRequestParser.feedLoop (FeedN P fuel) P { p with state := .method } s data
        | .ret p s err => .ret ⟨p, s, err⟩
        | .refeed p s extra => FeedN P fuel p s extra
        | .panic => .panic
      | .body =>
        match p.feedBody P s data with
        | .next p s => .ret ⟨p, s, none⟩
        | .ret p s err => .ret ⟨p, s, err⟩
        | .refeed p s extra => FeedN P fuel p s extra
        | .panic => .panic
      | _ => httpRequestParser.feedLoop (FeedN P fuel) P p s data

/-- The method `Feed`. A call of `Feed` to itself is made on bytes that
follow a completed message, so `len(data) + 2` bounds the nesting. -/
def httpRequestParser.Feed {σ : Type} (P : Protocol σ) (p : httpRequestParser) (s : σ)
    (data : Bytes) : Run (FeedResult σ) :=
  httpRequestParser.FeedN P (data.length + 2) p s data

/-- Modelled from the spec: the `Settings` fields `HeadersBuffer` and
`StartLineBuffer` read by `NewHTTPRequestParser` are not declared in
settings.go. Following the settings table of the spec, the start-line buffer
is the prepared `Buffer` and the headers buffer is empty with the initial
headers capacity. -/
def NewHTTPRequestParser {σ : Type} (P : Protocol σ) (s : σ) (settings : Settings) :
    σ × Except Err httpRequestParser :=
  match P.OnMessageBegin s with
  | (s, some err) => (s, .error err)
  | (s, none) =>
    let settings := PrepareSettings settings
    (s, .ok
      { settings := settings
        state := .method
        headerValueBegin := 0
        headersBuffer := Buffer.make settings.InitialHeadersBufferLength
        startLineBuff := settings.Buffer.getD Buffer.nil
        startLineOffset := 0
        bodyBytesLeft := 0
        closeConnection := false
        isChunked := false
        chunksParser := NewChunkedBodyParser settings.MaxChunkLength })

/-! ## Definitions used to state the properties -/

/-- The byte is one of `0`-`9`, `a`-`f`, `A`-`F`. -/
def isHexDigit (c : Nat) : Bool :=
  (48 ≤ c && c ≤ 57) || (97 ≤ c && c ≤ 102) || (65 ≤ c && c ≤ 70)

/-- The value of a hexadecimal digit. -/
def hexDigitValue (c : Nat) : Nat :=
  if c ≤ 57 then c - 48 else if c ≤ 70 then c - 55 else c - 87

/-- The number read so far, `v`, continued by the hexadecimal digits. -/
def hexFold (v : Nat) (digits : Bytes) : Nat :=
  digits.foldl (fun acc c => 16 * acc + hexDigitValue c) v

/-- The number a string of hexadecimal digits denotes. -/
def hexValue (digits : Bytes) : Nat := hexFold 0 digits

/-- A chunk of a chunked body: the digits of its size line and its payload. -/
structure Chunk where
  sizeLine : Bytes
  payload : Bytes

/-- The size line is a non-empty string of hexadecimal digits that denotes the
length of the payload, which is not empty and within the chunk limit. -/
def Chunk.wellFormed (maxChunkSize : Int) (c : Chunk) : Prop :=
  c.sizeLine ≠ [] ∧ (∀ d ∈ c.sizeLine, isHexDigit d = true) ∧
    hexValue c.sizeLine = c.payload.length ∧ 0 < c.payload.length ∧
    (c.payload.length : Int) ≤ maxChunkSize

/-- The chunk on the wire: size line, CRLF, payload, CRLF. -/
def Chunk.encode (c : Chunk) : Bytes :=
  c.sizeLine ++ [13, 10] ++ c.payload ++ [13, 10]

/-- The chunks on the wire, one after the other. -/
def encodeChunks (chunks : List Chunk) : Bytes :=
  (chunks.map Chunk.encode).flatten

/-- A chunked body on the wire: the chunks, the size line of the zero chunk,
its CRLF and the final CRLF. -/
def encodeBody (chunks : List Chunk) (zeroLine : Bytes) : Bytes :=
  encodeChunks chunks ++ zeroLine ++ [13, 10, 13, 10]

/-- The callbacks a recording observer has seen, in order. -/
inductive Event where
  | messageBegin
  | method (b : Bytes)
  | path (b : Bytes)
  | protocol (b : Bytes)
  | headersBegin
  | header (key value : Bytes)
  | headersComplete
  | body (b : Bytes)
  | messageComplete
  deriving DecidableEq, Repr

/-- The observer that records every callback and never returns an error. -/
def recorder : Protocol (List Event) where
  OnMessageBegin := fun t => (t ++ [.messageBegin], none)
  OnMethod := fun t b => (t ++ [.method b], none)
  OnPath := fun t b => (t ++ [.path b], none)
  OnProtocol := fun t b => (t ++ [.protocol b], none)
  OnHeadersBegin := fun t => (t ++ [.headersBegin], none)
  OnHeader := fun t k v => (t ++ [.header k v], none)
  OnHeadersComplete := fun t => (t ++ [.headersComplete], none)
  OnBody := fun t b => (t ++ [.body b], none)
  OnMessageComplete := fun t => (t ++ [.messageComplete], none)

/-- The zero value of `Settings`. -/
def zeroSettings : Settings := ⟨0, 0, 0, 0, 0, 0, 0, none⟩

/-- The value a call returned, if it returned. -/
def Run.toOption {α : Type} : Run α → Option α
  | .ret a => some a
  | .panic => none
  | .outOfFuel => none

/-- The parser that `NewHTTPRequestParser` builds from the zero `Settings`. -/
def freshParser : httpRequestParser :=
  { settings := PrepareSettings zeroSettings
    state := .method
    headerValueBegin := 0
    headersBuffer := Buffer.make initialHeadersBufferLength
    startLineBuff := Buffer.make maxBodyLength
    startLineOffset := 0
    bodyBytesLeft := 0
    closeConnection := false
    isChunked := false
    chunksParser := NewChunkedBodyParser maxChunkLength }

/-- The body callback that records each payload it is given, in order. -/
def collect (seen : List Bytes) (piece : Bytes) : List Bytes := seen ++ [piece]

/-- Two `Feed` calls of the chunked parser in a row, the second on what the
first left, unless the first reported `done`. -/
def chunkedBodyParser.feedTwo {σ : Type} (callback : σ → Bytes → σ) (p : chunkedBodyParser)
    (s : σ) (b1 b2 : Bytes) : Option (ChunkedResult σ) :=
  match p.Feed callback s b1 with
  | none => none
  | some r => if r.done then some r else r.parser.Feed callback r.obs b2

/-- The error is a value of type `Upgrade`. -/
def Err.isUpgrade : Err → Bool
  | .Upgrade _ => true
  | _ => false

/-- The parser was left by `die`: dead, both buffers `nil`. -/
def httpRequestParser.killed (p : httpRequestParser) : Prop :=
  p.state = .dead ∧ p.headersBuffer = Buffer.nil ∧ p.startLineBuff = Buffer.nil

/-- The state `dead` is only ever set by `die`, which also sets both buffers
to `nil`: a parser that is dead has no buffers. -/
def httpRequestParser.deadIsCleared (p : httpRequestParser) : Prop :=
  p.state = .dead → p.headersBuffer = Buffer.nil ∧ p.startLineBuff = Buffer.nil

/-- What holds of the outcome of a pass through the loop: the loop goes on
with a live parser, and a return with an error other than an `Upgrade` comes
after `die`. -/
def Step.good {σ : Type} : Step σ → Prop
  | .next p _ => p.state ≠ .dead
  | .ret p _ err => p.deadIsCleared ∧ ∀ e, err = some e → e.isUpgrade = false → p.killed
  | .refeed p _ _ => p.state ≠ .dead
  | .panic => True

/-- A call that returns an error other than an `Upgrade` leaves the parser
dead with both buffers `nil`. -/
def Run.kills {σ : Type} (r : Run (FeedResult σ)) : Prop :=
  ∀ res e, r = .ret res → res.err = some e → e.isUpgrade = false → res.parser.killed

/-- A call that returns leaves a parser that is not dead or has no buffers. -/
def Run.keeps {σ : Type} (r : Run (FeedResult σ)) : Prop :=
  ∀ res, r = .ret res → res.parser.deadIsCleared

/-- None of the callbacks made in state `protocolLF` returns the error `e`. -/
def Protocol.neverReturns {σ : Type} (P : Protocol σ) (e : Err) : Prop :=
  (∀ s b, (P.OnProtocol s b).2 ≠ some e) ∧ (∀ s, (P.OnHeadersBegin s).2 ≠ some e) ∧
    (∀ s, (P.OnHeadersComplete s).2 ≠ some e) ∧ (∀ s, (P.OnMessageComplete s).2 ≠ some e)

/-- The six protocol tokens of the switch in `IsProtocolSupported`. -/
def supportedProtocols : List Bytes :=
  [str "HTTP/1.1", str "HTTP/1.0", str "HTTP/0.9", str "http/1.1", str "http/1.0", str "http/0.9"]

/-- The slices fed one after the other, each to the parser the call before
left; feeding stops at the first call that returns an error. -/
def httpRequestParser.feedAll {σ : Type} (P : Protocol σ) :
    httpRequestParser → σ → List Bytes → Run (FeedResult σ)
  | p, s, [] => .ret ⟨p, s, none⟩
  | p, s, d :: ds =>
    match p.Feed P s d with
    | .ret ⟨q, t, none⟩ => feedAll P q t ds
    | other => other

/-- The step does not end in a call of `Feed` to itself. -/
def Step.noRefeed {σ : Type} : Step σ → Prop
  | .refeed _ _ _ => False
  | _ => True

/-- The step ends the call of `Feed`, and when it does so by a call of `Feed`
to itself, that call is on at most `bound` bytes with the parser in state
`method`. -/
def Step.bodyOk {σ : Type} (bound : Nat) : Step σ → Prop
  | .next _ _ => False
  | .refeed p _ extra => p.state = .method ∧ extra.length ≤ bound
  | _ => True

/-- The loop of `Feed` over bytes that are each read in a state of the request
line or of the header block and after each of which the loop goes on: the
parser and the observer after the last of them. -/
def httpRequestParser.headRun {σ : Type} (P : Protocol σ) :
    httpRequestParser → σ → Bytes → Option (httpRequestParser × σ)
  | p, s, [] => some (p, s)
  | p, s, c :: rest =>
    if p.state = .body ∨ p.state = .bodyConnectionClose ∨ p.state = .dead ∨
        p.state = .messageBegin then none
    else
      match p.feedStep P s c [] with
      | .next q t => headRun P q t rest
      | _ => none

/-- The bytes `cs` appended to the buffer one by one. -/
def Buffer.appendAll (b : Buffer) (cs : Bytes) : Buffer := cs.foldl Buffer.append b

/-- A header line: its key and its value. -/
structure Header where
  key : Bytes
  value : Bytes

/-- A request head: the three tokens of the request line and the header lines. -/
structure Head where
  method : Bytes
  path : Bytes
  proto : Bytes
  headers : List Header

/-- The header line `key: value` with its CRLF. -/
def Header.encode (h : Header) : Bytes := h.key ++ [58, 32] ++ h.value ++ [13, 10]

/-- The bytes of the head: the request line, the header lines, each ended by
CRLF, and the CRLF that ends the header block. -/
def Head.encode (h : Head) : Bytes :=
  h.method ++ [32] ++ h.path ++ [32] ++ h.proto ++ [13, 10] ++
    (h.headers.map Header.encode).flatten ++ [13, 10]

/-- A header line the parser reads without error: a non-empty key of
printable bytes other than `:`, a value of printable bytes, both within the
limit on the length of a header line. -/
def Header.wellFormed (maxLine : Int) (h : Header) : Prop :=
  h.key ≠ [] ∧ (∀ c ∈ h.key, IsPrint c = true ∧ c ≠ 58) ∧ (∀ c ∈ h.value, IsPrint c = true) ∧
    (h.key.length : Int) < maxLine ∧ ((h.key.length + h.value.length : Nat) : Int) ≤ maxLine

/-- A head the parser reads without error under the settings `st`: a method
of the whitelist, a non-empty path of printable bytes other than the space and
within the path limit, one of the supported protocol tokens, and well-formed
header lines. -/
def Head.wellFormed (st : Settings) (h : Head) : Prop :=
  IsMethodValid h.method = true ∧
    h.path ≠ [] ∧ (∀ c ∈ h.path, IsPrint c = true ∧ c ≠ 32) ∧
    (h.path.length : Int) ≤ st.MaxPathLength ∧
    h.proto ∈ supportedProtocols ∧
    ∀ hd ∈ h.headers, hd.wellFormed st.MaxHeaderLineLength

/-- The callbacks the recorder sees for the head, headers-complete apart. -/
def Head.events (h : Head) : List Event :=
  [.method h.method, .path h.path, .protocol h.proto, .headersBegin] ++
    h.headers.map fun hd => .header hd.key hd.value

/-- The three framing fields of the parser. -/
structure Framing where
  bodyBytesLeft : Int
  isChunked : Bool
  closeConnection : Bool
  deriving DecidableEq

/-- The key is `sample` up to the case of its letters (bit 0x20 of each byte). -/
def foldsTo (sample key : Bytes) : Bool :=
  decide (key.length = sample.length) && decide (key.map (fun d => (d ||| 0x20) % 256) = sample)

/-- What a header line does to the framing fields: `Content-Length` sets the
body length, `Transfer-Encoding` sets or unsets chunked framing,
`Connection` sets or unsets close framing, any other header leaves them. A
`Content-Length` whose value is not a number has no framing. -/
def Header.framing (h : Header) (f : Framing) : Option Framing :=
  if foldsTo contentLength h.key then
    (parseUint h.value).map fun n => { f with bodyBytesLeft := n }
  else if foldsTo transferEncoding h.key then
    some { f with isChunked := foldsTo chunked h.value }
  else if foldsTo connection h.key then
    some { f with closeConnection := foldsTo httpparser.closeConnection h.value }
  else some f

/-- The framing fields after all the header lines, in order. -/
def framingOf : List Header → Framing → Option Framing
  | [], f => some f
  | h :: hs, f => (h.framing f).bind (framingOf hs)

/-- The parser awaits a request: state `method`, both buffers empty. -/
def httpRequestParser.awaitsRequest (p : httpRequestParser) : Prop :=
  p.state = .method ∧ p.startLineBuff.bytes = [] ∧ p.headersBuffer.bytes = []

/-- The head of scenario 3: `POST /a HTTP/1.0` with `Content-Length: 5`. -/
def scenario3Head : Head :=
  ⟨str "POST", str "/a", str "HTTP/1.0", [⟨str "Content-Length", str "5"⟩]⟩

/-- A header line that is none of `Content-Length`, `Transfer-Encoding`,
`Connection`. -/
def Header.plain (h : Header) : Prop :=
  foldsTo contentLength h.key = false ∧ foldsTo transferEncoding h.key = false ∧
    foldsTo connection h.key = false

/-- The slices fed one after the other, each to the parser the call before
left, whatever that call returned: the parser and the observer at the end and
the errors returned, in order. `none` when a call panics. -/
def httpRequestParser.feedEach {σ : Type} (P : Protocol σ) :
    httpRequestParser → σ → List Bytes → Option (httpRequestParser × σ × List (Option Err))
  | p, s, [] => some (p, s, [])
  | p, s, d :: ds =>
    match p.Feed P s d with
    | .ret ⟨q, t, err⟩ =>
      match feedEach P q t ds with
      | some (r, u, errs) => some (r, u, err :: errs)
      | none => none
    | _ => none

/-- The parser that `NewHTTPRequestParser` builds for the recorder from the
settings, if `OnMessageBegin` lets it. -/
def constructed (settings : Settings) : Option httpRequestParser :=
  match (NewHTTPRequestParser recorder [] settings).2 with
  | .ok p => some p
  | .error _ => none

/-- What a `Feed` call of the chunked parser returns and what its callback was
made to see: the observer afterwards, `done`, the leftover bytes, the error. -/
def ChunkedResult.returned {σ : Type} (r : ChunkedResult σ) : σ × Bool × Bytes × Option Err :=
  (r.obs, r.done, r.extraBytes, r.err)

/-- Two parsers that differ at most in `chunkBodyBegin`, and not in it either
when they are inside a chunk body. -/
def chunkedBodyParser.sameButBegin (p q : chunkedBodyParser) : Prop :=
  p.state = q.state ∧ p.chunkLength = q.chunkLength ∧ p.maxChunkSize = q.maxChunkSize ∧
    ((p.state = .chunkBody ∨ p.state = .chunkBodyEnd) → p.chunkBodyBegin = q.chunkBodyBegin)

/-- The slices fed to the chunked parser one after the other, each to the
parser the call before left, whatever that call returned: the parser and the
observer at the end. `none` when a call panics. -/
def chunkedBodyParser.feedMany {σ : Type} (callback : σ → Bytes → σ) :
    chunkedBodyParser → σ → List Bytes → Option (chunkedBodyParser × σ)
  | p, s, [] => some (p, s)
  | p, s, d :: ds =>
    match p.Feed callback s d with
    | some r => feedMany callback r.parser r.obs ds
    | none => none

/-- Inside a chunk body the start index of the pending piece lies in `0..i`. -/
def chunkedBodyParser.beginOk (p : chunkedBodyParser) (i : Int) : Prop :=
  (p.state = .chunkBody ∨ p.state = .chunkBodyEnd) → 0 ≤ p.chunkBodyBegin ∧ p.chunkBodyBegin ≤ i

/-- Unless the transfer is completed the chunk length lies in
`0..maxChunkSize`, and is not zero inside a chunk body. -/
def chunkedBodyParser.lengthOk (p : chunkedBodyParser) : Prop :=
  p.state = .transferCompleted ∨
    (0 ≤ p.chunkLength ∧ p.chunkLength ≤ p.maxChunkSize ∧ (p.state = .chunkBody → 1 ≤ p.chunkLength))

/-- The step keeps `I` where the loop of `Feed` goes on, gives `E` where
`Feed` calls itself and `R` where it returns. -/
def Step.meets {σ : Type} (I E : httpRequestParser → σ → Prop) (R : FeedResult σ → Prop) :
    Step σ → Prop
  | .next p s => I p s
  | .ret p s err => R ⟨p, s, err⟩
  | .refeed p s _ => E p s
  | .panic => True

/-- The callbacks made so far, each with the error it returned. -/
abbrev CallLog := List (Event × Option Err)

/-- The outcome `r` of the callback `ev`, with the call added to the log. -/
def logCall {σ : Type} (ev : Event) (log : CallLog) (r : σ × Option Err) :
    (σ × CallLog) × Option Err :=
  ((r.1, log ++ [(ev, r.2)]), r.2)

/-- The protocol `P` with a log of the callbacks made kept next to the
observer of `P`. -/
def Protocol.logged {σ : Type} (P : Protocol σ) : Protocol (σ × CallLog) where
  OnMessageBegin := fun t => logCall .messageBegin t.2 (P.OnMessageBegin t.1)
  OnMethod := fun t b => logCall (.method b) t.2 (P.OnMethod t.1 b)
  OnPath := fun t b => logCall (.path b) t.2 (P.OnPath t.1 b)
  OnProtocol := fun t b => logCall (.protocol b) t.2 (P.OnProtocol t.1 b)
  OnHeadersBegin := fun t => logCall .headersBegin t.2 (P.OnHeadersBegin t.1)
  OnHeader := fun t k v => logCall (.header k v) t.2 (P.OnHeader t.1 k v)
  OnHeadersComplete := fun t => logCall .headersComplete t.2 (P.OnHeadersComplete t.1)
  OnBody := fun t b => logCall (.body b) t.2 (P.OnBody t.1 b)
  OnMessageComplete := fun t => logCall .messageComplete t.2 (P.OnMessageComplete t.1)

/-- No call of `OnMessageComplete` in the log returned an `Upgrade`. -/
def noUpgrade (log : CallLog) : Prop :=
  ∀ tag, (Event.messageComplete, some (Err.Upgrade tag)) ∉ log

/-- A parser in state `body` has `closeConnection` unset: with it set the
header block ends in state `bodyConnectionClose`. -/
def httpRequestParser.bodyNotClose (p : httpRequestParser) : Prop :=
  p.state = .body → p.closeConnection = false

/-- While the loop of `Feed` goes on no `OnMessageComplete` has returned an
`Upgrade`. -/
def upgradeInv {σ : Type} (p : httpRequestParser) (t : σ × CallLog) : Prop :=
  noUpgrade t.2 ∧ p.bodyNotClose

/-- Where `Feed` calls itself the parser is in state `method` with
`closeConnection` unset. -/
def upgradeEntry {σ : Type} (p : httpRequestParser) (t : σ × CallLog) : Prop :=
  noUpgrade t.2 ∧ p.state = .method ∧ p.closeConnection = false

/-- If a call of `OnMessageComplete` in the log returned an `Upgrade`, that
value is the returned error and the parser is in state `messageBegin`. -/
def upgradeRes {σ : Type} (r : FeedResult (σ × CallLog)) : Prop :=
  (∀ tag, (Event.messageComplete, some (Err.Upgrade tag)) ∈ r.obs.2 →
    r.err = some (.Upgrade tag) ∧ r.parser.state = .messageBegin) ∧ r.parser.bodyNotClose

/-- A protocol whose `OnMessageComplete` returns an `Upgrade`. -/
def upgrader : Protocol (List Event) :=
  { recorder with OnMessageComplete := fun t => (t ++ [.messageComplete], some (.Upgrade 0)) }

/-- What holds of a path handed to `OnPath` under the limit `M`: it is not
empty, every byte is printable and none is a space, and it is at most `M` long. -/
def pathValid (M : Int) (b : Bytes) : Prop :=
  b ≠ [] ∧ (∀ c ∈ b, IsPrint c = true ∧ c ≠ 32) ∧ (b.length : Int) ≤ M

/-- Every path in the log of calls is valid. -/
def pathsValid (M : Int) (log : CallLog) : Prop :=
  ∀ b e, (Event.path b, e) ∈ log → pathValid M b

/-- In state `path` the bytes of the start-line buffer from `startLineOffset`
on are the path read so far: printable, without a space, and within
`MaxPathLength` once there is one. -/
def httpRequestParser.pathInv (p : httpRequestParser) : Prop :=
  p.state = .path →
    p.startLineOffset ≤ p.startLineBuff.bytes.length ∧
    (∀ c ∈ p.startLineBuff.bytes.drop p.startLineOffset, IsPrint c = true ∧ c ≠ 32) ∧
    (p.startLineBuff.bytes.length ≠ p.startLineOffset →
      ((p.startLineBuff.bytes.drop p.startLineOffset).length : Int) ≤ p.settings.MaxPathLength)

/-- The paths logged so far are valid for the limit `M` of the parser, whose
buffer holds a valid beginning of a path. -/
def pathInvAt {σ : Type} (M : Int) (p : httpRequestParser) (t : σ × CallLog) : Prop :=
  pathsValid M t.2 ∧ p.settings.MaxPathLength = M ∧ p.pathInv

/-- The same where `Feed` calls itself, in state `method`. -/
def pathEntry {σ : Type} (M : Int) (p : httpRequestParser) (t : σ × CallLog) : Prop :=
  p.state = .method ∧ pathInvAt M p t

/-- The same of what `Feed` returns. -/
def pathRes {σ : Type} (M : Int) (r : FeedResult (σ × CallLog)) : Prop :=
  pathInvAt M r.parser r.obs

/-- The parser `freshParser` after the method `GET` and the space that ends
it: in state `path`, the path yet empty. -/
def pathStart : httpRequestParser :=
  { freshParser with
    state := .path
    startLineBuff := ⟨str "GET", 2147483647⟩
    startLineOffset := 3 }

/-- The parser `pathStart` with the path `/` read and `MaxPathLength` set to 1. -/
def pathFull : httpRequestParser :=
  { pathStart with
    settings := { pathStart.settings with MaxPathLength := 1 }
    startLineBuff := ⟨str "GET/", 2147483647⟩ }

/-- The step with the log of calls dropped from the observer. -/
def Step.unlog {σ : Type} : Step (σ × CallLog) → Step σ
  | .next p t => .next p t.1
  | .ret p t err => .ret p t.1 err
  | .refeed p t extra => .refeed p t.1 extra
  | .panic => .panic

/-- What `Feed` leaves behind with the log of calls dropped from the observer. -/
def FeedResult.unlog {σ : Type} (r : FeedResult (σ × CallLog)) : FeedResult σ :=
  ⟨r.parser, r.obs.1, r.err⟩

/-- The run with `f` applied to what it returns. -/
def Run.map {α β : Type} (f : α → β) : Run α → Run β
  | .ret a => .ret (f a)
  | .panic => .panic
  | .outOfFuel => .outOfFuel

/-! # Theorems -/

theorem wrap64_of_range (x : Int) (h1 : -(2 ^ 63) ≤ x) (h2 : x < 2 ^ 63) : wrap64 x = x := by
  unfold wrap64
  norm_num at h1 h2 ⊢
  omega

theorem hexRangeCheckFails_false (c : Nat) : hexRangeCheckFails c = false := by
  unfold hexRangeCheckFails
  by_cases h : c < 48
  · have : ¬ c > 57 := by omega
    simp [h, this]
  · simp [h]

theorem isHexDigit_iff (c : Nat) : isHexDigit c = true ↔
    (48 ≤ c ∧ c ≤ 57) ∨ (97 ≤ c ∧ c ≤ 102) ∨ (65 ≤ c ∧ c ≤ 70) := by
  simp [isHexDigit, Bool.or_eq_true, Bool.and_eq_true, decide_eq_true_eq, or_assoc]

theorem nibble_hexDigit (c : Nat) (h : isHexDigit c = true) : nibble c = hexDigitValue c := by
  rw [isHexDigit_iff] at h
  have hc : c ≤ 102 := by omega
  have hc2 : 48 ≤ c := by omega
  interval_cases c <;> first | rfl | (exfalso; omega)

theorem hexDigitValue_le (c : Nat) (h : isHexDigit c = true) : hexDigitValue c ≤ 15 := by
  rw [isHexDigit_iff] at h
  unfold hexDigitValue
  split_ifs <;> omega

theorem le_hexFold (v : Nat) (digits : Bytes) : v ≤ hexFold v digits := by
  induction digits generalizing v with
  | nil => simp [hexFold]
  | cons d ds ih =>
    have := ih (16 * v + hexDigitValue d)
    simp only [hexFold, List.foldl_cons] at this ⊢
    omega

theorem feedLoop_sizeLine {σ : Type} (cb : σ → Bytes → σ) (data : Bytes) (digits tail : Bytes)
    (hd : ∀ d ∈ digits, isHexDigit d = true) (v : Nat) (b mx : Int) (i : Nat) (s : σ)
    (hv : (hexFold v digits : Int) ≤ mx) (hmx : mx < 2 ^ 63) :
    chunkedBodyParser.feedLoop cb data i (digits ++ tail) ⟨.chunkLength, v, b, mx⟩ s =
      chunkedBodyParser.feedLoop cb data (i + digits.length) tail ⟨.chunkLength, hexFold v digits, b, mx⟩ s := by
  induction digits generalizing v i with
  | nil => simp [hexFold]
  | cons d ds ih =>
    have hdh : isHexDigit d = true := hd d (by simp)
    have hd13 : d ≠ 13 := by
      have := (isHexDigit_iff d).1 hdh
      omega
    have hd10 : d ≠ 10 := by
      have := (isHexDigit_iff d).1 hdh
      omega
    have hle := le_hexFold (16 * v + hexDigitValue d) ds
    have hfold : hexFold v (d :: ds) = hexFold (16 * v + hexDigitValue d) ds := by
      simp [hexFold]
    rw [hfold] at hv ⊢
    have h15 := hexDigitValue_le d hdh
    have hstep : wrap64 (wrap64 ((v : Int) * 16) + nibble d) = ((16 * v + hexDigitValue d : Nat) : Int) := by
      rw [nibble_hexDigit d hdh]
      rw [wrap64_of_range ((v : Int) * 16) (by norm_num; omega) (by norm_num at hmx ⊢; omega)]
      rw [wrap64_of_range _ (by norm_num; omega) (by norm_num at hmx ⊢; omega)]
      push_cast
      ring
    have hnot : ¬ ((16 * v + hexDigitValue d : Nat) : Int) > mx := by omega
    rw [List.cons_append, chunkedBodyParser.feedLoop]
    simp only [hd13, hd10, if_false, hexRangeCheckFails_false, hstep, hnot, Bool.false_eq_true]
    rw [ih (fun x hx => hd x (by simp [hx])) _ _ hv]
    rw [show i + 1 + ds.length = i + (d :: ds).length by simp; omega]


theorem feedLoop_payload {σ : Type} (cb : σ → Bytes → σ) (data : Bytes) (payload tail : Bytes)
    (b mx : Int) (i : Nat) (s : σ) (hn : 0 < payload.length)
    (hlen : (payload.length : Int) < 2 ^ 63) :
    chunkedBodyParser.feedLoop cb data i (payload ++ tail) ⟨.chunkBody, payload.length, b, mx⟩ s =
      chunkedBodyParser.feedLoop cb data (i + payload.length) tail ⟨.chunkBodyEnd, 0, b, mx⟩ s := by
  induction payload generalizing i with
  | nil => simp at hn
  | cons c cs ih =>
    have hw : wrap64 (((c :: cs).length : Int) - 1) = (cs.length : Int) := by
      rw [wrap64_of_range _ (by simp; omega) (by simp at hlen ⊢; omega)]
      simp
    rw [List.cons_append, chunkedBodyParser.feedLoop]
    simp only [hw]
    by_cases hcs : cs.length = 0
    · have hnil : cs = [] := List.length_eq_zero.mp hcs
      subst hnil
      simp
    · have hne : ¬ ((cs.length : Int) = 0) := by omega
      simp only [hne, if_false]
      rw [ih (i + 1) (by omega) (by simp at hlen ⊢; omega)]
      rw [show i + 1 + cs.length = i + (c :: cs).length by simp; omega]

theorem slice_middle (pre mid post : Bytes) (lo hi : Int) (hlo : lo = pre.length)
    (hhi : hi = pre.length + mid.length) :
    slice (pre ++ mid ++ post) lo hi = some mid := by
  subst hlo hhi
  unfold slice
  have h1 : (0 : Int) ≤ (pre.length : Int) ∧ (pre.length : Int) ≤ pre.length + mid.length ∧
      (pre.length : Int) + mid.length ≤ ((pre ++ mid ++ post).length : Int) := by
    simp only [List.length_append]
    push_cast
    omega
  rw [if_pos h1]
  have e1 : ((pre.length : Int) + mid.length).toNat = (pre ++ mid).length := by
    simp only [List.length_append]
    omega
  have e2 : ((pre.length : Int)).toNat = pre.length := by omega
  rw [e1, e2, List.take_left' rfl, List.drop_left' rfl]

theorem feedLoop_chunk {σ : Type} (cb : σ → Bytes → σ) (data pre tail : Bytes) (c : Chunk)
    (mx : Int) (hwf : c.wellFormed mx) (hmx : mx < 2 ^ 63) (b : Int) (s : σ)
    (hdata : data = pre ++ c.encode ++ tail) :
    ∃ b1 : Int, chunkedBodyParser.feedLoop cb data pre.length (c.encode ++ tail) ⟨.chunkLength, 0, b, mx⟩ s =
      chunkedBodyParser.feedLoop cb data (pre ++ c.encode).length tail ⟨.chunkLength, 0, b1, mx⟩ (cb s c.payload) := by
  obtain ⟨_, hhex, hval, hpos, hle⟩ := hwf
  refine ⟨(pre.length + c.sizeLine.length + 1 : Nat) + 1, ?_⟩
  have hfold : hexFold 0 c.sizeLine = c.payload.length := hval
  have e0 : c.encode ++ tail = c.sizeLine ++ (13 :: 10 :: (c.payload ++ (13 :: 10 :: tail))) := by
    simp [Chunk.encode]
  rw [e0]
  have h1 := feedLoop_sizeLine cb data c.sizeLine (13 :: 10 :: (c.payload ++ (13 :: 10 :: tail)))
    hhex 0 b mx pre.length s (by rw [hfold]; exact hle) hmx
  simp only [Nat.cast_zero] at h1
  rw [h1, hfold]
  have hne : ¬ ((c.payload.length : Int) = 0) := by omega
  rw [chunkedBodyParser.feedLoop]
  simp only [if_true]
  rw [chunkedBodyParser.feedLoop]
  simp only [ne_eq, not_true_eq_false, if_false, hne]
  rw [feedLoop_payload cb data c.payload (13 :: 10 :: tail) _ mx _ s hpos (by omega)]
  rw [chunkedBodyParser.feedLoop]
  have hs : slice data ((pre.length + c.sizeLine.length + 1 : Nat) + 1 : Int)
      ((pre.length + c.sizeLine.length + 1 + 1 + c.payload.length : Nat) : Int) = some c.payload := by
    have hd : data = (pre ++ c.sizeLine ++ [13, 10]) ++ c.payload ++ ([13, 10] ++ tail) := by
      rw [hdata]; simp [Chunk.encode]
    rw [hd]
    apply slice_middle
    · simp; ring
    · simp; ring
  simp only [hs, if_true]
  rw [chunkedBodyParser.feedLoop]
  simp only [ne_eq, not_true_eq_false, if_false]
  congr 1
  simp [Chunk.encode]
  omega

theorem feedLoop_chunks {σ : Type} (cb : σ → Bytes → σ) (chunks : List Chunk) (mx : Int)
    (hwf : ∀ c ∈ chunks, c.wellFormed mx) (hmx : mx < 2 ^ 63) (data pre tail : Bytes)
    (b : Int) (s : σ) (hdata : data = pre ++ encodeChunks chunks ++ tail) :
    ∃ b1 : Int, chunkedBodyParser.feedLoop cb data pre.length (encodeChunks chunks ++ tail) ⟨.chunkLength, 0, b, mx⟩ s =
      chunkedBodyParser.feedLoop cb data (pre ++ encodeChunks chunks).length tail ⟨.chunkLength, 0, b1, mx⟩
        (chunks.foldl (fun acc c => cb acc c.payload) s) := by
  induction chunks generalizing pre b s with
  | nil => exact ⟨b, by simp [encodeChunks]⟩
  | cons c cs ih =>
    have hsplit : encodeChunks (c :: cs) = c.encode ++ encodeChunks cs := by
      simp [encodeChunks]
    have hd1 : data = pre ++ c.encode ++ (encodeChunks cs ++ tail) := by
      rw [hdata, hsplit]; simp
    obtain ⟨b1, h1⟩ := feedLoop_chunk cb data pre (encodeChunks cs ++ tail) c mx
      (hwf c (by simp)) hmx b s hd1
    have hd2 : data = (pre ++ c.encode) ++ encodeChunks cs ++ tail := by
      rw [hd1]; simp
    obtain ⟨b2, h2⟩ := ih (fun x hx => hwf x (by simp [hx])) (pre ++ c.encode) b1
      (cb s c.payload) hd2
    refine ⟨b2, ?_⟩
    rw [hsplit, List.append_assoc, h1, h2]
    simp [List.append_assoc]

theorem hexFold_zeros (zeroLine : Bytes) (hz : ∀ d ∈ zeroLine, d = 48) : hexFold 0 zeroLine = 0 := by
  induction zeroLine with
  | nil => rfl
  | cons d ds ih =>
    have hd : d = 48 := hz d (by simp)
    subst hd
    have := ih (fun x hx => hz x (by simp [hx]))
    simpa [hexFold, hexDigitValue] using this

theorem feedLoop_lastChunk {σ : Type} (cb : σ → Bytes → σ) (data zeroLine L : Bytes)
    (hz : ∀ d ∈ zeroLine, d = 48) (mx : Int) (h0 : 0 ≤ mx) (hmx : mx < 2 ^ 63)
    (b : Int) (i : Nat) (s : σ) :
    chunkedBodyParser.feedLoop cb data i (zeroLine ++ [13, 10, 13, 10] ++ L) ⟨.chunkLength, 0, b, mx⟩ s =
      some ⟨⟨.transferCompleted, 0, b, mx⟩, s, true, L, none⟩ := by
  have hf := hexFold_zeros zeroLine hz
  have h1 := feedLoop_sizeLine cb data zeroLine ([13, 10, 13, 10] ++ L)
    (fun d hd => by rw [hz d hd]; rfl) 0 b mx i s (by rw [hf]; simpa using h0) hmx
  simp only [Nat.cast_zero] at h1
  rw [List.append_assoc, h1, hf]
  simp [chunkedBodyParser.feedLoop, chunkedBodyParser.complete]

/-- C1 (fails on the code): the body "5\r\nhello\r\n0\r\n\r\n" fed in one call
gives the callback the payload "hello"; fed as "5\r\nhello" and
"\r\n0\r\n\r\n" the only payload the callback ever gets is empty, because a
slice that ends exactly at the last byte of a chunk leaves the state
`chunkBodyEnd`, for which the end-of-slice callback is not made. -/
theorem chunked_split_drops_payload :
    ((NewChunkedBodyParser 65535).Feed collect [] (str "5\r\nhello\r\n0\r\n\r\n")).map
        (fun r => (r.done, r.obs.flatten, r.extraBytes, r.err)) =
      some (true, str "hello", [], none) ∧
    ((NewChunkedBodyParser 65535).feedTwo collect [] (str "5\r\nhello") (str "\r\n0\r\n\r\n")).map
        (fun r => (r.done, r.obs.flatten, r.extraBytes, r.err)) =
      some (true, [], [], none) := by
  decide

/-- C2: a well-formed chunked body followed by any bytes `L`, fed in one call
to a fresh parser, makes the body callback run once per chunk, in order, on
exactly the payload of that chunk, and the call returns `done = true`,
`L` as the leftover and no error, in state `transferCompleted`. -/
theorem Feed_wellFormed_body {σ : Type} (cb : σ → Bytes → σ) (s : σ) (chunks : List Chunk)
    (zeroLine L : Bytes) (mx : Int) (h0 : 0 ≤ mx) (hmx : mx < 2 ^ 63)
    (hwf : ∀ c ∈ chunks, c.wellFormed mx) (hz : ∀ d ∈ zeroLine, d = 48) :
    ((NewChunkedBodyParser mx).Feed cb s (encodeBody chunks zeroLine ++ L)).map
        (fun r => (r.parser.state, r.obs, r.done, r.extraBytes, r.err)) =
      some (.transferCompleted, chunks.foldl (fun acc c => cb acc c.payload) s, true, L, none) := by
  have hne : (encodeBody chunks zeroLine ++ L).length ≠ 0 := by
    simp [encodeBody]
  unfold chunkedBodyParser.Feed NewChunkedBodyParser
  simp only [hne, if_false]
  have hdata : encodeBody chunks zeroLine ++ L =
      [] ++ encodeChunks chunks ++ (zeroLine ++ [13, 10, 13, 10] ++ L) := by
    simp [encodeBody]
  obtain ⟨b1, h1⟩ := feedLoop_chunks cb chunks mx hwf hmx _ [] (zeroLine ++ [13, 10, 13, 10] ++ L)
    0 s hdata
  have hrest : encodeBody chunks zeroLine ++ L =
      encodeChunks chunks ++ (zeroLine ++ [13, 10, 13, 10] ++ L) := by
    simp [encodeBody]
  simp only [List.length_nil] at h1
  conv_lhs => rw [hrest]
  rw [← hrest, show (if chunkedBodyState.chunkLength = chunkedBodyState.transferCompleted then
      chunkedBodyParser.Clear ⟨.chunkLength, 0, 0, mx⟩ else ⟨.chunkLength, 0, 0, mx⟩) =
      (⟨.chunkLength, 0, 0, mx⟩ : chunkedBodyParser) from rfl]
  conv_lhs => arg 2; arg 4; rw [hrest]
  rw [h1, feedLoop_lastChunk cb _ zeroLine L hz mx h0 hmx]
  rfl

/-- C2 on the chunked body of scenario 4. -/
theorem Feed_wellFormed_body_witness :
    ((NewChunkedBodyParser 65535).Feed collect []
        (encodeBody [⟨str "5", str "hello"⟩, ⟨str "6", str " world"⟩] (str "0") ++ [])).map
        (fun r => (r.parser.state, r.obs, r.done, r.extraBytes, r.err)) =
      some (.transferCompleted,
        [⟨str "5", str "hello"⟩, ⟨str "6", str " world"⟩].foldl
          (fun acc (c : Chunk) => collect acc c.payload) [], true, [], none) :=
  Feed_wellFormed_body collect [] [⟨str "5", str "hello"⟩, ⟨str "6", str " world"⟩] (str "0") []
    65535 (by decide) (by decide)
    (by simp [Chunk.wellFormed, hexValue, hexFold, hexDigitValue, isHexDigit, str])
    (by decide)

/-- C3 (fails on the code): the size line "ZZ\r\n" of scenario 6 is not
rejected. The range test of `chunkLength` is never true, so each `Z` is taken
as the digit 19 and the parser goes on to read a chunk of 323 bytes. -/
theorem nonhex_chunk_size_accepted :
    ((NewChunkedBodyParser 65535).Feed collect [] (str "ZZ\r\n")).map
        (fun r => (r.parser.state, r.parser.chunkLength, r.done, r.err)) =
      some (.chunkBody, 323, false, none) := by
  decide

/-- The parser `freshParser` is the one the constructor returns for the zero
settings, after its call of `OnMessageBegin`. -/
theorem NewHTTPRequestParser_zeroSettings :
    NewHTTPRequestParser recorder [] zeroSettings = ([Event.messageBegin], .ok freshParser) := by
  rfl

/-- C4 (fails on the code): a dead parser fed the empty slice does not return
`ErrParserIsDead`. With `closeConnection` unset it returns `nil`; with
`closeConnection` set it calls `OnMessageComplete` twice and returns
`ErrConnectionClosed`. -/
theorem dead_parser_empty_feed :
    ((freshParser.die.Feed recorder [] []).toOption.map
        (fun r => (r.err, r.obs, r.parser.state))) = some (none, [], .dead) ∧
    ((({ freshParser.die with closeConnection := true } : httpRequestParser).Feed
        recorder [] []).toOption.map
        (fun r => (r.err, r.obs, r.parser.state))) =
      some (some .ErrConnectionClosed, [.messageComplete, .messageComplete], .dead) := by
  decide

/-- C4 as amended: a dead parser fed a non-empty slice returns
`ErrParserIsDead`, calls no callback and is left as it was; fed the empty
slice with `closeConnection` unset it returns `nil`, calls no callback and is
left as it was; and whatever it is fed, the call returns and the state
afterwards is `dead`. -/
theorem dead_is_absorbing {σ : Type} (P : Protocol σ) (p : httpRequestParser) (s : σ)
    (data : Bytes) (hdead : p.state = .dead) :
    (data ≠ [] → p.Feed P s data = .ret ⟨p, s, some .ErrParserIsDead⟩) ∧
    (data = [] → p.closeConnection = false → p.Feed P s data = .ret ⟨p, s, none⟩) ∧
    (∃ r, p.Feed P s data = .ret r ∧ r.parser.state = .dead) := by
  have hne : ∀ d : Bytes, d ≠ [] → p.FeedN P (d.length + 2) s d = .ret ⟨p, s, some .ErrParserIsDead⟩ := by
    intro d hd
    have hl : d.length ≠ 0 := by simpa using hd
    simp [httpRequestParser.FeedN, hl, hdead]
  refine ⟨fun h => hne data h, ?_, ?_⟩
  · intro h hc
    subst h
    simp [httpRequestParser.Feed, httpRequestParser.FeedN, httpRequestParser.feedEmpty, hc]
  · by_cases h : data = []
    · subst h
      refine ⟨p.feedEmpty P s, by simp [httpRequestParser.Feed, httpRequestParser.FeedN], ?_⟩
      unfold httpRequestParser.feedEmpty
      by_cases hc : p.closeConnection = true
      · simp only [hc, if_true]
        split
        · rfl
        · split <;> rfl
      · simp [hc, hdead]
    · exact ⟨_, hne data h, hdead⟩

/-- C4 as amended, on the parser killed by a first feed, fed "GET". -/
theorem dead_is_absorbing_witness :
    (str "GET" ≠ [] →
      freshParser.die.Feed recorder [] (str "GET") =
        .ret ⟨freshParser.die, [], some .ErrParserIsDead⟩) ∧
    (str "GET" = [] → freshParser.die.closeConnection = false →
      freshParser.die.Feed recorder [] (str "GET") = .ret ⟨freshParser.die, [], none⟩) ∧
    (∃ r, freshParser.die.Feed recorder [] (str "GET") = .ret r ∧ r.parser.state = .dead) :=
  dead_is_absorbing recorder freshParser.die [] (str "GET") rfl

/-- C5 (fails on the code): scenario 3 followed by scenario 1, fed in one call
to a fresh parser. `OnMessageComplete` is called once, not twice: the length 5
of the first body is still in `bodyBytesLeft` when the second header block
ends, so the parser waits in state `body` for a body the second request does
not have. -/
theorem pipelined_request_waits_for_body :
    (freshParser.Feed recorder []
        (str "POST /a HTTP/1.0\r\nContent-Length: 5\r\n\r\nhello" ++
          str "GET / HTTP/1.1\r\nHost: x\r\n\r\n")).toOption.map
        (fun r => (r.err, r.parser.state, r.parser.bodyBytesLeft,
          r.obs.count .messageComplete)) =
      some (none, .body, 5, 1) := by
  decide

/-- C6 (fails on the code): on scenario 1 the callbacks are `OnMethod`,
`OnPath`, `OnProtocol`, `OnHeadersBegin`, `OnHeader`, `OnMessageComplete`,
`OnMessageBegin`: `OnHeadersComplete` is not called, since the header block
ends in state `headerValueDoubleCR`. With bare line feeds the block ends in
state `headerValueLF`, and there `OnHeadersComplete` is called. -/
theorem headers_complete_missing_after_crlf :
    (freshParser.Feed recorder [] (str "GET / HTTP/1.1\r\nHost: x\r\n\r\n")).toOption.map
        (fun r => (r.err, r.obs)) =
      some (none, [.method (str "GET"), .path (str "/"), .protocol (str "HTTP/1.1"),
        .headersBegin, .header (str "Host") (str "x"), .messageComplete, .messageBegin]) ∧
    (freshParser.Feed recorder [] (str "GET / HTTP/1.1\nHost: x\n\n")).toOption.map
        (fun r => (r.err, r.obs)) =
      some (none, [.method (str "GET"), .path (str "/"), .protocol (str "HTTP/1.1"),
        .headersBegin, .header (str "Host") (str "x"), .headersComplete, .messageComplete,
        .messageBegin]) := by
  decide

theorem killed_die (p : httpRequestParser) : p.die.killed := ⟨rfl, rfl, rfl⟩

theorem Step.good_andThen {σ : Type} (st : Step σ) (k : httpRequestParser → σ → Step σ)
    (h1 : st.good) (h2 : ∀ p s, p.state ≠ .dead → (k p s).good) : (st.andThen k).good := by
  cases st with
  | next p s => exact h2 p s h1
  | ret p s err => exact h1
  | refeed p s extra => exact h1
  | panic => trivial

theorem good_ret_die {σ : Type} (p : httpRequestParser) (s : σ) (e : Option Err) :
    (Step.ret p.die s e).good :=
  ⟨fun _ => ⟨rfl, rfl⟩, fun _ _ _ => killed_die p⟩

theorem good_ret_nil {σ : Type} (p : httpRequestParser) (s : σ) (hp : p.state ≠ .dead) :
    (Step.ret p s none).good :=
  ⟨fun h => absurd h hp, fun _ h => by simp at h⟩

theorem orDie_good {σ : Type} (p : httpRequestParser) (r : σ × Option Err)
    (hp : p.state ≠ .dead) : (p.orDie r).good := by
  rcases r with ⟨s, _ | e⟩
  · exact hp
  · exact good_ret_die p s _

theorem completeMessage_good {σ : Type} (P : Protocol σ) (p : httpRequestParser) (s : σ) :
    (p.completeMessage P s).good := by
  unfold httpRequestParser.completeMessage
  split
  · simp [Step.good, httpRequestParser.Clear]
  · simp [Step.good, Err.isUpgrade, httpRequestParser.deadIsCleared]
  · exact good_ret_die _ _ _

theorem chooseBody_good {σ : Type} (P : Protocol σ) (p : httpRequestParser) (s : σ) :
    (p.chooseBody P s).good := by
  unfold httpRequestParser.chooseBody
  split_ifs
  · simp [Step.good]
  · exact Step.good_andThen _ _ (completeMessage_good P p s) (fun q t hq => orDie_good q _ hq)
  · simp [Step.good]

theorem interpretHeader_good {σ : Type} (p : httpRequestParser) (s : σ) (key value : Bytes)
    (hp : p.state ≠ .dead) : (p.interpretHeader s key value).good := by
  unfold httpRequestParser.interpretHeader
  split_ifs
  · split
    · trivial
    · exact hp
    · split
      · exact good_ret_die _ _ _
      · exact hp
  · split
    · trivial
    · exact hp
    · split
      · trivial
      · exact hp
  · split
    · trivial
    · exact hp
    · split
      · trivial
      · exact hp
  · exact hp

theorem pushBodyPiece_state {σ : Type} (P : Protocol σ) (p : httpRequestParser) (s : σ)
    (data : Bytes) (r : httpRequestParser × σ × Bool × Bytes × Option Err)
    (h : p.pushBodyPiece P s data = some r) : r.1.state = p.state := by
  unfold httpRequestParser.pushBodyPiece at h
  by_cases hch : p.isChunked = true
  · simp only [hch, if_true] at h
    split at h
    · simp at h
    · injection h with h; subst h; rfl
  · simp only [hch, Bool.false_eq_true, if_false] at h
    by_cases h1 : p.bodyBytesLeft > (data.length : Int)
    · simp only [h1, if_true] at h
      split at h <;> (injection h with h; subst h; rfl)
    · simp only [h1, if_false] at h
      by_cases h2 : p.bodyBytesLeft ≤ 0
      · simp only [h2, if_true] at h
        injection h with h; subst h; rfl
      · simp only [h2, if_false] at h
        split at h
        · split at h <;> (injection h with h; subst h; rfl)
        · simp at h

theorem feedStep_good {σ : Type} (P : Protocol σ) (p : httpRequestParser) (s : σ) (c : Nat)
    (rest : Bytes) (hp : p.state ≠ .dead) : (p.feedStep P s c rest).good := by
  unfold httpRequestParser.feedStep
  split
  all_goals (try simp only [])
  all_goals repeat' first
    | exact good_ret_die _ _ _
    | trivial
    | exact chooseBody_good _ _ _
    | exact completeMessage_good _ _ _
    | exact orDie_good _ _ (by assumption)
    | exact orDie_good _ _ (by simpa using hp)
    | exact interpretHeader_good _ _ _ _ (by assumption)
    | exact good_ret_nil _ _ (by assumption)
    | exact good_ret_nil _ _ (by
        rename_i heq
        have hst := pushBodyPiece_state _ _ _ _ _ heq
        simp only at hst
        rw [hst]; exact hp)
    | (simp [Step.good, hp]; done)
    | refine Step.good_andThen _ _ ?_ (fun q t hq => ?_)
    | split

theorem feedBody_good {σ : Type} (P : Protocol σ) (p : httpRequestParser) (s : σ)
    (data : Bytes) (hp : p.state ≠ .dead) : (p.feedBody P s data).good := by
  unfold httpRequestParser.feedBody
  split
  all_goals repeat' first
    | exact good_ret_die _ _ _
    | trivial
    | exact completeMessage_good _ _ _
    | exact orDie_good _ _ (by assumption)
    | exact good_ret_nil _ _ (by assumption)
    | exact good_ret_nil _ _ (by
        rename_i heq
        have hst := pushBodyPiece_state _ _ _ _ _ heq
        simp only at hst
        rw [hst]; exact hp)
    | (simp [Step.good]; done)
    | (simp [Step.good, *]; done)
    | refine Step.good_andThen _ _ ?_ (fun q t hq => ?_)
    | split

theorem feedLoop_kills {σ : Type} (P : Protocol σ)
    (refeed : httpRequestParser → σ → Bytes → Run (FeedResult σ))
    (href : ∀ p s d, p.state ≠ .dead → (refeed p s d).kills)
    (data : Bytes) (p : httpRequestParser) (s : σ) (hp : p.state ≠ .dead) :
    (httpRequestParser.feedLoop refeed P p s data).kills := by
  induction data generalizing p s with
  | nil =>
    intro res e h he
    simp [httpRequestParser.feedLoop] at h
    subst h
    simp at he
  | cons c rest ih =>
    have hg := feedStep_good P p s c rest hp
    unfold httpRequestParser.feedLoop
    cases hst : p.feedStep P s c rest with
    | next q t =>
      rw [hst] at hg
      exact ih q t hg
    | ret q t err =>
      rw [hst] at hg
      intro res e h he hup
      simp at h
      subst h
      simp at he
      subst he
      exact hg.2 _ rfl hup
    | refeed q t extra =>
      rw [hst] at hg
      exact href q t extra hg
    | panic =>
      intro res e h
      simp at h

theorem feedEmpty_kills {σ : Type} (P : Protocol σ) (p : httpRequestParser) (s : σ) :
    (Run.ret (p.feedEmpty P s)).kills := by
  intro res e h he hup
  simp at h
  subst h
  unfold httpRequestParser.feedEmpty at he ⊢
  split_ifs at he ⊢
  · split
    · exact killed_die p
    · split <;> exact killed_die p

theorem FeedN_kills {σ : Type} (P : Protocol σ) (fuel : Nat) (p : httpRequestParser) (s : σ)
    (data : Bytes) (hinv : p.deadIsCleared) : (p.FeedN P fuel s data).kills := by
  induction fuel generalizing p s data with
  | zero =>
    intro res e h
    simp [httpRequestParser.FeedN] at h
  | succ n ih =>
    have href : ∀ q t d, q.state ≠ .dead → (httpRequestParser.FeedN P n q t d).kills :=
      fun q t d hq => ih q t d (fun h => absurd h hq)
    unfold httpRequestParser.FeedN
    split_ifs with hlen
    · exact feedEmpty_kills P p s
    · split
      · intro res e h he hup
        simp at h
        subst h
        exact ⟨by assumption, hinv (by assumption)⟩
      · have hg := orDie_good p (P.OnMessageBegin s) (by simp [*])
        split
        · exact feedLoop_kills P _ href data _ _ (by simp)
        · rename_i heq
          rw [heq] at hg
          intro res e h he hup
          simp at h
          subst h
          simp at he
          subst he
          exact hg.2 _ rfl hup
        · rename_i heq
          rw [heq] at hg
          exact href _ _ _ hg
        · intro res e h
          simp at h
      · have hg := feedBody_good P p s data (by simp [*])
        split
        · intro res e h he
          simp at h
          subst h
          simp at he
        · rename_i heq
          rw [heq] at hg
          intro res e h he hup
          simp at h
          subst h
          simp at he
          subst he
          exact hg.2 _ rfl hup
        · rename_i heq
          rw [heq] at hg
          exact href _ _ _ hg
        · intro res e h
          simp at h
      · exact feedLoop_kills P _ href data p s (by assumption)

theorem feedLoop_keeps {σ : Type} (P : Protocol σ)
    (refeed : httpRequestParser → σ → Bytes → Run (FeedResult σ))
    (href : ∀ p s d, p.state ≠ .dead → (refeed p s d).keeps)
    (data : Bytes) (p : httpRequestParser) (s : σ) (hp : p.state ≠ .dead) :
    (httpRequestParser.feedLoop refeed P p s data).keeps := by
  induction data generalizing p s with
  | nil =>
    intro res h
    simp [httpRequestParser.feedLoop] at h
    subst h
    exact fun h => absurd h hp
  | cons c rest ih =>
    have hg := feedStep_good P p s c rest hp
    unfold httpRequestParser.feedLoop
    cases hst : p.feedStep P s c rest with
    | next q t =>
      rw [hst] at hg
      exact ih q t hg
    | ret q t err =>
      rw [hst] at hg
      intro res h
      simp at h
      subst h
      exact hg.1
    | refeed q t extra =>
      rw [hst] at hg
      exact href q t extra hg
    | panic =>
      intro res h
      simp at h

theorem feedEmpty_keeps {σ : Type} (P : Protocol σ) (p : httpRequestParser) (s : σ)
    (hinv : p.deadIsCleared) : (Run.ret (p.feedEmpty P s)).keeps := by
  intro res h
  simp at h
  subst h
  unfold httpRequestParser.feedEmpty
  split_ifs
  · split
    · exact fun _ => ⟨rfl, rfl⟩
    · split <;> exact fun _ => ⟨rfl, rfl⟩
  · exact hinv

theorem FeedN_keeps {σ : Type} (P : Protocol σ) (fuel : Nat) (p : httpRequestParser) (s : σ)
    (data : Bytes) (hinv : p.deadIsCleared) : (p.FeedN P fuel s data).keeps := by
  induction fuel generalizing p s data with
  | zero =>
    intro res h
    simp [httpRequestParser.FeedN] at h
  | succ n ih =>
    have href : ∀ q t d, q.state ≠ .dead → (httpRequestParser.FeedN P n q t d).keeps :=
      fun q t d hq => ih q t d (fun h => absurd h hq)
    unfold httpRequestParser.FeedN
    split_ifs with hlen
    · exact feedEmpty_keeps P p s hinv
    · split
      · intro res h
        simp at h
        subst h
        exact hinv
      · have hg := orDie_good p (P.OnMessageBegin s) (by simp [*])
        split
        · exact feedLoop_keeps P _ href data _ _ (by simp)
        · rename_i heq
          rw [heq] at hg
          intro res h
          simp at h
          subst h
          exact hg.1
        · rename_i heq
          rw [heq] at hg
          exact href _ _ _ hg
        · intro res h
          simp at h
      · have hg := feedBody_good P p s data (by simp [*])
        split
        · rename_i heq
          rw [heq] at hg
          intro res h
          simp at h
          subst h
          exact fun h => absurd h hg
        · rename_i heq
          rw [heq] at hg
          intro res h
          simp at h
          subst h
          exact hg.1
        · rename_i heq
          rw [heq] at hg
          exact href _ _ _ hg
        · intro res h
          simp at h
      · exact feedLoop_keeps P _ href data p s (by assumption)

/-- The parser built by the constructor is not dead, and `Feed` keeps the
property that a dead parser has no buffers. -/
theorem deadIsCleared_invariant {σ : Type} (P : Protocol σ) (s : σ) (settings : Settings) :
    (∀ t p, NewHTTPRequestParser P s settings = (t, .ok p) → p.deadIsCleared) ∧
    (∀ (p : httpRequestParser) (t : σ) (data : Bytes) (res : FeedResult σ),
      p.deadIsCleared → p.Feed P t data = .ret res → res.parser.deadIsCleared) := by
  constructor
  · intro t p h
    unfold NewHTTPRequestParser at h
    split at h
    · simp at h
    · simp at h
      intro hd
      rw [← h.2] at hd
      simp at hd
  · intro p t data res hinv h
    exact FeedN_keeps P _ p t data hinv res h

/-- C10: when `Feed` returns an error that is not a value of type `Upgrade`,
the parser is left in state `dead` and both `headersBuffer` and
`startLineBuff` are `nil`. The parser fed is any parser in which the state
`dead` goes with `nil` buffers, as in every parser built by the constructor
and fed since. -/
theorem terminal_error_kills {σ : Type} (P : Protocol σ) (p : httpRequestParser) (s : σ)
    (data : Bytes) (res : FeedResult σ) (e : Err) (hinv : p.deadIsCleared)
    (hret : p.Feed P s data = .ret res) (herr : res.err = some e)
    (hup : e.isUpgrade = false) :
    res.parser.state = .dead ∧ res.parser.headersBuffer = Buffer.nil ∧
      res.parser.startLineBuff = Buffer.nil :=
  FeedN_kills P _ p s data hinv res e hret herr hup

/-- C10 on a request line with the protocol token "Http/1.1", which ends in
`ErrProtocolNotSupported`. -/
theorem terminal_error_kills_witness :
    freshParser.Feed recorder [] (str "GET / Http/1.1\r\n\r\n") =
        .ret ⟨{ freshParser.die with startLineOffset := 4 },
          [.method (str "GET"), .path (str "/")], some .ErrProtocolNotSupported⟩ ∧
      (({ freshParser.die with startLineOffset := 4 } : httpRequestParser).state = .dead ∧
        ({ freshParser.die with startLineOffset := 4 } : httpRequestParser).headersBuffer =
          Buffer.nil ∧
        ({ freshParser.die with startLineOffset := 4 } : httpRequestParser).startLineBuff =
          Buffer.nil) :=
  ⟨by decide,
    terminal_error_kills recorder freshParser [] (str "GET / Http/1.1\r\n\r\n")
      ⟨{ freshParser.die with startLineOffset := 4 }, [.method (str "GET"), .path (str "/")],
        some .ErrProtocolNotSupported⟩
      .ErrProtocolNotSupported (fun h => absurd h (by decide)) (by decide) rfl rfl⟩

/-- C8 (fails on the code): the mixed-case token "Http/1.1" is not
supported, although it equals "HTTP/1.1" under ASCII case folding. -/
theorem mixed_case_protocol_rejected :
    IsProtocolSupported (str "Http/1.1") = false ∧
      freshParser.Feed recorder [] (str "GET / Http/1.1\r\n\r\n") =
        .ret ⟨{ freshParser.die with startLineOffset := 4 },
          [.method (str "GET"), .path (str "/")], some .ErrProtocolNotSupported⟩ := by
  decide

theorem IsProtocolSupported_iff (proto : Bytes) :
    IsProtocolSupported proto = true ↔ proto ∈ supportedProtocols := by
  simp [IsProtocolSupported, supportedProtocols]

theorem orDie_ne_ret {σ : Type} (p : httpRequestParser) (r : σ × Option Err) (e : Err)
    (k : httpRequestParser → σ → Step σ) (hr : r.2 ≠ some e)
    (hk : ∀ q t p1 s1, k q t ≠ .ret p1 s1 (some e)) (p1 : httpRequestParser) (s1 : σ) :
    (p.orDie r).andThen k ≠ .ret p1 s1 (some e) := by
  rcases r with ⟨t, _ | e1⟩
  · simpa [httpRequestParser.orDie, Step.andThen] using hk p t p1 s1
  · simp only [httpRequestParser.orDie, Step.andThen]
    intro h
    injection h with _ _ h3
    exact hr h3

theorem completeMessage_ne_ret {σ : Type} (P : Protocol σ) (p : httpRequestParser) (s : σ)
    (e : Err) (hP : ∀ s, (P.OnMessageComplete s).2 ≠ some e) (p1 : httpRequestParser) (s1 : σ) :
    p.completeMessage P s ≠ .ret p1 s1 (some e) := by
  unfold httpRequestParser.completeMessage
  have h := hP s
  split
  · simp
  · rename_i heq
    rw [heq] at h
    intro h1
    injection h1 with _ _ h3
    exact h h3
  · rename_i heq
    rw [heq] at h
    intro h1
    injection h1 with _ _ h3
    exact h h3

/-- C8 as amended: `IsProtocolSupported` is true exactly of the six tokens
HTTP/1.1, HTTP/1.0, HTTP/0.9, http/1.1, http/1.0, http/0.9; and in state
`protocolLF` the parser compares the bytes of the start line after
`startLineOffset` with them: when the test fails the step, and so `Feed`,
returns `ErrProtocolNotSupported` at once, no callback made, the parser dead;
when it passes, the step does not return `ErrProtocolNotSupported` unless a
callback does. -/
theorem protocolLF_whitelist {σ : Type} (P : Protocol σ) (p : httpRequestParser) (s : σ)
    (c : Nat) (rest proto : Bytes) (hstate : p.state = .protocolLF)
    (hslice : sliceFrom p.startLineBuff.bytes p.startLineOffset = some proto)
    (hP : P.neverReturns .ErrProtocolNotSupported) :
    (IsProtocolSupported proto = true ↔ proto ∈ supportedProtocols) ∧
    ((IsProtocolSupported proto = false ∧
        p.feedStep P s c rest = .ret p.die s (some .ErrProtocolNotSupported) ∧
        p.Feed P s (c :: rest) = .ret ⟨p.die, s, some .ErrProtocolNotSupported⟩) ∨
      (IsProtocolSupported proto = true ∧
        ∀ p1 s1, p.feedStep P s c rest ≠ .ret p1 s1 (some .ErrProtocolNotSupported))) := by
  refine ⟨IsProtocolSupported_iff proto, ?_⟩
  obtain ⟨h1, h2, h3, h4⟩ := hP
  cases hsup : IsProtocolSupported proto with
  | false =>
    left
    have hstep : p.feedStep P s c rest = .ret p.die s (some .ErrProtocolNotSupported) := by
      unfold httpRequestParser.feedStep
      simp [hstate, hslice, hsup]
    refine ⟨rfl, hstep, ?_⟩
    simp [httpRequestParser.Feed, httpRequestParser.FeedN, hstate, httpRequestParser.feedLoop,
      hstep]
  | true =>
    right
    refine ⟨rfl, fun p1 s1 => ?_⟩
    unfold httpRequestParser.feedStep
    simp only [hstate, hslice, hsup, not_true_eq_false, if_false]
    refine orDie_ne_ret _ _ _ _ (h1 _ _) (fun q t p2 s2 => ?_) _ _
    refine orDie_ne_ret _ _ _ _ (h2 _) (fun q t p2 s2 => ?_) _ _
    split_ifs
    · simp
    · exact orDie_ne_ret _ _ _ _ (h3 _) (fun q t p3 s3 => completeMessage_ne_ret P q t _ h4 _ _) _ _
    · simp
    · simp

/-- C8 as amended, on the parser that has read "GET / Http/1.1\r\n" and is
given the next byte. -/
theorem protocolLF_whitelist_witness :
    (IsProtocolSupported (str "Http/1.1") = true ↔ str "Http/1.1" ∈ supportedProtocols) ∧
    ((IsProtocolSupported (str "Http/1.1") = false ∧
        ({ freshParser with
            state := .protocolLF
            startLineBuff := ⟨str "GET/Http/1.1", 2147483647⟩
            startLineOffset := 4 } : httpRequestParser).feedStep recorder [] 13 [10] =
          .ret ({ freshParser with
            state := .protocolLF
            startLineBuff := ⟨str "GET/Http/1.1", 2147483647⟩
            startLineOffset := 4 } : httpRequestParser).die [] (some .ErrProtocolNotSupported) ∧
        ({ freshParser with
            state := .protocolLF
            startLineBuff := ⟨str "GET/Http/1.1", 2147483647⟩
            startLineOffset := 4 } : httpRequestParser).Feed recorder [] (13 :: [10]) =
          .ret ⟨({ freshParser with
            state := .protocolLF
            startLineBuff := ⟨str "GET/Http/1.1", 2147483647⟩
            startLineOffset := 4 } : httpRequestParser).die, [],
            some .ErrProtocolNotSupported⟩) ∨
      (IsProtocolSupported (str "Http/1.1") = true ∧
        ∀ p1 s1, ({ freshParser with
            state := .protocolLF
            startLineBuff := ⟨str "GET/Http/1.1", 2147483647⟩
            startLineOffset := 4 } : httpRequestParser).feedStep recorder [] 13 [10] ≠
          .ret p1 s1 (some .ErrProtocolNotSupported))) :=
  protocolLF_whitelist recorder _ [] 13 [10] (str "Http/1.1") rfl (by decide)
    ⟨fun _ _ => by simp [recorder], fun _ => by simp [recorder], fun _ => by simp [recorder],
      fun _ => by simp [recorder]⟩

/-- C9 (fails on the code): `Clear` leaves `bodyBytesLeft` and
`closeConnection` as they are. On the parser that has just delivered the body
of scenario 3, `bodyBytesLeft` is still 5 after `Clear`. -/
theorem Clear_keeps_bodyBytesLeft :
    (({ freshParser with state := .body, bodyBytesLeft := 5, closeConnection := true } :
        httpRequestParser).Clear.bodyBytesLeft = 5) ∧
    (({ freshParser with state := .body, bodyBytesLeft := 5, closeConnection := true } :
        httpRequestParser).Clear.closeConnection = true) ∧
    (freshParser.Feed recorder []
        (str "POST /a HTTP/1.0\r\nContent-Length: 5\r\n\r\nhello")).toOption.map
        (fun r => (r.err, r.parser.state, r.parser.bodyBytesLeft)) =
      some (none, .method, 5) := by
  decide

set_option linter.unusedTactic false in
theorem chunked_feedLoop_extra {σ : Type} (cb : σ → Bytes → σ) (data rest : Bytes) (i : Nat)
    (p : chunkedBodyParser) (s : σ) (r : ChunkedResult σ)
    (h : chunkedBodyParser.feedLoop cb data i rest p s = some r) :
    r.extraBytes.length ≤ rest.length := by
  induction rest generalizing i p s with
  | nil =>
    unfold chunkedBodyParser.feedLoop at h
    split_ifs at h
    · split at h
      · simp at h
      · injection h with h; subst h; simp
    · injection h with h; subst h; simp
  | cons c rest ih =>
    unfold chunkedBodyParser.feedLoop at h
    simp only [List.length_cons]
    split at h
    all_goals (try simp only [] at h)
    all_goals repeat' first
      | (exact le_trans (ih _ _ _ h) (by omega))
      | (injection h with h; subst h; simp; done)
      | (simp at h; done)
      | split at h

theorem chunked_Feed_extra {σ : Type} (cb : σ → Bytes → σ) (data : Bytes)
    (p : chunkedBodyParser) (s : σ) (r : ChunkedResult σ)
    (h : p.Feed cb s data = some r) : r.extraBytes.length ≤ data.length := by
  unfold chunkedBodyParser.Feed at h
  by_cases hl : data.length = 0
  · simp only [hl, if_true] at h
    injection h with h; subst h; simp
  · simp only [hl, if_false] at h
    exact chunked_feedLoop_extra cb data data 0 _ s r h

theorem pushBodyPiece_extra {σ : Type} (P : Protocol σ) (p : httpRequestParser) (s : σ)
    (data : Bytes) (r : httpRequestParser × σ × Bool × Bytes × Option Err)
    (h : p.pushBodyPiece P s data = some r) : r.2.2.2.1.length ≤ data.length := by
  unfold httpRequestParser.pushBodyPiece at h
  by_cases hch : p.isChunked = true
  · simp only [hch, if_true] at h
    split at h
    · simp at h
    · rename_i r0 heq
      injection h with h; subst h
      exact chunked_Feed_extra _ _ _ _ _ heq
  · simp only [hch, Bool.false_eq_true, if_false] at h
    by_cases h1 : p.bodyBytesLeft > (data.length : Int)
    · simp only [h1, if_true] at h
      split at h <;> (injection h with h; subst h; simp)
    · simp only [h1, if_false] at h
      by_cases h2 : p.bodyBytesLeft ≤ 0
      · simp only [h2, if_true] at h
        injection h with h; subst h; simp
      · simp only [h2, if_false] at h
        split at h
        · rename_i piece extra hs1 hs2
          have hle : extra.length ≤ data.length := by
            unfold sliceFrom slice at hs2
            split_ifs at hs2
            injection hs2 with hs2
            subst hs2
            simp
          split at h <;> (injection h with h; subst h; simp [hle])
        · simp at h

theorem Step.noRefeed_andThen {σ : Type} (st : Step σ) (k : httpRequestParser → σ → Step σ)
    (h1 : st.noRefeed) (h2 : ∀ p s, (k p s).noRefeed) : (st.andThen k).noRefeed := by
  cases st with
  | next p s => exact h2 p s
  | ret p s err => trivial
  | refeed p s extra => exact h1
  | panic => trivial

theorem orDie_noRefeed {σ : Type} (p : httpRequestParser) (r : σ × Option Err) :
    (p.orDie r).noRefeed := by
  rcases r with ⟨s, _ | e⟩ <;> trivial

theorem completeMessage_noRefeed {σ : Type} (P : Protocol σ) (p : httpRequestParser) (s : σ) :
    (p.completeMessage P s).noRefeed := by
  unfold httpRequestParser.completeMessage
  split <;> trivial

theorem chooseBody_noRefeed {σ : Type} (P : Protocol σ) (p : httpRequestParser) (s : σ) :
    (p.chooseBody P s).noRefeed := by
  unfold httpRequestParser.chooseBody
  split_ifs
  · trivial
  · exact Step.noRefeed_andThen _ _ (completeMessage_noRefeed P p s) (fun q t => orDie_noRefeed q _)
  · trivial

theorem interpretHeader_noRefeed {σ : Type} (p : httpRequestParser) (s : σ) (key value : Bytes) :
    (p.interpretHeader s key value).noRefeed := by
  unfold httpRequestParser.interpretHeader
  repeat' split
  all_goals trivial

set_option linter.unusedTactic false in
theorem feedStep_noRefeed {σ : Type} (P : Protocol σ) (p : httpRequestParser) (s : σ) (c : Nat)
    (rest : Bytes) (hp : p.state ≠ .body) : (p.feedStep P s c rest).noRefeed := by
  unfold httpRequestParser.feedStep
  split
  all_goals (try simp only [])
  all_goals repeat' first
    | trivial
    | (exfalso; exact hp (by assumption))
    | exact chooseBody_noRefeed _ _ _
    | exact completeMessage_noRefeed _ _ _
    | exact orDie_noRefeed _ _
    | exact interpretHeader_noRefeed _ _ _ _
    | refine Step.noRefeed_andThen _ _ ?_ (fun q t => ?_)
    | split

theorem completeMessage_next {σ : Type} (P : Protocol σ) (p : httpRequestParser) (s : σ)
    (q : httpRequestParser) (t : σ) (h : p.completeMessage P s = .next q t) : q = p.Clear := by
  unfold httpRequestParser.completeMessage at h
  split at h
  · injection h with h1 h2; exact h1.symm
  · simp at h
  · simp at h

theorem feedStep_bodyOk {σ : Type} (P : Protocol σ) (p : httpRequestParser) (s : σ) (c : Nat)
    (rest : Bytes) (hp : p.state = .body) : (p.feedStep P s c rest).bodyOk (rest.length + 1) := by
  unfold httpRequestParser.feedStep
  simp only [hp]
  split
  · trivial
  · trivial
  · rename_i q t extra heq
    have hlen : extra.length ≤ rest.length + 1 := by
      simpa using pushBodyPiece_extra P p s (c :: rest) _ heq
    cases hcm : q.completeMessage P t with
    | next q1 t1 =>
      have hq1 := completeMessage_next P q t q1 t1 hcm
      simp only [Step.andThen]
      rcases P.OnMessageBegin t1 with ⟨t2, _ | e⟩
      · simp [httpRequestParser.orDie, Step.andThen, Step.bodyOk, hq1, httpRequestParser.Clear, hlen]
      · simp [httpRequestParser.orDie, Step.andThen, Step.bodyOk]
    | ret q1 t1 err => simp [Step.andThen, Step.bodyOk]
    | refeed q1 t1 e1 =>
      have := completeMessage_noRefeed P q t
      rw [hcm] at this
      exact this.elim
    | panic => simp [Step.andThen, Step.bodyOk]
  · trivial

theorem feedBody_bodyOk {σ : Type} (P : Protocol σ) (p : httpRequestParser) (s : σ)
    (data : Bytes) : (p.feedBody P s data).bodyOk data.length := by
  unfold httpRequestParser.feedBody
  split
  · trivial
  · trivial
  · rename_i q t extra heq
    have hlen : extra.length ≤ data.length := by
      simpa using pushBodyPiece_extra P p s data _ heq
    cases hcm : q.completeMessage P t with
    | next q1 t1 =>
      have hq1 := completeMessage_next P q t q1 t1 hcm
      simp only [Step.andThen]
      rcases P.OnMessageBegin t1 with ⟨t2, _ | e⟩
      · by_cases hx : extra.length > 0
        · simp [httpRequestParser.orDie, Step.andThen, Step.bodyOk, hq1, httpRequestParser.Clear,
            hlen, hx]
        · simp [httpRequestParser.orDie, Step.andThen, Step.bodyOk, hx]
      · simp [httpRequestParser.orDie, Step.andThen, Step.bodyOk]
    | ret q1 t1 err => simp [Step.andThen, Step.bodyOk]
    | refeed q1 t1 e1 =>
      have := completeMessage_noRefeed P q t
      rw [hcm] at this
      exact this.elim
    | panic => simp [Step.andThen, Step.bodyOk]
  · trivial

theorem feedLoop_fuel {σ : Type} (P : Protocol σ)
    (f g : httpRequestParser → σ → Bytes → Run (FeedResult σ)) (data : Bytes)
    (p : httpRequestParser) (s : σ)
    (hfg : ∀ q t e, q.state = .method →
      e.length ≤ (if p.state = .body then data.length else data.length - 1) →
      f q t e = g q t e ∧ f q t e ≠ .outOfFuel) :
    httpRequestParser.feedLoop f P p s data = httpRequestParser.feedLoop g P p s data ∧
      httpRequestParser.feedLoop f P p s data ≠ .outOfFuel := by
  induction data generalizing p s with
  | nil => simp [httpRequestParser.feedLoop]
  | cons c rest ih =>
    unfold httpRequestParser.feedLoop
    cases hst : p.feedStep P s c rest with
    | next q t =>
      have hpb : p.state ≠ .body := by
        intro hb
        have := feedStep_bodyOk P p s c rest hb
        rw [hst] at this
        exact this
      simp only
      apply ih
      intro q1 t1 e hq he
      apply hfg q1 t1 e hq
      simp only [hpb, if_false, List.length_cons]
      split_ifs at he <;> omega
    | ret q t err => simp
    | refeed q t e =>
      have hpb : p.state = .body := by
        by_contra hb
        have := feedStep_noRefeed P p s c rest hb
        rw [hst] at this
        exact this
      have hok := feedStep_bodyOk P p s c rest hpb
      rw [hst] at hok
      simp only
      apply hfg q t e hok.1
      simp only [hpb, if_true, List.length_cons]
      exact hok.2
    | panic => simp

theorem FeedN_fuel {σ : Type} (P : Protocol σ) (n m : Nat) (p : httpRequestParser) (s : σ)
    (data : Bytes) (hn : data.length + (if p.state = .body then 2 else 1) ≤ n)
    (hm : data.length + (if p.state = .body then 2 else 1) ≤ m) :
    p.FeedN P n s data = p.FeedN P m s data ∧ p.FeedN P n s data ≠ .outOfFuel := by
  induction n generalizing m p s data with
  | zero => split_ifs at hn <;> omega
  | succ n ih =>
    cases m with
    | zero => split_ifs at hm <;> omega
    | succ m =>
      have href : ∀ (bound : Nat), bound + 1 ≤ n → bound + 1 ≤ m →
          ∀ q t e, q.state = .method → e.length ≤ bound →
          httpRequestParser.FeedN P n q t e = httpRequestParser.FeedN P m q t e ∧
            httpRequestParser.FeedN P n q t e ≠ .outOfFuel := by
        intro bound hbn hbm q t e hq he
        apply ih
        · simp only [hq]; simp; omega
        · simp only [hq]; simp; omega
      unfold httpRequestParser.FeedN
      by_cases hlen : data.length = 0
      · simp [hlen]
      · simp only [hlen, if_false]
        have hpos : 0 < data.length := Nat.pos_of_ne_zero hlen
        split
        · simp
        · rename_i hstate
          simp only [hstate] at hn hm
          simp only [reduceCtorEq, if_false] at hn hm
          rcases hmb : P.OnMessageBegin s with ⟨t, _ | e⟩
          · simp only [httpRequestParser.orDie]
            apply feedLoop_fuel
            intro q1 t1 e1 hq he
            simp only [reduceCtorEq, if_false] at he
            exact href (data.length - 1) (by omega) (by omega) q1 t1 e1 hq he
          · simp [httpRequestParser.orDie]
        · rename_i hstate
          simp only [hstate, if_true] at hn hm
          have hok := feedBody_bodyOk P p s data
          cases hfb : p.feedBody P s data with
          | next q t => simp
          | ret q t err => simp
          | refeed q t e =>
            rw [hfb] at hok
            simp only
            exact href data.length (by omega) (by omega) q t e hok.1 hok.2
          | panic => simp
        · rename_i hnd hnm hnb
          have hpb : p.state ≠ .body := fun h => hnb h
          simp only [hpb, if_false] at hn hm
          apply feedLoop_fuel
          intro q1 t1 e1 hq he
          simp only [hpb, if_false] at he
          exact href (data.length - 1) (by omega) (by omega) q1 t1 e1 hq he

/-- The depth allowed by `Feed` for its calls to itself is never used up, and
a call with more depth allowed returns the same. -/
theorem Feed_fuel {σ : Type} (P : Protocol σ) (n : Nat) (p : httpRequestParser) (s : σ)
    (data : Bytes) (hn : data.length + 2 ≤ n) :
    p.FeedN P n s data = p.Feed P s data ∧ p.Feed P s data ≠ .outOfFuel := by
  have h1 := FeedN_fuel P n (data.length + 2) p s data (by split_ifs <;> omega)
    (by split_ifs <;> omega)
  have h2 := FeedN_fuel P (data.length + 2) (data.length + 2) p s data (by split_ifs <;> omega)
    (by split_ifs <;> omega)
  exact ⟨h1.1, h2.2⟩

theorem feedStep_rest {σ : Type} (P : Protocol σ) (p : httpRequestParser) (s : σ) (c : Nat)
    (r1 r2 : Bytes) (h1 : p.state ≠ .body) (h2 : p.state ≠ .bodyConnectionClose) :
    p.feedStep P s c r1 = p.feedStep P s c r2 := by
  unfold httpRequestParser.feedStep
  split <;> first | rfl | (exfalso; exact h1 (by assumption)) | (exfalso; exact h2 (by assumption))

theorem headRun_append {σ : Type} (P : Protocol σ) (a b : Bytes) (p : httpRequestParser) (s : σ) :
    httpRequestParser.headRun P p s (a ++ b) =
      (httpRequestParser.headRun P p s a).bind fun r => httpRequestParser.headRun P r.1 r.2 b := by
  induction a generalizing p s with
  | nil => simp [httpRequestParser.headRun]
  | cons c a ih =>
    simp only [List.cons_append, httpRequestParser.headRun]
    split_ifs
    · rfl
    · cases p.feedStep P s c [] with
      | next q t => exact ih q t
      | ret q t err => rfl
      | refeed q t e => rfl
      | panic => rfl

theorem headRun_append_some {σ : Type} (P : Protocol σ) (a b : Bytes) (p q r : httpRequestParser)
    (s t u : σ) (h1 : httpRequestParser.headRun P p s a = some (q, t))
    (h2 : httpRequestParser.headRun P q t b = some (r, u)) :
    httpRequestParser.headRun P p s (a ++ b) = some (r, u) := by
  rw [headRun_append, h1]
  exact h2

theorem feedLoop_headRun {σ : Type} (P : Protocol σ)
    (f : httpRequestParser → σ → Bytes → Run (FeedResult σ)) (a b : Bytes)
    (p q : httpRequestParser) (s t : σ) (h : httpRequestParser.headRun P p s a = some (q, t)) :
    httpRequestParser.feedLoop f P p s (a ++ b) = httpRequestParser.feedLoop f P q t b := by
  induction a generalizing p s with
  | nil =>
    simp only [httpRequestParser.headRun, Option.some.injEq, Prod.mk.injEq] at h
    obtain ⟨h1, h2⟩ := h
    subst h1 h2
    rfl
  | cons c a ih =>
    simp only [httpRequestParser.headRun] at h
    split_ifs at h with hst
    simp only [not_or] at hst
    rw [List.cons_append, httpRequestParser.feedLoop]
    rw [feedStep_rest P p s c (a ++ b) [] hst.1 hst.2.1]
    cases hfs : p.feedStep P s c [] with
    | next q1 t1 =>
      rw [hfs] at h
      exact ih q1 t1 h
    | ret q1 t1 err => rw [hfs] at h; simp at h
    | refeed q1 t1 e => rw [hfs] at h; simp at h
    | panic => rw [hfs] at h; simp at h

/-- The states of the request line and of the header block. -/
theorem headRun_state {σ : Type} (P : Protocol σ) (c : Nat) (a : Bytes) (p : httpRequestParser)
    (s : σ) (r : httpRequestParser × σ) (h : httpRequestParser.headRun P p s (c :: a) = some r) :
    p.state ≠ .body ∧ p.state ≠ .bodyConnectionClose ∧ p.state ≠ .dead ∧
      p.state ≠ .messageBegin := by
  simp only [httpRequestParser.headRun] at h
  split_ifs at h with hst
  simpa only [not_or] using hst

theorem Feed_head {σ : Type} (P : Protocol σ) (p : httpRequestParser) (s : σ) (data : Bytes)
    (hne : data ≠ []) (h1 : p.state ≠ .body) (h2 : p.state ≠ .dead)
    (h3 : p.state ≠ .messageBegin) :
    p.Feed P s data =
      httpRequestParser.feedLoop (httpRequestParser.FeedN P (data.length + 1)) P p s data := by
  have hl : data.length ≠ 0 := by simpa using hne
  unfold httpRequestParser.Feed
  rw [httpRequestParser.FeedN, if_neg hl]
  split <;> first | rfl | contradiction

theorem appendAll_bytes (b : Buffer) (cs : Bytes) : (b.appendAll cs).bytes = b.bytes ++ cs := by
  induction cs generalizing b with
  | nil => simp [Buffer.appendAll]
  | cons c cs ih =>
    have := ih (b.append c)
    simp only [Buffer.appendAll, List.foldl_cons] at this ⊢
    rw [this]
    simp [Buffer.append]

theorem IsMethodValid_facts (m : Bytes) (h : IsMethodValid m = true) :
    (∀ c ∈ m, c ≠ 32) ∧ m.length ≤ 7 := by
  unfold IsMethodValid at h
  simp only [List.contains_iff_exists_mem_beq, beq_iff_eq] at h
  obtain ⟨a, ha, rfl⟩ := h
  simp only [List.mem_cons, List.mem_singleton, List.not_mem_nil, or_false] at ha
  rcases ha with rfl | rfl | rfl | rfl | rfl | rfl | rfl | rfl | rfl <;> decide

theorem supported_facts (pr : Bytes) (h : pr ∈ supportedProtocols) :
    (∀ c ∈ pr, c ≠ 13 ∧ c ≠ 10) ∧ pr.length ≤ 10 ∧ IsProtocolSupported pr = true := by
  unfold supportedProtocols at h
  simp only [List.mem_cons, List.mem_singleton, List.not_mem_nil, or_false] at h
  rcases h with rfl | rfl | rfl | rfl | rfl | rfl <;> decide

theorem sliceFrom_eq (l : Bytes) (off : Nat) (h : off ≤ l.length) :
    sliceFrom l (off : Int) = some (l.drop off) := by
  unfold sliceFrom slice
  have h1 : (0 : Int) ≤ (off : Int) ∧ (off : Int) ≤ (l.length : Int) ∧
      (l.length : Int) ≤ (l.length : Int) := by omega
  rw [if_pos h1]
  simp

theorem slice_zero_eq (l : Bytes) (hi : Nat) (h : hi ≤ l.length) :
    slice l 0 (hi : Int) = some (l.take hi) := by
  unfold slice
  have h1 : (0 : Int) ≤ 0 ∧ (0 : Int) ≤ (hi : Int) ∧ (hi : Int) ≤ (l.length : Int) := by omega
  rw [if_pos h1]
  simp

theorem headRun_cons {σ : Type} (P : Protocol σ) (p q : httpRequestParser) (s t : σ) (c : Nat)
    (cs : Bytes)
    (hst : ¬ (p.state = .body ∨ p.state = .bodyConnectionClose ∨ p.state = .dead ∨
      p.state = .messageBegin))
    (hstep : p.feedStep P s c [] = .next q t) :
    httpRequestParser.headRun P p s (c :: cs) = httpRequestParser.headRun P q t cs := by
  rw [httpRequestParser.headRun, if_neg hst, hstep]

theorem headRun_method {σ : Type} (P : Protocol σ) (m : Bytes) (p : httpRequestParser) (s : σ)
    (hst : p.state = .method) (hsp : ∀ c ∈ m, c ≠ 32)
    (hlen : p.startLineBuff.bytes.length + m.length ≤ 7) :
    httpRequestParser.headRun P p s m =
      some ({ p with startLineBuff := p.startLineBuff.appendAll m }, s) := by
  induction m generalizing p with
  | nil => rfl
  | cons c cs ih =>
    have hc : c ≠ 32 := hsp c (by simp)
    simp only [List.length_cons] at hlen
    have hstep : p.feedStep P s c [] =
        .next { p with startLineBuff := p.startLineBuff.append c } s := by
      unfold httpRequestParser.feedStep
      simp only [hst, hc, if_false]
      have : ¬ ((p.startLineBuff.append c).bytes.length > maxMethodLength) := by
        simp [Buffer.append, maxMethodLength]; omega
      simp only [this, if_false]
    rw [headRun_cons P p _ s s c cs (by simp [hst]) hstep]
    rw [ih { p with startLineBuff := p.startLineBuff.append c } hst
      (fun x hx => hsp x (by simp [hx])) (by simp [Buffer.append]; omega)]
    rfl

theorem headRun_path {σ : Type} (P : Protocol σ) (pa : Bytes) (p : httpRequestParser) (s : σ)
    (hst : p.state = .path) (hoff : p.startLineOffset ≤ p.startLineBuff.bytes.length)
    (hpr : ∀ c ∈ pa, IsPrint c = true ∧ c ≠ 32)
    (hlen : ((p.startLineBuff.bytes.length - p.startLineOffset + pa.length : Nat) : Int) ≤
      p.settings.MaxPathLength) :
    httpRequestParser.headRun P p s pa =
      some ({ p with startLineBuff := p.startLineBuff.appendAll pa }, s) := by
  induction pa generalizing p with
  | nil => rfl
  | cons c cs ih =>
    obtain ⟨hpc, hc⟩ := hpr c (by simp)
    simp only [List.length_cons] at hlen
    have hsl : sliceFrom (p.startLineBuff.append c).bytes p.startLineOffset =
        some ((p.startLineBuff.append c).bytes.drop p.startLineOffset) :=
      sliceFrom_eq _ _ (by simp [Buffer.append]; omega)
    have hstep : p.feedStep P s c [] =
        .next { p with startLineBuff := p.startLineBuff.append c } s := by
      unfold httpRequestParser.feedStep
      simp only [hst, hc, hpc, if_false, not_true_eq_false, hsl]
      have : ¬ ((((p.startLineBuff.append c).bytes.drop p.startLineOffset).length : Nat) : Int) >
          p.settings.MaxPathLength := by
        simp [Buffer.append]; omega
      simp only [this, if_false]
    rw [headRun_cons P p _ s s c cs (by simp [hst]) hstep]
    rw [ih { p with startLineBuff := p.startLineBuff.append c } hst
      (by simp [Buffer.append]; omega) (fun x hx => hpr x (by simp [hx]))
      (by simp [Buffer.append]; omega)]
    rfl

theorem headRun_protocol {σ : Type} (P : Protocol σ) (pr : Bytes) (p : httpRequestParser) (s : σ)
    (hst : p.state = .protocol) (hoff : p.startLineOffset ≤ p.startLineBuff.bytes.length)
    (hpr : ∀ c ∈ pr, c ≠ 13 ∧ c ≠ 10)
    (hlen : p.startLineBuff.bytes.length - p.startLineOffset + pr.length ≤ 10) :
    httpRequestParser.headRun P p s pr =
      some ({ p with startLineBuff := p.startLineBuff.appendAll pr }, s) := by
  induction pr generalizing p with
  | nil => rfl
  | cons c cs ih =>
    obtain ⟨hc13, hc10⟩ := hpr c (by simp)
    simp only [List.length_cons] at hlen
    have hsl : sliceFrom (p.startLineBuff.append c).bytes p.startLineOffset =
        some ((p.startLineBuff.append c).bytes.drop p.startLineOffset) :=
      sliceFrom_eq _ _ (by simp [Buffer.append]; omega)
    have hstep : p.feedStep P s c [] =
        .next { p with startLineBuff := p.startLineBuff.append c } s := by
      unfold httpRequestParser.feedStep
      simp only [hst, hc13, hc10, if_false, hsl]
      have : ¬ (((p.startLineBuff.append c).bytes.drop p.startLineOffset).length >
          maxProtocolLength) := by
        simp [Buffer.append, maxProtocolLength]; omega
      simp only [this, if_false]
    rw [headRun_cons P p _ s s c cs (by simp [hst]) hstep]
    rw [ih { p with startLineBuff := p.startLineBuff.append c } hst
      (by simp [Buffer.append]; omega) (fun x hx => hpr x (by simp [hx]))
      (by simp [Buffer.append]; omega)]
    rfl

theorem headRun_headerKey {σ : Type} (P : Protocol σ) (ks : Bytes) (p : httpRequestParser) (s : σ)
    (hst : p.state = .headerKey) (hpr : ∀ c ∈ ks, IsPrint c = true ∧ c ≠ 58)
    (hlen : ((p.headersBuffer.bytes.length + ks.length : Nat) : Int) <
      p.settings.MaxHeaderLineLength) :
    httpRequestParser.headRun P p s ks =
      some ({ p with headersBuffer := p.headersBuffer.appendAll ks }, s) := by
  induction ks generalizing p with
  | nil => rfl
  | cons c cs ih =>
    obtain ⟨hpc, hc⟩ := hpr c (by simp)
    simp only [List.length_cons] at hlen
    have hstep : p.feedStep P s c [] =
        .next { p with headersBuffer := p.headersBuffer.append c } s := by
      unfold httpRequestParser.feedStep
      simp only [hst, hc, hpc, if_false, not_true_eq_false]
      have : ¬ ((((p.headersBuffer.append c).bytes.length : Nat) : Int) ≥
          p.settings.MaxHeaderLineLength) := by
        simp [Buffer.append]; omega
      simp only [this, if_false]
    rw [headRun_cons P p _ s s c cs (by simp [hst]) hstep]
    rw [ih { p with headersBuffer := p.headersBuffer.append c } hst
      (fun x hx => hpr x (by simp [hx])) (by simp [Buffer.append]; omega)]
    rfl

theorem headRun_headerValue {σ : Type} (P : Protocol σ) (v : Bytes) (p : httpRequestParser)
    (s : σ) (hst : p.state = .headerValue) (hpr : ∀ c ∈ v, IsPrint c = true)
    (hlen : ((p.headersBuffer.bytes.length + v.length : Nat) : Int) ≤
      p.settings.MaxHeaderLineLength) :
    httpRequestParser.headRun P p s v =
      some ({ p with headersBuffer := p.headersBuffer.appendAll v }, s) := by
  induction v generalizing p with
  | nil => rfl
  | cons c cs ih =>
    have hpc := hpr c (by simp)
    have hc13 : c ≠ 13 := by
      intro h; subst h; simp [IsPrint] at hpc
    have hc10 : c ≠ 10 := by
      intro h; subst h; simp [IsPrint] at hpc
    simp only [List.length_cons] at hlen
    have hstep : p.feedStep P s c [] =
        .next { p with headersBuffer := p.headersBuffer.append c } s := by
      unfold httpRequestParser.feedStep
      simp only [hst, hc13, hc10, hpc, if_false, not_true_eq_false]
      have : ¬ ((((p.headersBuffer.append c).bytes.length : Nat) : Int) >
          p.settings.MaxHeaderLineLength) := by
        simp [Buffer.append]; omega
      simp only [this, if_false]
    rw [headRun_cons P p _ s s c cs (by simp [hst]) hstep]
    rw [ih { p with headersBuffer := p.headersBuffer.append c } hst
      (fun x hx => hpr x (by simp [hx])) (by simp [Buffer.append]; omega)]
    rfl

theorem headRun_single {σ : Type} (P : Protocol σ) (p q : httpRequestParser) (s t : σ) (c : Nat)
    (hst : ¬ (p.state = .body ∨ p.state = .bodyConnectionClose ∨ p.state = .dead ∨
      p.state = .messageBegin))
    (hstep : p.feedStep P s c [] = .next q t) :
    httpRequestParser.headRun P p s [c] = some (q, t) := by
  rw [headRun_cons P p q s t c [] hst hstep]
  rfl

theorem headRun_startLine (p : httpRequestParser) (s : List Event) (h : Head)
    (hst : p.state = .method) (hsb : p.startLineBuff.bytes = [])
    (hm : IsMethodValid h.method = true) (hp0 : h.path ≠ [])
    (hpp : ∀ c ∈ h.path, IsPrint c = true ∧ c ≠ 32)
    (hpl : (h.path.length : Int) ≤ p.settings.MaxPathLength)
    (hpr : h.proto ∈ supportedProtocols) (hmax : p.settings.MaxPathLength < 2 ^ 63) :
    ∃ sb : Buffer, sb.bytes = h.method ++ h.path ++ h.proto ∧
      httpRequestParser.headRun recorder p s
          (h.method ++ [32] ++ h.path ++ [32] ++ h.proto ++ [13, 10]) =
        some ({ p with
            state := .protocolLF
            startLineBuff := sb
            startLineOffset := h.method.length + h.path.length },
          s ++ [.method h.method, .path h.path]) := by
  obtain ⟨hm32, hm7⟩ := IsMethodValid_facts h.method hm
  obtain ⟨hpr1, hpr10, _⟩ := supported_facts h.proto hpr
  refine ⟨((p.startLineBuff.appendAll h.method).appendAll h.path).appendAll h.proto, ?_, ?_⟩
  · simp [appendAll_bytes, hsb]
  -- the method
  have h1 := headRun_method recorder h.method p s hst hm32 (by rw [hsb]; simpa using hm7)
  have hb1 : (p.startLineBuff.appendAll h.method).bytes = h.method := by
    simp [appendAll_bytes, hsb]
  have h2 : httpRequestParser.headRun recorder
      { p with startLineBuff := p.startLineBuff.appendAll h.method } s [32] =
      some ({ p with
          startLineBuff := p.startLineBuff.appendAll h.method
          startLineOffset := h.method.length
          state := .path }, s ++ [.method h.method]) := by
    apply headRun_single
    · simp [hst]
    · unfold httpRequestParser.feedStep
      simp [hst, hb1, hm, recorder, httpRequestParser.orDie, Step.andThen]
  -- the path
  have h3 := headRun_path recorder h.path
    { p with
      startLineBuff := p.startLineBuff.appendAll h.method
      startLineOffset := h.method.length
      state := .path } (s ++ [.method h.method]) rfl (by simp [hb1])
    hpp (by simp only [hb1]; simpa using hpl)
  have hb2 : ((p.startLineBuff.appendAll h.method).appendAll h.path).bytes =
      h.method ++ h.path := by
    simp [appendAll_bytes, hsb]
  have hplen : 0 < h.path.length := List.length_pos.mpr hp0
  have hlt : h.method.length + h.path.length < 18446744073709551616 := by
    have : (h.path.length : Int) < 2 ^ 63 := lt_of_le_of_lt hpl hmax
    norm_num at this
    omega
  have h4 : httpRequestParser.headRun recorder
      { p with
        startLineBuff := (p.startLineBuff.appendAll h.method).appendAll h.path
        startLineOffset := h.method.length
        state := .path } (s ++ [.method h.method]) [32] =
      some ({ p with
          startLineBuff := (p.startLineBuff.appendAll h.method).appendAll h.path
          startLineOffset := h.method.length + h.path.length
          state := .protocol }, s ++ [.method h.method, .path h.path]) := by
    apply headRun_single
    · simp
    · unfold httpRequestParser.feedStep
      have hsl : sliceFrom (h.method ++ h.path) (h.method.length : Int) = some h.path := by
        rw [sliceFrom_eq _ _ (by simp)]
        simp
      have hne : ¬ (h.method.length + h.path.length = h.method.length) := by omega
      simp [hb2, hsl, hne, recorder, httpRequestParser.orDie, Step.andThen, hlt]
  -- the protocol token
  have h5 := headRun_protocol recorder h.proto
    { p with
      startLineBuff := (p.startLineBuff.appendAll h.method).appendAll h.path
      startLineOffset := h.method.length + h.path.length
      state := .protocol } (s ++ [.method h.method, .path h.path]) rfl (by simp [hb2])
    hpr1 (by simp only [hb2]; simpa using hpr10)
  have h6 : httpRequestParser.headRun recorder
      { p with
        startLineBuff := ((p.startLineBuff.appendAll h.method).appendAll h.path).appendAll h.proto
        startLineOffset := h.method.length + h.path.length
        state := .protocol } (s ++ [.method h.method, .path h.path]) [13, 10] =
      some ({ p with
          startLineBuff :=
            ((p.startLineBuff.appendAll h.method).appendAll h.path).appendAll h.proto
          startLineOffset := h.method.length + h.path.length
          state := .protocolLF }, s ++ [.method h.method, .path h.path]) := by
    simp [httpRequestParser.headRun, httpRequestParser.feedStep]
  have e : h.method ++ [32] ++ h.path ++ [32] ++ h.proto ++ [13, 10] =
      h.method ++ ([32] ++ (h.path ++ ([32] ++ (h.proto ++ [13, 10])))) := by simp
  rw [e]
  refine headRun_append_some _ _ _ _ _ _ _ _ _ h1 ?_
  refine headRun_append_some _ _ _ _ _ _ _ _ _ h2 ?_
  refine headRun_append_some _ _ _ _ _ _ _ _ _ h3 ?_
  refine headRun_append_some _ _ _ _ _ _ _ _ _ h4 ?_
  exact headRun_append_some _ _ _ _ _ _ _ _ _ h5 h6

theorem foldLoop_eq (sample key : Bytes) (h : sample.length = key.length) :
    foldLoop sample key = some (decide (key.map (fun d => (d ||| 0x20) % 256) = sample)) := by
  induction sample generalizing key with
  | nil =>
    cases key with
    | nil => simp [foldLoop]
    | cons d ds => simp at h
  | cons c cs ih =>
    cases key with
    | nil => simp at h
    | cons d ds =>
      simp only [List.length_cons, Nat.add_right_cancel_iff] at h
      simp only [foldLoop, List.map_cons, List.cons.injEq]
      by_cases hc : c = (d ||| 0x20) % 256
      · simp only [hc, ne_eq, not_true_eq_false, if_false, true_and]
        rw [ih ds h]
      · have hc2 : ¬ ((d ||| 0x20) % 256 = c) := fun h2 => hc h2.symm
        simp [hc, hc2]

theorem EqualFold_eq (sample data : Bytes) :
    EqualFold sample data = some (foldsTo sample data) := by
  unfold EqualFold foldsTo
  by_cases h : sample.length = data.length
  · have h2 : data.length = sample.length := h.symm
    simp only [h, ne_eq, not_true_eq_false, if_false]
    rw [foldLoop_eq sample data h]
    simp
  · have h2 : ¬ (data.length = sample.length) := fun h3 => h h3.symm
    simp [h, h2]

theorem foldLoop_foldsTo (sample key : Bytes) (h : key.length = sample.length) :
    foldLoop sample key = some (foldsTo sample key) := by
  rw [foldLoop_eq sample key h.symm]
  simp [foldsTo, h]

theorem foldsTo_length (sample key : Bytes) (h : foldsTo sample key = true) :
    key.length = sample.length := by
  unfold foldsTo at h
  simp only [Bool.and_eq_true, decide_eq_true_eq] at h
  exact h.1

theorem interpretHeader_framing {σ : Type} (p : httpRequestParser) (s : σ) (hd : Header)
    (f : Framing)
    (h : hd.framing ⟨p.bodyBytesLeft, p.isChunked, p.closeConnection⟩ = some f) :
    p.interpretHeader s hd.key hd.value =
      .next { p with
        bodyBytesLeft := f.bodyBytesLeft
        isChunked := f.isChunked
        closeConnection := f.closeConnection } s := by
  have l14 : contentLength.length = 14 := by decide
  have l17 : transferEncoding.length = 17 := by decide
  have l10 : connection.length = 10 := by decide
  unfold Header.framing at h
  unfold httpRequestParser.interpretHeader
  by_cases h1 : foldsTo contentLength hd.key = true
  · have hl := foldsTo_length _ _ h1
    simp only [h1, if_true] at h
    simp only [hl, if_true, foldLoop_foldsTo _ _ hl, h1]
    cases hp : parseUint hd.value with
    | none => rw [hp] at h; simp at h
    | some n =>
      rw [hp] at h
      simp only [Option.map_some', Option.some.injEq] at h
      subst h
      rfl
  · simp only [h1, Bool.false_eq_true, if_false] at h
    by_cases h2 : foldsTo transferEncoding hd.key = true
    · have hl := foldsTo_length _ _ h2
      simp only [h2, if_true, Option.some.injEq] at h
      subst h
      have hk : hd.key.length = 17 := by rw [hl, l17]
      simp [l14, l17, hk, foldLoop_foldsTo _ _ hl, h2, EqualFold_eq]
    · simp only [h2, Bool.false_eq_true, if_false] at h
      by_cases h3 : foldsTo connection hd.key = true
      · have hl := foldsTo_length _ _ h3
        simp only [h3, if_true, Option.some.injEq] at h
        subst h
        have hk : hd.key.length = 10 := by rw [hl, l10]
        simp [l14, l17, l10, hk, foldLoop_foldsTo _ _ hl, h3, EqualFold_eq]
      · simp only [h3, Bool.false_eq_true, if_false, Option.some.injEq] at h
        subst h
        have e1 : foldsTo contentLength hd.key = false := by simpa using h1
        have e2 : foldsTo transferEncoding hd.key = false := by simpa using h2
        have e3 : foldsTo connection hd.key = false := by simpa using h3
        by_cases c1 : hd.key.length = contentLength.length
        · simp only [c1, if_true, foldLoop_foldsTo _ _ c1, e1]
        · simp only [c1, if_false]
          by_cases c2 : hd.key.length = transferEncoding.length
          · simp only [c2, if_true, foldLoop_foldsTo _ _ c2, e2]
          · simp only [c2, if_false]
            by_cases c3 : hd.key.length = connection.length
            · simp only [c3, if_true, foldLoop_foldsTo _ _ c3, e3]
            · simp only [c3, if_false]

theorem IsPrint_facts (c : Nat) (h : IsPrint c = true) : c ≠ 13 ∧ c ≠ 10 := by
  constructor <;> (intro hc; subst hc; simp [IsPrint] at h)

/-- The rest of a header line, read from state `headerKey` with the first key
byte in the buffer. -/
theorem headRun_headerLine {σ : Type} (P : Protocol σ) (k0 : Nat) (ks v : Bytes)
    (p : httpRequestParser) (s : σ) (hst : p.state = .headerKey)
    (hb : p.headersBuffer.bytes = [k0])
    (hk : ∀ c ∈ ks, IsPrint c = true ∧ c ≠ 58) (hv : ∀ c ∈ v, IsPrint c = true)
    (hkl : (((k0 :: ks).length : Nat) : Int) < p.settings.MaxHeaderLineLength)
    (hvl : (((k0 :: ks).length + v.length : Nat) : Int) ≤ p.settings.MaxHeaderLineLength) :
    httpRequestParser.headRun P p s (ks ++ [58, 32] ++ v ++ [13, 10]) =
      some ({ p with
          state := .headerValueLF
          headerValueBegin := (k0 :: ks).length
          headersBuffer := (p.headersBuffer.appendAll ks).appendAll v }, s) := by
  have h1 := headRun_headerKey P ks p s hst hk (by rw [hb]; simpa [Nat.add_comm] using hkl)
  have hb1 : (p.headersBuffer.appendAll ks).bytes = k0 :: ks := by
    simp [appendAll_bytes, hb]
  have h2 : httpRequestParser.headRun P
      { p with headersBuffer := p.headersBuffer.appendAll ks } s [58, 32] =
      some ({ p with
          headersBuffer := p.headersBuffer.appendAll ks
          state := .headerValue
          headerValueBegin := (k0 :: ks).length }, s) := by
    simp [httpRequestParser.headRun, httpRequestParser.feedStep, hst, hb1, IsPrint]
  have h3 := headRun_headerValue P v
    { p with
      headersBuffer := p.headersBuffer.appendAll ks
      state := .headerValue
      headerValueBegin := (k0 :: ks).length } s rfl hv
    (by simp only [hb1]; exact hvl)
  have h4 : httpRequestParser.headRun P
      { p with
        headersBuffer := (p.headersBuffer.appendAll ks).appendAll v
        state := .headerValue
        headerValueBegin := (k0 :: ks).length } s [13, 10] =
      some ({ p with
          state := .headerValueLF
          headerValueBegin := (k0 :: ks).length
          headersBuffer := (p.headersBuffer.appendAll ks).appendAll v }, s) := by
    simp [httpRequestParser.headRun, httpRequestParser.feedStep]
  have e : ks ++ [58, 32] ++ v ++ [13, 10] = ks ++ ([58, 32] ++ (v ++ [13, 10])) := by simp
  rw [e]
  refine headRun_append_some _ _ _ _ _ _ _ _ _ h1 ?_
  refine headRun_append_some _ _ _ _ _ _ _ _ _ h2 ?_
  exact headRun_append_some _ _ _ _ _ _ _ _ _ h3 h4

/-- The byte after a header line, read in state `headerValueLF`: the header
is given to `OnHeader` and interpreted, and the byte is either the CR of the
empty line or the first byte of the next key. -/
theorem feedStep_headerValueLF (p : httpRequestParser) (s : List Event) (hd : Header)
    (f : Framing) (c : Nat) (hst : p.state = .headerValueLF)
    (hb : p.headersBuffer.bytes = hd.key ++ hd.value)
    (hvb : p.headerValueBegin = hd.key.length)
    (hf : hd.framing ⟨p.bodyBytesLeft, p.isChunked, p.closeConnection⟩ = some f)
    (hc10 : c ≠ 10) :
    p.feedStep recorder s c [] =
      .next (if c = 13 then
          { p with
            state := .headerValueDoubleCR
            bodyBytesLeft := f.bodyBytesLeft
            isChunked := f.isChunked
            closeConnection := f.closeConnection }
        else
          { p with
            state := .headerKey
            headersBuffer := p.headersBuffer.truncate.append c
            bodyBytesLeft := f.bodyBytesLeft
            isChunked := f.isChunked
            closeConnection := f.closeConnection })
        (s ++ [.header hd.key hd.value]) := by
  have hs1 : slice p.headersBuffer.bytes 0 (p.headerValueBegin : Int) = some hd.key := by
    rw [hb, hvb, slice_zero_eq _ _ (by simp)]
    simp
  have hs2 : sliceFrom p.headersBuffer.bytes (p.headerValueBegin : Int) = some hd.value := by
    rw [hb, hvb, sliceFrom_eq _ _ (by simp)]
    simp
  unfold httpRequestParser.feedStep
  simp only [hst, hs1, hs2]
  simp only [recorder, httpRequestParser.orDie, Step.andThen]
  rw [interpretHeader_framing p _ hd f hf]
  simp only [Step.andThen]
  by_cases h13 : c = 13
  · simp [h13]
  · simp [h13, hc10]

theorem headRun_headers (hs : List Header) (hd : Header) (p : httpRequestParser)
    (s : List Event) (f : Framing) (hst : p.state = .headerValueLF)
    (hb : p.headersBuffer.bytes = hd.key ++ hd.value)
    (hvb : p.headerValueBegin = hd.key.length)
    (hwf : ∀ x ∈ hs, x.wellFormed p.settings.MaxHeaderLineLength)
    (hf : framingOf (hd :: hs) ⟨p.bodyBytesLeft, p.isChunked, p.closeConnection⟩ = some f) :
    ∃ (hbuf : Buffer) (hv : Nat),
      httpRequestParser.headRun recorder p s ((hs.map Header.encode).flatten ++ [13]) =
        some ({ p with
            state := .headerValueDoubleCR
            headerValueBegin := hv
            headersBuffer := hbuf
            bodyBytesLeft := f.bodyBytesLeft
            isChunked := f.isChunked
            closeConnection := f.closeConnection },
          s ++ (hd :: hs).map fun x => Event.header x.key x.value) := by
  induction hs generalizing hd p s with
  | nil =>
    have hf1 : hd.framing ⟨p.bodyBytesLeft, p.isChunked, p.closeConnection⟩ = some f := by
      simp only [framingOf] at hf
      cases h : hd.framing ⟨p.bodyBytesLeft, p.isChunked, p.closeConnection⟩ with
      | none => rw [h] at hf; simp at hf
      | some f1 => rw [h] at hf; simpa [framingOf] using hf
    have hstep := feedStep_headerValueLF p s hd f 13 hst hb hvb hf1 (by decide)
    simp only [if_true] at hstep
    refine ⟨p.headersBuffer, p.headerValueBegin, ?_⟩
    simp only [List.map_nil, List.flatten_nil, List.nil_append, List.map_cons]
    exact headRun_single recorder p _ s _ 13 (by simp [hst]) hstep
  | cons h2 hs ih =>
    obtain ⟨f1, hf1, hf2⟩ : ∃ f1, hd.framing ⟨p.bodyBytesLeft, p.isChunked, p.closeConnection⟩ =
        some f1 ∧ framingOf (h2 :: hs) f1 = some f := by
      rw [framingOf] at hf
      cases h : hd.framing ⟨p.bodyBytesLeft, p.isChunked, p.closeConnection⟩ with
      | none => rw [h] at hf; simp at hf
      | some f1 => rw [h] at hf; exact ⟨f1, rfl, by simpa using hf⟩
    obtain ⟨hk0, hkp, hvp, hkl, hvl⟩ := hwf h2 (by simp)
    obtain ⟨k0, ks, hkey⟩ : ∃ k0 ks, h2.key = k0 :: ks := by
      cases hk : h2.key with
      | nil => exact absurd hk hk0
      | cons a b => exact ⟨a, b, rfl⟩
    have hk0p := (hkp k0 (by rw [hkey]; simp)).1
    obtain ⟨hk13, hk10⟩ := IsPrint_facts k0 hk0p
    have hstep := feedStep_headerValueLF p s hd f1 k0 hst hb hvb hf1 hk10
    simp only [hk13, if_false] at hstep
    have h1 := headRun_single recorder p _ s _ k0 (by simp [hst]) hstep
    have h2r := headRun_headerLine recorder k0 ks h2.value
      { p with
        state := .headerKey
        headersBuffer := p.headersBuffer.truncate.append k0
        bodyBytesLeft := f1.bodyBytesLeft
        isChunked := f1.isChunked
        closeConnection := f1.closeConnection }
      (s ++ [.header hd.key hd.value]) rfl (by simp [Buffer.append, Buffer.truncate])
      (fun c hc => hkp c (by rw [hkey]; simp [hc])) hvp
      (by rw [← hkey]; exact hkl) (by rw [← hkey]; exact hvl)
    obtain ⟨hbuf, hv, h3⟩ := ih h2
      { p with
        state := .headerValueLF
        headerValueBegin := (k0 :: ks).length
        headersBuffer := ((p.headersBuffer.truncate.append k0).appendAll ks).appendAll h2.value
        bodyBytesLeft := f1.bodyBytesLeft
        isChunked := f1.isChunked
        closeConnection := f1.closeConnection }
      (s ++ [.header hd.key hd.value]) rfl
      (by simp [appendAll_bytes, Buffer.append, Buffer.truncate, hkey])
      (by simp [hkey])
      (fun x hx => hwf x (by simp [hx])) hf2
    refine ⟨hbuf, hv, ?_⟩
    have e : ((h2 :: hs).map Header.encode).flatten ++ [13] =
        [k0] ++ ((ks ++ [58, 32] ++ h2.value ++ [13, 10]) ++
          ((hs.map Header.encode).flatten ++ [13])) := by
      simp [Header.encode, hkey]
    rw [e]
    refine headRun_append_some _ _ _ _ _ _ _ _ _ h1 ?_
    refine headRun_append_some _ _ _ _ _ _ _ _ _ h2r ?_
    simpa using h3

/-- The whole head, read from the state in which a request is awaited: the
parser ends in state `body` with the framing fields the header lines give. -/
theorem headRun_head (p : httpRequestParser) (s : List Event) (h : Head) (n : Int)
    (hst : p.state = .method) (hsb : p.startLineBuff.bytes = [])
    (hhb : p.headersBuffer.bytes = []) (hwf : h.wellFormed p.settings)
    (hmax : p.settings.MaxPathLength < 2 ^ 63)
    (hf : framingOf h.headers ⟨p.bodyBytesLeft, p.isChunked, p.closeConnection⟩ =
      some ⟨n, false, false⟩)
    (hn : n ≠ 0) :
    ∃ (hbuf sb : Buffer) (hv : Nat),
      httpRequestParser.headRun recorder p s h.encode =
        some ({ p with
            state := .body
            headerValueBegin := hv
            headersBuffer := hbuf
            startLineBuff := sb
            startLineOffset := h.method.length + h.path.length
            bodyBytesLeft := n
            isChunked := false
            closeConnection := false },
          s ++ h.events) := by
  obtain ⟨hm, hp0, hpp, hpl, hpr, hhd⟩ := hwf
  obtain ⟨sb, hsbb, h1⟩ := headRun_startLine p s h hst hsb hm hp0 hpp hpl hpr hmax
  obtain ⟨_, _, hsup⟩ := supported_facts h.proto hpr
  have hsl : sliceFrom sb.bytes ((h.method.length + h.path.length : Nat) : Int) =
      some h.proto := by
    rw [sliceFrom_eq _ _ (by rw [hsbb]; simp), hsbb]
    congr 1
    exact List.drop_left' (by simp)
  have hsl2 : sliceFrom sb.bytes ((h.method.length : Int) + (h.path.length : Int)) =
      some h.proto := by
    have := hsl
    push_cast at this
    exact this
  cases hhs : h.headers with
  | nil =>
    rw [hhs] at hf
    simp only [framingOf, Option.some.injEq, Framing.mk.injEq] at hf
    obtain ⟨hf1, hf2, hf3⟩ := hf
    have h2 : httpRequestParser.headRun recorder
        { p with
          state := .protocolLF
          startLineBuff := sb
          startLineOffset := h.method.length + h.path.length }
        (s ++ [.method h.method, .path h.path]) [13, 10] =
        some ({ p with
            state := .body
            headerValueBegin := p.headerValueBegin
            headersBuffer := p.headersBuffer
            startLineBuff := sb
            startLineOffset := h.method.length + h.path.length
            bodyBytesLeft := n
            isChunked := false
            closeConnection := false },
          s ++ h.events) := by
      simp only [httpRequestParser.headRun, httpRequestParser.feedStep, hsl, hsup]
      simp [recorder, httpRequestParser.orDie, Step.andThen, httpRequestParser.chooseBody, hf1,
        hf2, hf3, hn, Head.events, hhs]
    refine ⟨p.headersBuffer, sb, p.headerValueBegin, ?_⟩
    have e : h.encode = (h.method ++ [32] ++ h.path ++ [32] ++ h.proto ++ [13, 10]) ++
        [13, 10] := by
      simp [Head.encode, hhs]
    rw [e]
    exact headRun_append_some _ _ _ _ _ _ _ _ _ h1 h2
  | cons hd hs =>
    rw [hhs] at hf hhd
    obtain ⟨hk0, hkp, hvp, hkl, hvl⟩ := hhd hd (by simp)
    obtain ⟨k0, ks, hkey⟩ : ∃ k0 ks, hd.key = k0 :: ks := by
      cases hk : hd.key with
      | nil => exact absurd hk hk0
      | cons a b => exact ⟨a, b, rfl⟩
    obtain ⟨hk0p, hk58⟩ := hkp k0 (by rw [hkey]; simp)
    obtain ⟨hk13, hk10⟩ := IsPrint_facts k0 hk0p
    -- the first key byte, read in state protocolLF
    have h2 : httpRequestParser.headRun recorder
        { p with
          state := .protocolLF
          startLineBuff := sb
          startLineOffset := h.method.length + h.path.length }
        (s ++ [.method h.method, .path h.path]) [k0] =
        some ({ p with
            state := .headerKey
            headersBuffer := p.headersBuffer.append k0
            startLineBuff := sb
            startLineOffset := h.method.length + h.path.length },
          s ++ [.method h.method, .path h.path, .protocol h.proto, .headersBegin]) := by
      apply headRun_single
      · simp
      · unfold httpRequestParser.feedStep
        simp [hsl2, hsup, recorder, httpRequestParser.orDie, Step.andThen, hk13, hk10, hk0p, hk58]
    have h3 := headRun_headerLine recorder k0 ks hd.value
      { p with
        state := .headerKey
        headersBuffer := p.headersBuffer.append k0
        startLineBuff := sb
        startLineOffset := h.method.length + h.path.length }
      (s ++ [.method h.method, .path h.path, .protocol h.proto, .headersBegin]) rfl
      (by simp [Buffer.append, hhb])
      (fun c hc => hkp c (by rw [hkey]; simp [hc])) hvp
      (by rw [← hkey]; exact hkl) (by rw [← hkey]; exact hvl)
    obtain ⟨hbuf, hv, h4⟩ := headRun_headers hs hd
      { p with
        state := .headerValueLF
        headerValueBegin := (k0 :: ks).length
        headersBuffer := ((p.headersBuffer.append k0).appendAll ks).appendAll hd.value
        startLineBuff := sb
        startLineOffset := h.method.length + h.path.length }
      (s ++ [.method h.method, .path h.path, .protocol h.proto, .headersBegin])
      ⟨n, false, false⟩ rfl
      (by simp [appendAll_bytes, Buffer.append, hhb, hkey])
      (by simp [hkey])
      (fun x hx => hhd x (by simp [hx])) hf
    have h5 : httpRequestParser.headRun recorder
        { p with
          state := .headerValueDoubleCR
          headerValueBegin := hv
          headersBuffer := hbuf
          startLineBuff := sb
          startLineOffset := h.method.length + h.path.length
          bodyBytesLeft := n
          isChunked := false
          closeConnection := false }
        (s ++ [.method h.method, .path h.path, .protocol h.proto, .headersBegin] ++
          (hd :: hs).map fun x => Event.header x.key x.value) [10] =
        some ({ p with
            state := .body
            headerValueBegin := hv
            headersBuffer := hbuf
            startLineBuff := sb
            startLineOffset := h.method.length + h.path.length
            bodyBytesLeft := n
            isChunked := false
            closeConnection := false },
          s ++ h.events) := by
      apply headRun_single
      · simp
      · unfold httpRequestParser.feedStep
        simp [httpRequestParser.chooseBody, hn, Head.events, hhs]
    refine ⟨hbuf, sb, hv, ?_⟩
    have e : h.encode = (h.method ++ [32] ++ h.path ++ [32] ++ h.proto ++ [13, 10]) ++
        ([k0] ++ ((ks ++ [58, 32] ++ hd.value ++ [13, 10]) ++
          (((hs.map Header.encode).flatten ++ [13]) ++ [10]))) := by
      simp [Head.encode, hhs, Header.encode, hkey]
    rw [e]
    refine headRun_append_some _ _ _ _ _ _ _ _ _ h1 ?_
    refine headRun_append_some _ _ _ _ _ _ _ _ _ h2 ?_
    refine headRun_append_some _ _ _ _ _ _ _ _ _ h3 ?_
    refine headRun_append_some _ _ _ _ _ _ _ _ _ ?_ h5
    simpa using h4

theorem pushBodyPiece_part (p : httpRequestParser) (s : List Event) (d : Bytes)
    (hch : p.isChunked = false) (hlt : (d.length : Int) < p.bodyBytesLeft)
    (h63 : p.bodyBytesLeft < 2 ^ 63) :
    p.pushBodyPiece recorder s d =
      some ({ p with bodyBytesLeft := p.bodyBytesLeft - d.length }, s ++ [.body d], false, [],
        none) := by
  unfold httpRequestParser.pushBodyPiece
  have hw : wrap64 (p.bodyBytesLeft - (d.length : Int)) = p.bodyBytesLeft - d.length :=
    wrap64_of_range _ (by norm_num; omega) (by norm_num at h63 ⊢; omega)
  have hgt : p.bodyBytesLeft > (d.length : Int) := hlt
  simp [hch, hgt, recorder, hw]

theorem pushBodyPiece_last (p : httpRequestParser) (s : List Event) (x y : Bytes)
    (hch : p.isChunked = false) (hx : p.bodyBytesLeft = x.length) (hpos : 0 < x.length) :
    p.pushBodyPiece recorder s (x ++ y) = some (p, s ++ [.body x], true, y, none) := by
  unfold httpRequestParser.pushBodyPiece
  have h1 : ¬ (p.bodyBytesLeft > ((x ++ y).length : Int)) := by
    rw [hx]; simp
  have h2 : ¬ (p.bodyBytesLeft ≤ 0) := by
    rw [hx]; omega
  have hs1 : slice (x ++ y) 0 p.bodyBytesLeft = some x := by
    rw [hx, slice_zero_eq _ _ (by simp)]
    simp
  have hs2 : sliceFrom (x ++ y) p.bodyBytesLeft = some y := by
    rw [hx, sliceFrom_eq _ _ (by simp)]
    simp
  simp only [hch, Bool.false_eq_true, if_false, h1, h2, hs1, hs2]
  simp [recorder]

theorem recorder_OnMessageBegin (t : List Event) :
    recorder.OnMessageBegin t = (t ++ [.messageBegin], none) := rfl

theorem completeMessage_recorder (p : httpRequestParser) (s : List Event) :
    p.completeMessage recorder s = .next p.Clear (s ++ [.messageComplete]) := by
  simp [httpRequestParser.completeMessage, recorder]

/-- The empty slice fed to a parser whose `closeConnection` is unset. -/
theorem Feed_nil {σ : Type} (P : Protocol σ) (p : httpRequestParser) (s : σ)
    (hcc : p.closeConnection = false) : p.Feed P s [] = .ret ⟨p, s, none⟩ := by
  simp [httpRequestParser.Feed, httpRequestParser.FeedN, httpRequestParser.feedEmpty, hcc]

/-- A slice that holds less than the rest of the body, fed in state `body`. -/
theorem Feed_body_part (p : httpRequestParser) (s : List Event) (d : Bytes)
    (hst : p.state = .body) (hch : p.isChunked = false) (hne : d ≠ [])
    (hlt : (d.length : Int) < p.bodyBytesLeft) (h63 : p.bodyBytesLeft < 2 ^ 63) :
    p.Feed recorder s d =
      .ret ⟨{ p with bodyBytesLeft := p.bodyBytesLeft - d.length }, s ++ [.body d], none⟩ := by
  have hl : d.length ≠ 0 := by simpa using hne
  unfold httpRequestParser.Feed
  rw [httpRequestParser.FeedN, if_neg hl]
  simp only [hst, httpRequestParser.feedBody, pushBodyPiece_part p s d hch hlt h63]

/-- A slice that holds the rest of the body and the bytes `y` after it, fed
in state `body`. -/
theorem Feed_body_last (p : httpRequestParser) (s : List Event) (x y : Bytes)
    (hst : p.state = .body) (hch : p.isChunked = false) (hcc : p.closeConnection = false)
    (hx : p.bodyBytesLeft = x.length) (hpos : 0 < x.length) :
    p.Feed recorder s (x ++ y) =
      p.Clear.Feed recorder (s ++ [.body x, .messageComplete, .messageBegin]) y := by
  have hl : (x ++ y).length ≠ 0 := by rw [List.length_append]; omega
  unfold httpRequestParser.Feed
  rw [httpRequestParser.FeedN, if_neg hl]
  simp only [hst, httpRequestParser.feedBody, pushBodyPiece_last p s x y hch hx hpos,
    completeMessage_recorder, Step.andThen]
  by_cases hy : y = []
  · subst hy
    simp [recorder_OnMessageBegin, httpRequestParser.orDie, Step.andThen,
      httpRequestParser.FeedN, httpRequestParser.feedEmpty, httpRequestParser.Clear, hcc]
  · have hyl : y.length > 0 := List.length_pos.mpr hy
    simp only [recorder_OnMessageBegin, httpRequestParser.orDie, Step.andThen, hyl, if_true]
    have := (Feed_fuel recorder ((x ++ y).length + 1) p.Clear
      (s ++ [.body x, .messageComplete, .messageBegin]) y
      (by rw [List.length_append]; omega)).1
    simpa [httpRequestParser.Feed] using this

/-- The loop of `Feed` reaching state `body` with less than the body left in
the slice. -/
theorem feedLoop_body_part (f : httpRequestParser → List Event → Bytes → Run (FeedResult (List Event)))
    (p : httpRequestParser) (s : List Event) (d : Bytes)
    (hst : p.state = .body) (hch : p.isChunked = false) (hne : d ≠ [])
    (hlt : (d.length : Int) < p.bodyBytesLeft) (h63 : p.bodyBytesLeft < 2 ^ 63) :
    httpRequestParser.feedLoop f recorder p s d =
      .ret ⟨{ p with bodyBytesLeft := p.bodyBytesLeft - d.length }, s ++ [.body d], none⟩ := by
  cases d with
  | nil => exact absurd rfl hne
  | cons c rest =>
    rw [httpRequestParser.feedLoop]
    simp only [httpRequestParser.feedStep, hst, pushBodyPiece_part p s (c :: rest) hch hlt h63]

/-- The loop of `Feed` reaching state `body` with the whole body and the bytes
`y` after it left in the slice. -/
theorem feedLoop_body_last (n : Nat) (p : httpRequestParser) (s : List Event) (x y : Bytes)
    (hst : p.state = .body) (hch : p.isChunked = false)
    (hx : p.bodyBytesLeft = x.length) (hpos : 0 < x.length) (hn : y.length + 2 ≤ n) :
    httpRequestParser.feedLoop (httpRequestParser.FeedN recorder n) recorder p s (x ++ y) =
      p.Clear.Feed recorder (s ++ [.body x, .messageComplete, .messageBegin]) y := by
  cases hxy : x ++ y with
  | nil =>
    have : (x ++ y).length = 0 := by rw [hxy]; rfl
    rw [List.length_append] at this
    omega
  | cons c rest =>
    rw [httpRequestParser.feedLoop]
    have hp := pushBodyPiece_last p s x y hch hx hpos
    rw [hxy] at hp
    simp only [httpRequestParser.feedStep, hst, hp, completeMessage_recorder, Step.andThen]
    simp only [recorder_OnMessageBegin, httpRequestParser.orDie, Step.andThen]
    have := (Feed_fuel recorder n p.Clear (s ++ [.body x, .messageComplete, .messageBegin]) y
      hn).1
    simpa using this

theorem append_split (a b c d : Bytes) (h : a ++ b = c ++ d) (hl : a.length ≤ c.length) :
    ∃ e, c = a ++ e ∧ b = e ++ d := by
  rcases List.append_eq_append_iff.mp h with ⟨e, h1, h2⟩ | ⟨e, h1, h2⟩
  · exact ⟨e, h1, h2⟩
  · have he : e = [] := by
      have := congrArg List.length h1
      rw [List.length_append] at this
      exact List.length_eq_zero.mp (by omega)
    subst he
    refine ⟨[], ?_, ?_⟩
    · simpa using h1.symm
    · simpa using h2.symm

theorem feedAll_cons_ret {σ : Type} (P : Protocol σ) (p q : httpRequestParser) (s t : σ)
    (d : Bytes) (ds : List Bytes) (h : p.Feed P s d = .ret ⟨q, t, none⟩) :
    p.feedAll P s (d :: ds) = q.feedAll P t ds := by
  rw [httpRequestParser.feedAll, h]

theorem feedAll_cons_eq {σ : Type} (P : Protocol σ) (p q : httpRequestParser) (s t : σ)
    (d y : Bytes) (ds : List Bytes) (h : p.Feed P s d = q.Feed P t y) :
    p.feedAll P s (d :: ds) = q.feedAll P t (y :: ds) := by
  rw [httpRequestParser.feedAll, httpRequestParser.feedAll, h]

theorem Clear_awaitsRequest (p : httpRequestParser) : p.Clear.awaitsRequest :=
  ⟨rfl, rfl, rfl⟩

/-- The slices that hold the rest of a counted body and what follows it, fed
in order from state `body`. -/
theorem feedAll_body (slices : List Bytes) (p : httpRequestParser) (s : List Event)
    (body rest : Bytes) (hst : p.state = .body) (hch : p.isChunked = false)
    (hcc : p.closeConnection = false) (hb : p.bodyBytesLeft = body.length)
    (hpos : 0 < body.length) (h63 : (body.length : Int) < 2 ^ 63)
    (hne : ∀ d ∈ slices, d ≠ []) (hcat : slices.flatten = body ++ rest) :
    ∃ (pieces restSlices : List Bytes) (q : httpRequestParser),
      pieces.flatten = body ∧ restSlices.flatten = rest ∧ q.awaitsRequest ∧
      q.settings = p.settings ∧ q.closeConnection = false ∧ q.isChunked = false ∧
      p.feedAll recorder s slices =
        q.feedAll recorder (s ++ pieces.map Event.body ++ [.messageComplete, .messageBegin])
          restSlices := by
  induction slices generalizing p s body with
  | nil =>
    simp only [List.flatten_nil] at hcat
    have := congrArg List.length hcat
    rw [List.length_append] at this
    simp at this
    omega
  | cons d ds ih =>
    have hdne : d ≠ [] := hne d (by simp)
    simp only [List.flatten_cons] at hcat
    by_cases hlt : d.length < body.length
    · obtain ⟨b2, hb2, hds⟩ := append_split d ds.flatten body rest hcat (by omega)
      have hb2len : body.length = d.length + b2.length := by
        rw [hb2, List.length_append]
      have hfeed := Feed_body_part p s d hst hch hdne (by rw [hb]; exact_mod_cast hlt)
        (by rw [hb]; exact h63)
      obtain ⟨pieces, restSlices, q, h1, h2, h3, h4, h5, h6, h7⟩ :=
        ih { p with bodyBytesLeft := p.bodyBytesLeft - d.length } (s ++ [.body d]) b2 hst hch hcc
          (by simp only [hb, hb2len]; push_cast; ring) (by omega)
          (by have := h63; rw [hb2len] at this; push_cast at this ⊢; omega)
          (fun x hx => hne x (by simp [hx])) hds
      refine ⟨d :: pieces, restSlices, q, ?_, h2, h3, h4, h5, h6, ?_⟩
      · rw [List.flatten_cons, h1, hb2]
      · rw [feedAll_cons_ret recorder p _ s _ d ds hfeed, h7]
        simp
    · obtain ⟨y, hy, hrest⟩ := append_split body rest d ds.flatten hcat.symm (by omega)
      have hfeed := Feed_body_last p s body y hst hch hcc hb hpos
      rw [← hy] at hfeed
      refine ⟨[body], y :: ds, p.Clear, by simp, by simp [hrest], Clear_awaitsRequest p, rfl,
        hcc, rfl, ?_⟩
      rw [feedAll_cons_eq recorder p p.Clear s _ d y ds hfeed]
      simp

theorem headRun_append_inv {σ : Type} (P : Protocol σ) (a b : Bytes) (p : httpRequestParser)
    (s : σ) (r : httpRequestParser × σ)
    (h : httpRequestParser.headRun P p s (a ++ b) = some r) :
    ∃ q t, httpRequestParser.headRun P p s a = some (q, t) ∧
      httpRequestParser.headRun P q t b = some r := by
  rw [headRun_append] at h
  cases h1 : httpRequestParser.headRun P p s a with
  | none => rw [h1] at h; simp at h
  | some x =>
    rw [h1] at h
    exact ⟨x.1, x.2, rfl, h⟩

/-- A slice read wholly in the states of the request line and of the header
block. -/
theorem Feed_headRun {σ : Type} (P : Protocol σ) (d : Bytes) (p q : httpRequestParser)
    (s t : σ) (hne : d ≠ []) (h : httpRequestParser.headRun P p s d = some (q, t)) :
    p.Feed P s d = .ret ⟨q, t, none⟩ := by
  obtain ⟨c, cs, rfl⟩ : ∃ c cs, d = c :: cs := by
    cases d with
    | nil => exact absurd rfl hne
    | cons c cs => exact ⟨c, cs, rfl⟩
  obtain ⟨h1, _, h3, h4⟩ := headRun_state P c cs p s _ h
  rw [Feed_head P p s (c :: cs) hne h1 h3 h4]
  have := feedLoop_headRun P (httpRequestParser.FeedN P ((c :: cs).length + 1)) (c :: cs) [] p q
    s t h
  rw [List.append_nil] at this
  rw [this]
  rfl

/-- The slices that hold the rest of a head, a counted body and what follows
it, fed in order. -/
theorem feedAll_head (slices : List Bytes) (p : httpRequestParser) (s : List Event)
    (a body rest : Bytes) (pB : httpRequestParser) (sB : List Event)
    (hrun : httpRequestParser.headRun recorder p s a = some (pB, sB))
    (hst : pB.state = .body) (hch : pB.isChunked = false)
    (hcc : pB.closeConnection = false) (hb : pB.bodyBytesLeft = body.length)
    (hpos : 0 < body.length) (h63 : (body.length : Int) < 2 ^ 63)
    (hne : ∀ d ∈ slices, d ≠ []) (hcat : slices.flatten = a ++ body ++ rest) :
    ∃ (pieces restSlices : List Bytes) (q : httpRequestParser),
      pieces.flatten = body ∧ restSlices.flatten = rest ∧ q.awaitsRequest ∧
      q.settings = pB.settings ∧ q.closeConnection = false ∧ q.isChunked = false ∧
      p.feedAll recorder s slices =
        q.feedAll recorder (sB ++ pieces.map Event.body ++ [.messageComplete, .messageBegin])
          restSlices := by
  induction slices generalizing p s a with
  | nil =>
    simp only [List.flatten_nil] at hcat
    have := congrArg List.length hcat
    simp only [List.length_append, List.length_nil] at this
    omega
  | cons d ds ih =>
    have hdne : d ≠ [] := hne d (by simp)
    have hdpos : 0 < d.length := List.length_pos.mpr hdne
    simp only [List.flatten_cons] at hcat
    cases a with
    | nil =>
      simp only [httpRequestParser.headRun, Option.some.injEq, Prod.mk.injEq] at hrun
      obtain ⟨rfl, rfl⟩ := hrun
      exact feedAll_body (d :: ds) p s body rest hst hch hcc hb hpos h63 hne
        (by simpa using hcat)
    | cons c a2 =>
      by_cases hle : d.length ≤ (c :: a2).length
      · obtain ⟨a3, ha3, hds⟩ := append_split d ds.flatten (c :: a2) (body ++ rest)
          (by simpa [List.append_assoc] using hcat) hle
        rw [ha3] at hrun
        obtain ⟨p1, s1, hr1, hr2⟩ := headRun_append_inv recorder d a3 p s _ hrun
        have hfeed := Feed_headRun recorder d p p1 s s1 hdne hr1
        obtain ⟨pieces, restSlices, q, h1, h2, h3, h4, h5, h6, h7⟩ :=
          ih p1 s1 a3 hr2 (fun x hx => hne x (by simp [hx]))
            (by simpa [List.append_assoc] using hds)
        exact ⟨pieces, restSlices, q, h1, h2, h3, h4, h5, h6, by
          rw [feedAll_cons_ret recorder p p1 s s1 d ds hfeed, h7]⟩
      · obtain ⟨d2, hd2, hbr⟩ := append_split (c :: a2) (body ++ rest) d ds.flatten
          (by simpa [List.append_assoc] using hcat.symm) (by omega)
        have hd2len : d.length = (c :: a2).length + d2.length := by
          rw [hd2, List.length_append]
        have hd2ne : d2 ≠ [] := by
          intro h0
          rw [h0] at hd2len
          simp only [List.length_nil] at hd2len
          omega
        obtain ⟨h1s, _, h3s, h4s⟩ := headRun_state recorder c a2 p s _ hrun
        have hF : p.Feed recorder s d =
            httpRequestParser.feedLoop (httpRequestParser.FeedN recorder (d.length + 1)) recorder
              pB sB d2 := by
          rw [Feed_head recorder p s d hdne h1s h3s h4s]
          have := feedLoop_headRun recorder (httpRequestParser.FeedN recorder (d.length + 1))
            (c :: a2) d2 p pB s sB hrun
          rw [← hd2] at this
          exact this
        by_cases hlt : d2.length < body.length
        · obtain ⟨b2, hb2, hds⟩ := append_split d2 ds.flatten body rest hbr.symm (by omega)
          have hb2len : body.length = d2.length + b2.length := by
            rw [hb2, List.length_append]
          have hfeed := feedLoop_body_part
            (httpRequestParser.FeedN recorder (d.length + 1)) pB sB d2 hst hch hd2ne
            (by rw [hb]; exact_mod_cast hlt) (by rw [hb]; exact h63)
          rw [← hF] at hfeed
          obtain ⟨pieces, restSlices, q, h1, h2, h3, h4, h5, h6, h7⟩ :=
            feedAll_body ds { pB with bodyBytesLeft := pB.bodyBytesLeft - d2.length }
              (sB ++ [.body d2]) b2 rest hst hch hcc
              (by simp only [hb, hb2len]; push_cast; ring) (by omega)
              (by have := h63; rw [hb2len] at this; push_cast at this ⊢; omega)
              (fun x hx => hne x (by simp [hx])) hds
          refine ⟨d2 :: pieces, restSlices, q, ?_, h2, h3, h4, h5, h6, ?_⟩
          · rw [List.flatten_cons, h1, hb2]
          · rw [feedAll_cons_ret recorder p _ s _ d ds hfeed, h7]
            simp
        · obtain ⟨y, hy, hrest⟩ := append_split body rest d2 ds.flatten hbr (by omega)
          have hylen : d2.length = body.length + y.length := by
            rw [hy, List.length_append]
          have hfeed := feedLoop_body_last (d.length + 1) pB sB body y hst hch hb hpos
            (by simp only [List.length_cons] at hd2len; omega)
          rw [← hy, ← hF] at hfeed
          refine ⟨[body], y :: ds, pB.Clear, by simp, by simp [hrest], Clear_awaitsRequest pB,
            rfl, hcc, rfl, ?_⟩
          rw [feedAll_cons_eq recorder p pB.Clear s _ d y ds hfeed]
          simp

theorem framingOf_plain (hs : List Header) (f : Framing) (h : ∀ x ∈ hs, x.plain) :
    framingOf hs f = some f := by
  induction hs with
  | nil => rfl
  | cons x xs ih =>
    obtain ⟨h1, h2, h3⟩ := h x (by simp)
    have hx : x.framing f = some f := by simp [Header.framing, h1, h2, h3]
    rw [framingOf, hx]
    exact ih (fun y hy => h y (by simp [hy]))

/-- A head with one `Content-Length: n` line among plain header lines leaves
the body length at `n` and the other framing fields as they were. -/
theorem framingOf_contentLength (pre post : List Header) (cl : Header) (n : Int) (f : Framing)
    (hpre : ∀ x ∈ pre, x.plain) (hpost : ∀ x ∈ post, x.plain)
    (hkey : foldsTo contentLength cl.key = true) (hval : parseUint cl.value = some n) :
    framingOf (pre ++ cl :: post) f = some { f with bodyBytesLeft := n } := by
  induction pre with
  | nil =>
    have hx : cl.framing f = some { f with bodyBytesLeft := n } := by
      simp [Header.framing, hkey, hval]
    rw [List.nil_append, framingOf, hx]
    exact framingOf_plain post _ hpost
  | cons x xs ih =>
    obtain ⟨h1, h2, h3⟩ := hpre x (by simp)
    have hx : x.framing f = some f := by simp [Header.framing, h1, h2, h3]
    rw [List.cons_append, framingOf, hx]
    exact ih (fun y hy => hpre y (by simp [hy]))

/-- C7: a well-formed head whose header lines leave the framing at a body of
`n > 0` bytes, not chunked and not close-framed, followed by a body of `n`
bytes and any bytes `rest`, is fed to a parser that awaits a request, cut into
non-empty slices in any way. The recorder then sees the callbacks of the head,
`OnBody` calls whose payloads concatenate to exactly the body,
`OnMessageComplete` and `OnMessageBegin`; and what is left of the slices, which
concatenates to `rest`, is fed to the parser, which awaits a request again. -/
theorem counted_body_split_invariant (p0 : httpRequestParser) (tr : List Event) (h : Head)
    (body rest : Bytes) (slices : List Bytes) (hready : p0.awaitsRequest)
    (hmax : p0.settings.MaxPathLength < 2 ^ 63) (hwf : h.wellFormed p0.settings)
    (hfr : framingOf h.headers ⟨p0.bodyBytesLeft, p0.isChunked, p0.closeConnection⟩ =
      some ⟨body.length, false, false⟩)
    (hpos : 0 < body.length) (h63 : (body.length : Int) < 2 ^ 63)
    (hne : ∀ d ∈ slices, d ≠ []) (hcat : slices.flatten = h.encode ++ body ++ rest) :
    ∃ (pieces restSlices : List Bytes) (q : httpRequestParser),
      pieces.flatten = body ∧ restSlices.flatten = rest ∧ q.awaitsRequest ∧
      q.settings = p0.settings ∧
      p0.feedAll recorder tr slices =
        q.feedAll recorder
          (tr ++ h.events ++ pieces.map Event.body ++ [.messageComplete, .messageBegin])
          restSlices := by
  obtain ⟨hst, hsb, hhb⟩ := hready
  obtain ⟨hbuf, sb, hv, hrun⟩ := headRun_head p0 tr h body.length hst hsb hhb hwf hmax hfr
    (by omega)
  obtain ⟨pieces, restSlices, q, h1, h2, h3, h4, _, _, h7⟩ :=
    feedAll_head slices p0 tr h.encode body rest _ _ hrun rfl rfl rfl rfl hpos h63 hne hcat
  exact ⟨pieces, restSlices, q, h1, h2, h3, h4, h7⟩

/-- C7 on scenario 3 followed by the bytes "GET", cut inside the header line
and inside the body. -/
theorem counted_body_split_invariant_witness :
    ∃ (pieces restSlices : List Bytes) (q : httpRequestParser),
      pieces.flatten = str "hello" ∧ restSlices.flatten = str "GET" ∧ q.awaitsRequest ∧
      q.settings = freshParser.settings ∧
      freshParser.feedAll recorder []
          [str "POST /a HTTP/1.0\r\nContent-Le", str "ngth: 5\r\n\r\nhe", str "lloGET"] =
        q.feedAll recorder
          ([] ++ scenario3Head.events ++ pieces.map Event.body ++
            [.messageComplete, .messageBegin])
          restSlices :=
  counted_body_split_invariant freshParser [] scenario3Head (str "hello") (str "GET")
    [str "POST /a HTTP/1.0\r\nContent-Le", str "ngth: 5\r\n\r\nhe", str "lloGET"]
    ⟨rfl, rfl, rfl⟩ (by decide)
    ⟨by decide, by decide, by decide, by decide, by decide, by
      intro hd hhd
      simp only [scenario3Head, List.mem_singleton] at hhd
      subst hhd
      exact ⟨by decide, by decide, by decide, by decide, by decide⟩⟩
    (by decide) (by decide) (by decide) (by decide) (by decide)

/-- C11 (fails on the code): scenario 7, then three empty slices and a
non-empty one. The first empty slice returns `ErrConnectionClosed` and kills
the parser; the second and the third return `ErrConnectionClosed` again, not
`ErrParserIsDead`, and each calls `OnMessageComplete` twice more, since the
empty slice is looked at before the state and `closeConnection` stays set. -/
theorem connection_closed_surfaced_again :
    (freshParser.feedEach recorder []
        [str "GET / HTTP/1.1\r\nConnection: close\r\n\r\nbody-bytes", [], [], [],
          str "GET"]).map
        (fun r => (r.1.state, r.2.1.count .messageComplete, r.2.1.count (.body (str "body-bytes")),
          r.2.2)) =
      some (.dead, 6, 1,
        [none, some .ErrConnectionClosed, some .ErrConnectionClosed,
          some .ErrConnectionClosed, some .ErrParserIsDead]) := by
  decide

/-- C12 (fails on the code): with `MaxBodyLength = 3` a request with
`Content-Length: 5` is read without error and `OnBody` is given all five
bytes: the counted mode never compares the body with `MaxBodyLength`. -/
theorem counted_body_exceeds_MaxBodyLength :
    ((constructed ⟨0, 0, 3, 0, 0, 0, 0, none⟩).bind fun p =>
        (p.Feed recorder []
          (str "POST /a HTTP/1.0\r\nContent-Length: 5\r\n\r\nhello")).toOption.map
          (fun r => (p.settings.MaxBodyLength, r.err, r.obs.filter (fun e => e matches .body _)))) =
      some (3, none, [.body (str "hello")]) := by
  decide

/-- C14 (fails on the code): with `MaxHeaderLineLength = 1` the header line
"a:b" is given to `OnHeader` as key "a" and value "b", two bytes in all. The
first key byte and the byte read in state `headerColon` are appended without a
test of the length. -/
theorem header_line_exceeds_cap :
    ((constructed ⟨0, 1, 0, 0, 0, 0, 0, none⟩).bind fun p =>
        (p.Feed recorder [] (str "GET / HTTP/1.1\r\na:b\r\n\r\n")).toOption.map
          (fun r => (p.settings.MaxHeaderLineLength, r.err,
            r.obs.filter (fun e => e matches .header _ _)))) =
      some (1, none, [.header (str "a") (str "b")]) := by
  decide

/-- C15 (fails on the code): after a first header line, a line that begins
with the byte 0x01 or with `:` is taken as a header: `OnHeader` is given the
keys "\x01b" and ":a". The first byte of a following header line is appended
in state `headerValueLF` untested, while state `protocolLF` tests the first
byte of the first header line. -/
theorem unprintable_key_byte_accepted :
    (freshParser.Feed recorder []
        (str "GET / HTTP/1.1\r\nHost: x\r\n" ++ [1] ++ str "b: c\r\n:a: d\r\n\r\n")).toOption.map
        (fun r => (r.err, r.obs.filter (fun e => e matches .header _ _))) =
      some (none, [.header (str "Host") (str "x"), .header ([1] ++ str "b") (str "c"),
        .header (str ":a") (str "d")]) ∧
    (freshParser.Feed recorder []
        (str "GET / HTTP/1.1\r\n" ++ [1] ++ str "b: c\r\n\r\n")).toOption.map
        (fun r => (r.err, r.obs.filter (fun e => e matches .header _ _))) =
      some (some .ErrInvalidHeader, []) := by
  decide

theorem PrepareSettings_MaxPathLength (s : Settings) :
    (PrepareSettings s).MaxPathLength =
      (if s.MaxPathLength ≥ 1 then s.MaxPathLength else 4092) := by
  simp only [PrepareSettings, List.foldl, apply_ite Settings.MaxPathLength, ite_self,
    maxPathLength]
  split_ifs <;> first | rfl | omega

theorem PrepareSettings_MaxHeaderLineLength (s : Settings) :
    (PrepareSettings s).MaxHeaderLineLength =
      (if s.MaxHeaderLineLength ≥ 1 then s.MaxHeaderLineLength else 4092) := by
  simp only [PrepareSettings, List.foldl, apply_ite Settings.MaxHeaderLineLength, ite_self,
    maxHeaderLineLength]
  split_ifs <;> first | rfl | omega

theorem PrepareSettings_MaxBodyLength (s : Settings) :
    (PrepareSettings s).MaxBodyLength =
      (if s.MaxBodyLength ≥ 1 then s.MaxBodyLength else 2147483647) := by
  simp only [PrepareSettings, List.foldl, apply_ite Settings.MaxBodyLength, ite_self,
    maxBodyLength]
  split_ifs <;> first | rfl | omega

theorem PrepareSettings_MaxChunkLength (s : Settings) :
    (PrepareSettings s).MaxChunkLength =
      (if s.MaxChunkLength ≥ 1 then s.MaxChunkLength else 65535) := by
  simp only [PrepareSettings, List.foldl, apply_ite Settings.MaxChunkLength, ite_self,
    maxChunkLength]
  split_ifs <;> first | rfl | omega

theorem PrepareSettings_InitialPathBufferLength (s : Settings) :
    (PrepareSettings s).InitialPathBufferLength =
      (if s.InitialPathBufferLength ≥ 1 then s.InitialPathBufferLength else 2046) := by
  simp only [PrepareSettings, List.foldl, apply_ite Settings.InitialPathBufferLength, ite_self,
    initialPathBufferLength]
  split_ifs <;> first | rfl | omega

theorem PrepareSettings_InitialHeadersBufferLength (s : Settings) :
    (PrepareSettings s).InitialHeadersBufferLength =
      (if s.InitialHeadersBufferLength ≥ 1 then s.InitialHeadersBufferLength else 2046) := by
  simp only [PrepareSettings, List.foldl, apply_ite Settings.InitialHeadersBufferLength, ite_self,
    initialHeadersBufferLength]
  split_ifs <;> first | rfl | omega

theorem PrepareSettings_Buffer (s : Settings) :
    (PrepareSettings s).Buffer =
      (match s.Buffer with
        | some b => some b
        | none => some (Buffer.make (PrepareSettings s).maxBufferLength)) := by
  cases hb : s.Buffer with
  | none =>
    simp only [PrepareSettings, List.foldl, apply_ite Settings.Buffer, ite_self, hb, if_true]
  | some b =>
    simp [PrepareSettings, List.foldl, apply_ite Settings.Buffer, ite_self, hb]

/-- C17: `PrepareSettings` keeps each of the six limits that is at least 1 and
puts the default in place of each that is not (4092, 4092, 2147483647, 65535,
2046, 2046), and it returns a `Buffer` that is not `nil` as it was given; a
`nil` one is made with the capacity `maxBufferLength`. -/
theorem PrepareSettings_defaults (s : Settings) :
    (PrepareSettings s).MaxPathLength = (if s.MaxPathLength ≥ 1 then s.MaxPathLength else 4092) ∧
    (PrepareSettings s).MaxHeaderLineLength =
      (if s.MaxHeaderLineLength ≥ 1 then s.MaxHeaderLineLength else 4092) ∧
    (PrepareSettings s).MaxBodyLength =
      (if s.MaxBodyLength ≥ 1 then s.MaxBodyLength else 2147483647) ∧
    (PrepareSettings s).MaxChunkLength =
      (if s.MaxChunkLength ≥ 1 then s.MaxChunkLength else 65535) ∧
    (PrepareSettings s).InitialPathBufferLength =
      (if s.InitialPathBufferLength ≥ 1 then s.InitialPathBufferLength else 2046) ∧
    (PrepareSettings s).InitialHeadersBufferLength =
      (if s.InitialHeadersBufferLength ≥ 1 then s.InitialHeadersBufferLength else 2046) ∧
    (PrepareSettings s).Buffer =
      (match s.Buffer with
        | some b => some b
        | none => some (Buffer.make (PrepareSettings s).maxBufferLength)) :=
  ⟨PrepareSettings_MaxPathLength s, PrepareSettings_MaxHeaderLineLength s,
    PrepareSettings_MaxBodyLength s, PrepareSettings_MaxChunkLength s,
    PrepareSettings_InitialPathBufferLength s, PrepareSettings_InitialHeadersBufferLength s,
    PrepareSettings_Buffer s⟩

theorem chunked_feedLoop_sameButBegin {σ : Type} (cb : σ → Bytes → σ) (data rest : Bytes)
    (i : Nat) (p q : chunkedBodyParser) (s : σ) (h : p.sameButBegin q) :
    (chunkedBodyParser.feedLoop cb data i rest p s).map ChunkedResult.returned =
      (chunkedBodyParser.feedLoop cb data i rest q s).map ChunkedResult.returned := by
  induction rest generalizing i p q s with
  | nil =>
    rcases p with ⟨st, cl, b1, mx⟩
    rcases q with ⟨st2, cl2, b2, mx2⟩
    obtain ⟨h1, h2, h3, h4⟩ := h
    simp only at h1 h2 h3 h4
    subst h1 h2 h3
    by_cases hst : st = .chunkBody
    · have hb : b1 = b2 := h4 (Or.inl hst)
      subst hb
      rfl
    · simp only [chunkedBodyParser.feedLoop, hst, if_false]
  | cons c rest ih =>
    rcases p with ⟨st, cl, b1, mx⟩
    rcases q with ⟨st2, cl2, b2, mx2⟩
    obtain ⟨h1, h2, h3, h4⟩ := h
    simp only at h1 h2 h3 h4
    subst h1 h2 h3
    cases st
    case chunkBody =>
      have hb : b1 = b2 := h4 (Or.inl rfl)
      subst hb
      rfl
    case chunkBodyEnd =>
      have hb : b1 = b2 := h4 (Or.inr rfl)
      subst hb
      rfl
    all_goals
      simp only [chunkedBodyParser.feedLoop]
      repeat' split
      all_goals first
        | rfl
        | (apply ih; simp [chunkedBodyParser.sameButBegin])

/-- C18: a chunked parser in state `transferCompleted`, whatever its
`chunkLength` and `chunkBodyBegin`, fed a slice, makes the same callback calls
and returns the same `done`, leftover and error as a freshly constructed parser
with the same `maxChunkSize` fed that slice; it panics if and only if the
fresh one does. -/
theorem Feed_after_completion {σ : Type} (cb : σ → Bytes → σ) (p : chunkedBodyParser) (s : σ)
    (data : Bytes) (hst : p.state = .transferCompleted) :
    (p.Feed cb s data).map ChunkedResult.returned =
      ((NewChunkedBodyParser p.maxChunkSize).Feed cb s data).map ChunkedResult.returned := by
  unfold chunkedBodyParser.Feed NewChunkedBodyParser
  simp only [hst, if_true]
  by_cases hl : data.length = 0
  · simp [hl, ChunkedResult.returned]
  · simp only [hl, if_false]
    have hne : ¬ (chunkedBodyState.chunkLength = chunkedBodyState.transferCompleted) := by decide
    simp only [hne, if_false]
    apply chunked_feedLoop_sameButBegin
    simp [chunkedBodyParser.sameButBegin, chunkedBodyParser.Clear]

/-- C18 on the parser left by the error for "FFFFF", with the chunk length
1048575 still in it, fed the body of scenario 4. -/
theorem Feed_after_completion_witness :
    ((⟨.transferCompleted, 1048575, 7, 65535⟩ : chunkedBodyParser).Feed collect []
        (str "5\r\nhello\r\n0\r\n\r\n")).map ChunkedResult.returned =
      ((NewChunkedBodyParser (⟨.transferCompleted, 1048575, 7, 65535⟩ :
          chunkedBodyParser).maxChunkSize).Feed collect []
        (str "5\r\nhello\r\n0\r\n\r\n")).map ChunkedResult.returned :=
  Feed_after_completion collect ⟨.transferCompleted, 1048575, 7, 65535⟩ []
    (str "5\r\nhello\r\n0\r\n\r\n") rfl

theorem feedLoop_sizeLine_tooBig {σ : Type} (cb : σ → Bytes → σ) (data : Bytes)
    (digits tail : Bytes) (hne : digits ≠ [])
    (hd : ∀ d ∈ digits, isHexDigit d = true) (v : Nat) (b mx : Int) (i : Nat) (s : σ)
    (hv : (v : Int) ≤ mx ∨ v = 0) (hmx : mx < 2 ^ 59) (hbig : mx < (hexFold v digits : Int)) :
    ∃ r, chunkedBodyParser.feedLoop cb data i (digits ++ tail) ⟨.chunkLength, v, b, mx⟩ s = some r ∧
      r.err = some .ErrTooBigChunkSize ∧ r.done = true ∧ r.extraBytes = [] ∧ r.obs = s ∧
      r.parser.state = .transferCompleted := by
  induction digits generalizing v i with
  | nil => exact absurd rfl hne
  | cons d ds ih =>
    have hdh : isHexDigit d = true := hd d (by simp)
    have hd13 : d ≠ 13 := by
      have := (isHexDigit_iff d).1 hdh
      omega
    have hd10 : d ≠ 10 := by
      have := (isHexDigit_iff d).1 hdh
      omega
    have hfold : hexFold v (d :: ds) = hexFold (16 * v + hexDigitValue d) ds := by
      simp [hexFold]
    rw [hfold] at hbig
    have h15 := hexDigitValue_le d hdh
    have hv59 : (v : Int) < 2 ^ 59 := by
      rcases hv with h | h
      · omega
      · subst h
        norm_num
    have hstep : wrap64 (wrap64 ((v : Int) * 16) + nibble d) = ((16 * v + hexDigitValue d : Nat) : Int) := by
      rw [nibble_hexDigit d hdh]
      rw [wrap64_of_range ((v : Int) * 16) (by norm_num; omega) (by norm_num at hv59 ⊢; omega)]
      rw [wrap64_of_range _ (by norm_num; omega) (by norm_num at hv59 ⊢; omega)]
      push_cast
      ring
    rw [List.cons_append, chunkedBodyParser.feedLoop]
    simp only [hd13, hd10, if_false, hexRangeCheckFails_false, hstep, Bool.false_eq_true]
    by_cases hgt : ((16 * v + hexDigitValue d : Nat) : Int) > mx
    · rw [if_pos hgt]
      exact ⟨_, rfl, rfl, rfl, rfl, rfl, rfl⟩
    · rw [if_neg hgt]
      have hds : ds ≠ [] := by
        rintro rfl
        simp only [hexFold, List.foldl_nil] at hbig
        omega
      exact ih hds (fun x hx => hd x (by simp [hx])) _ _ (Or.inl (by omega)) hbig

/-- C19 (fails on the code): with `maxChunkSize = 2^62` the size line
`8000000000000000`, whose hexadecimal value `2^63` is above the limit, is
accepted: the running length wraps to `-2^63` at the sixteenth digit, no error
is returned and the chunk body starts with that length. -/
theorem chunk_size_overflow_accepted :
    hexValue (str "8000000000000000") = 2 ^ 63 ∧
      ((2 ^ 62 : Int) < (hexValue (str "8000000000000000") : Int)) ∧
      ((NewChunkedBodyParser (2 ^ 62)).Feed collect [] (str "8000000000000000\r\n")).map
          (fun r => (r.parser.state, r.parser.chunkLength, r.done, r.err)) =
        some (.chunkBody, -(2 ^ 63), false, none) := by
  decide

theorem feedLoop_crlf_chunkBody {σ : Type} (cb : σ → Bytes → σ) (data : Bytes) (i : Nat)
    (hlen : data.length = i + 2) (v : Nat) (b mx : Int) (s : σ) (hv : v ≠ 0) :
    chunkedBodyParser.feedLoop cb data i [13, 10] ⟨.chunkLength, v, b, mx⟩ s =
      some ⟨⟨.chunkBody, v, 0, mx⟩, cb s [], false, [], none⟩ := by
  have hv0 : ¬ ((v : Int) = 0) := by omega
  have hs : sliceFrom data ((i : Int) + 1 + 1) = some [] := by
    have h := sliceFrom_eq data (i + 2) (by omega)
    rw [show ((i + 2 : Nat) : Int) = (i : Int) + 1 + 1 by push_cast; ring] at h
    rw [h, List.drop_eq_nil_iff.2 (by omega)]
  rw [chunkedBodyParser.feedLoop]
  simp only [if_true]
  rw [chunkedBodyParser.feedLoop]
  simp only [ne_eq, not_true_eq_false, if_false, hv0]
  rw [chunkedBodyParser.feedLoop]
  simp only [if_true, Nat.cast_add, Nat.cast_one, hs]

theorem feedLoop_crlf_lastChunk {σ : Type} (cb : σ → Bytes → σ) (data : Bytes) (i : Nat)
    (b mx : Int) (s : σ) :
    chunkedBodyParser.feedLoop cb data i [13, 10] ⟨.chunkLength, 0, b, mx⟩ s =
      some ⟨⟨.lastChunk, 0, 0, mx⟩, s, false, [], none⟩ := by
  rw [chunkedBodyParser.feedLoop]
  simp only [if_true]
  rw [chunkedBodyParser.feedLoop]
  simp only [ne_eq, not_true_eq_false, if_false, if_true]
  rw [chunkedBodyParser.feedLoop]
  simp

/-- C19 (as amended): the nibble expression gives the value of every
hexadecimal digit. A parser in state `chunkLength` with `chunkLength = 0` is
fed a non-empty string of hexadecimal digits of value `v`. If
`v ≤ maxChunkSize`, the digits followed by CRLF return no error and leave the
parser at the start of the chunk body with `chunkLength = v` (in state
`lastChunk` when `v = 0`). If `v > maxChunkSize` and `maxChunkSize < 2^59`,
`Feed` returns `ErrTooBigChunkSize`, whatever follows the digits. -/
theorem chunk_size_line {σ : Type} (cb : σ → Bytes → σ) (p : chunkedBodyParser) (s : σ)
    (digits : Bytes) (hne : digits ≠ []) (hd : ∀ d ∈ digits, isHexDigit d = true)
    (hst : p.state = .chunkLength) (hcl : p.chunkLength = 0) (hmx : p.maxChunkSize < 2 ^ 63) :
    (∀ c, isHexDigit c = true → nibble c = hexDigitValue c) ∧
    ((hexValue digits : Int) ≤ p.maxChunkSize → hexValue digits ≠ 0 →
      p.Feed cb s (digits ++ [13, 10]) =
        some ⟨⟨.chunkBody, hexValue digits, 0, p.maxChunkSize⟩, cb s [], false, [], none⟩) ∧
    ((hexValue digits : Int) ≤ p.maxChunkSize → hexValue digits = 0 →
      p.Feed cb s (digits ++ [13, 10]) =
        some ⟨⟨.lastChunk, 0, 0, p.maxChunkSize⟩, s, false, [], none⟩) ∧
    (p.maxChunkSize < (hexValue digits : Int) → p.maxChunkSize < 2 ^ 59 →
      ∀ tail, ∃ r, p.Feed cb s (digits ++ tail) = some r ∧
        r.err = some .ErrTooBigChunkSize ∧ r.done = true ∧ r.extraBytes = [] ∧ r.obs = s ∧
        r.parser.state = .transferCompleted) := by
  rcases p with ⟨st, cl, b, mx⟩
  simp only at hst hcl hmx
  subst hst hcl
  have hnt : ¬ (chunkedBodyState.chunkLength = chunkedBodyState.transferCompleted) := by decide
  have hlen : ∀ tail : Bytes, ¬ ((digits ++ tail).length = 0) := by
    intro tail h
    rw [List.length_append] at h
    have : digits.length ≠ 0 := fun h0 => hne (List.length_eq_zero.1 h0)
    omega
  refine ⟨nibble_hexDigit, ?_, ?_, ?_⟩
  · intro hv hv0
    unfold chunkedBodyParser.Feed
    simp only [hnt, if_false, hlen]
    have h := feedLoop_sizeLine cb (digits ++ [13, 10]) digits [13, 10] hd 0 b mx 0 s hv hmx
    simp only [Nat.cast_zero, zero_add] at h
    rw [h]
    exact feedLoop_crlf_chunkBody cb _ _ (by simp) _ b mx s hv0
  · intro hv hv0
    unfold chunkedBodyParser.Feed
    simp only [hnt, if_false, hlen]
    have h := feedLoop_sizeLine cb (digits ++ [13, 10]) digits [13, 10] hd 0 b mx 0 s hv hmx
    simp only [Nat.cast_zero, zero_add] at h
    rw [h]
    have hv0i : hexFold 0 digits = 0 := hv0
    rw [hv0i]
    exact feedLoop_crlf_lastChunk cb _ _ b mx s
  · intro hbig h59 tail
    unfold chunkedBodyParser.Feed
    simp only [hnt, if_false, hlen]
    have h := feedLoop_sizeLine_tooBig cb (digits ++ tail) digits tail hne hd 0 b mx 0 s
      (Or.inr rfl) h59 hbig
    simp only [Nat.cast_zero] at h
    exact h

/-- C19 on the size lines `1f` and `FFFFF` with the limit 65535: the first
starts a chunk body of 31 bytes, the second returns `ErrTooBigChunkSize`. -/
theorem chunk_size_line_witness :
    (NewChunkedBodyParser 65535).Feed collect [] (str "1f" ++ [13, 10]) =
        some ⟨⟨.chunkBody, hexValue (str "1f"), 0, (NewChunkedBodyParser 65535).maxChunkSize⟩,
          collect [] [], false, [], none⟩ ∧
      ∃ r, (NewChunkedBodyParser 65535).Feed collect [] (str "FFFFF" ++ str "\r\n") = some r ∧
        r.err = some .ErrTooBigChunkSize ∧ r.done = true ∧ r.extraBytes = [] ∧ r.obs = [] ∧
        r.parser.state = .transferCompleted :=
  ⟨(chunk_size_line collect (NewChunkedBodyParser 65535) [] (str "1f") (by decide) (by decide)
      rfl rfl (by decide)).2.1 (by decide) (by decide),
    (chunk_size_line collect (NewChunkedBodyParser 65535) [] (str "FFFFF") (by decide)
      (by decide) rfl rfl (by decide)).2.2.2 (by decide) (by decide) (str "\r\n")⟩

theorem slice_isSome (data : Bytes) (lo hi : Int) (h0 : 0 ≤ lo) (h1 : lo ≤ hi)
    (h2 : hi ≤ (data.length : Int)) : ∃ piece, slice data lo hi = some piece := by
  unfold slice
  rw [if_pos ⟨h0, h1, h2⟩]
  exact ⟨_, rfl⟩

set_option linter.unusedTactic false in
set_option linter.unreachableTactic false in
theorem chunked_feedLoop_returns {σ : Type} (cb : σ → Bytes → σ) (data rest : Bytes) (i : Nat)
    (p : chunkedBodyParser) (s : σ) (hi : i + rest.length = data.length) (hb : p.beginOk i) :
    ∃ r, chunkedBodyParser.feedLoop cb data i rest p s = some r ∧ r.parser.beginOk 0 := by
  induction rest generalizing i p s with
  | nil =>
    unfold chunkedBodyParser.feedLoop
    by_cases hst : p.state = .chunkBody
    · obtain ⟨h0, h1⟩ := hb (Or.inl hst)
      simp only [List.length_nil, Nat.add_zero] at hi
      obtain ⟨piece, hp⟩ := slice_isSome data p.chunkBodyBegin data.length h0 (by omega) le_rfl
      simp only [hst, if_true, sliceFrom, hp]
      exact ⟨_, rfl, fun _ => ⟨le_rfl, le_rfl⟩⟩
    · simp only [hst, if_false]
      exact ⟨_, rfl, fun _ => ⟨le_rfl, le_rfl⟩⟩
  | cons c rest ih =>
    have hi1 : i + 1 + rest.length = data.length := by
      simp only [List.length_cons] at hi
      omega
    rcases p with ⟨st, cl, b, mx⟩
    cases st
    case chunkBodyEnd =>
      obtain ⟨h0, h1⟩ := hb (Or.inr rfl)
      simp only at h0 h1
      obtain ⟨piece, hp⟩ := slice_isSome data b i h0 h1 (by omega)
      simp only [chunkedBodyParser.feedLoop, hp]
      repeat' split
      all_goals first
        | exact ⟨_, rfl, by simp [chunkedBodyParser.beginOk, chunkedBodyParser.complete]⟩
        | (apply ih _ _ _ hi1; simp [chunkedBodyParser.beginOk])
    case chunkBody =>
      obtain ⟨h0, h1⟩ := hb (Or.inl rfl)
      simp only at h0 h1
      simp only [chunkedBodyParser.feedLoop]
      repeat' split
      all_goals
        apply ih _ _ _ hi1
        simp only [chunkedBodyParser.beginOk, Nat.cast_add, Nat.cast_one]
        intro _
        constructor <;> omega
    all_goals
      simp only [chunkedBodyParser.feedLoop]
      repeat' split
      all_goals first
        | exact ⟨_, rfl, by simp [chunkedBodyParser.beginOk, chunkedBodyParser.complete]⟩
        | (apply ih _ _ _ hi1; simp [chunkedBodyParser.beginOk]; done)
        | (apply ih _ _ _ hi1; simp [chunkedBodyParser.beginOk]; omega)

theorem chunked_Feed_returns {σ : Type} (cb : σ → Bytes → σ) (p : chunkedBodyParser) (s : σ)
    (data : Bytes) (hb : p.beginOk 0) :
    ∃ r, p.Feed cb s data = some r ∧ r.parser.beginOk 0 := by
  have hb0 : (if p.state = .transferCompleted then p.Clear else p).beginOk 0 := by
    split
    · intro h
      simp [chunkedBodyParser.Clear] at h
    · exact hb
  unfold chunkedBodyParser.Feed
  simp only
  split
  · exact ⟨_, rfl, hb0⟩
  · exact chunked_feedLoop_returns cb data data 0 _ s (by simp) hb0

theorem nibble_le (c : Nat) (hc : c < 256) : 0 ≤ nibble c ∧ nibble c ≤ 42 := by
  unfold nibble
  have h1 : c &&& 0xF ≤ 15 := Nat.and_le_right
  have h2 : c >>> 6 ≤ 3 := by
    rw [Nat.shiftRight_eq_div_pow]
    omega
  constructor
  · exact Int.natCast_nonneg _
  · have hsum : (c &&& 0xF) + 9 * (c >>> 6) ≤ 42 := by omega
    rw [Nat.mod_eq_of_lt (by omega)]
    exact_mod_cast hsum

set_option linter.unusedTactic false in
set_option linter.unreachableTactic false in
theorem chunked_feedLoop_lengthOk {σ : Type} (cb : σ → Bytes → σ) (data rest : Bytes) (i : Nat)
    (p : chunkedBodyParser) (s : σ) (r : ChunkedResult σ)
    (mx : Int) (hbytes : ∀ c ∈ rest, c < 256) (hmx : p.maxChunkSize = mx)
    (h59 : mx < 2 ^ 59 - 2) (hl : p.lengthOk)
    (h : chunkedBodyParser.feedLoop cb data i rest p s = some r) :
    r.parser.maxChunkSize = mx ∧ r.parser.lengthOk := by
  induction rest generalizing i p s with
  | nil =>
    unfold chunkedBodyParser.feedLoop at h
    split at h
    · split at h
      · exact absurd h (by simp)
      · cases h
        exact ⟨hmx, hl⟩
    · cases h
      exact ⟨hmx, hl⟩
  | cons c rest ih =>
    have hc : c < 256 := hbytes c (by simp)
    have hrest : ∀ x ∈ rest, x < 256 := fun x hx => hbytes x (by simp [hx])
    rcases p with ⟨st, cl, b, mx1⟩
    simp only at hmx
    subst hmx
    cases st
    case chunkLength =>
      rcases hl with hl | ⟨hl0, hl1, -⟩
      · exact absurd hl (by simp)
      simp only at hl0 hl1
      obtain ⟨hn0, hn1⟩ := nibble_le c hc
      have hstep : wrap64 (wrap64 (cl * 16) + nibble c) = cl * 16 + nibble c := by
        rw [wrap64_of_range (cl * 16) (by norm_num; omega) (by norm_num at h59 ⊢; omega)]
        rw [wrap64_of_range _ (by norm_num; omega) (by norm_num at h59 ⊢; omega)]
      simp only [chunkedBodyParser.feedLoop, hstep] at h
      repeat' split at h
      all_goals first
        | (cases h; exact ⟨rfl, Or.inl rfl⟩)
        | (refine ih _ _ _ hrest rfl ?_ h
           refine Or.inr ⟨?_, ?_, ?_⟩ <;> simp <;> omega)
    case chunkBody =>
      rcases hl with hl | ⟨hl0, hl1, hl2⟩
      · exact absurd hl (by simp)
      simp only at hl0 hl1
      have hl3 : 1 ≤ cl := hl2 rfl
      have hstep : wrap64 (cl - 1) = cl - 1 := by
        rw [wrap64_of_range _ (by norm_num; omega) (by norm_num at h59 ⊢; omega)]
      simp only [chunkedBodyParser.feedLoop, hstep] at h
      repeat' split at h
      all_goals first
        | (cases h; exact ⟨rfl, Or.inl rfl⟩)
        | (refine ih _ _ _ hrest rfl ?_ h
           refine Or.inr ⟨?_, ?_, ?_⟩ <;> simp <;> omega)
    case transferCompleted =>
      simp only [chunkedBodyParser.feedLoop] at h
      exact ih _ _ _ hrest rfl (Or.inl rfl) h
    all_goals
      rcases hl with hl | ⟨hl0, hl1, -⟩
      · exact absurd hl (by simp)
      simp only at hl0 hl1
      simp only [chunkedBodyParser.feedLoop] at h
      repeat' split at h
      all_goals first
        | (cases h; done)
        | (cases h; exact ⟨rfl, Or.inl rfl⟩)
        | (refine ih _ _ _ hrest rfl ?_ h
           refine Or.inr ⟨?_, ?_, ?_⟩ <;> simp <;> omega)

theorem chunked_Feed_lengthOk {σ : Type} (cb : σ → Bytes → σ) (p : chunkedBodyParser) (s : σ)
    (data : Bytes) (r : ChunkedResult σ) (mx : Int) (hbytes : ∀ c ∈ data, c < 256)
    (hmx : p.maxChunkSize = mx) (h0 : 0 ≤ mx) (h59 : mx < 2 ^ 59 - 2) (hl : p.lengthOk)
    (h : p.Feed cb s data = some r) :
    r.parser.maxChunkSize = mx ∧ r.parser.lengthOk := by
  have hp0 : (if p.state = .transferCompleted then p.Clear else p).maxChunkSize = mx ∧
      (if p.state = .transferCompleted then p.Clear else p).lengthOk := by
    split
    · refine ⟨hmx, Or.inr ⟨le_rfl, ?_, ?_⟩⟩
      · simp only [chunkedBodyParser.Clear]
        omega
      · intro hc
        simp [chunkedBodyParser.Clear] at hc
    · exact ⟨hmx, hl⟩
  unfold chunkedBodyParser.Feed at h
  simp only at h
  split at h
  · cases h
    exact hp0
  · exact chunked_feedLoop_lengthOk cb data data 0 _ s r mx hbytes hp0.1 h59 hp0.2 h

theorem chunked_feedMany_invariant {σ : Type} (cb : σ → Bytes → σ) (p : chunkedBodyParser)
    (s : σ) (slices : List Bytes) (hb : p.beginOk 0) :
    ∃ q t, p.feedMany cb s slices = some (q, t) ∧ q.beginOk 0 ∧
      ((∀ d ∈ slices, ∀ c ∈ d, c < 256) → 0 ≤ p.maxChunkSize → p.maxChunkSize < 2 ^ 59 - 2 →
        p.lengthOk → q.maxChunkSize = p.maxChunkSize ∧ q.lengthOk) := by
  induction slices generalizing p s with
  | nil => exact ⟨p, s, rfl, hb, fun _ _ _ hl => ⟨rfl, hl⟩⟩
  | cons d ds ih =>
    obtain ⟨r, hr, hrb⟩ := chunked_Feed_returns cb p s d hb
    obtain ⟨q, t, hq, hqb, hql⟩ := ih r.parser r.obs hrb
    refine ⟨q, t, ?_, hqb, ?_⟩
    · rw [chunkedBodyParser.feedMany, hr]
      exact hq
    · intro hbytes h0 h59 hl
      obtain ⟨hm, hrl⟩ := chunked_Feed_lengthOk cb p s d r p.maxChunkSize
        (hbytes d (by simp)) rfl h0 h59 hl hr
      rw [hm] at hql
      exact hql (fun x hx => hbytes x (by simp [hx])) h0 h59 hrl

/-- C20 (fails on the code): `0 ≤ chunkLength ≤ maxChunkSize` does not hold
between calls. A size line above the limit leaves the length that exceeded it
in the parser: with the limit 5 the digit `F` returns `ErrTooBigChunkSize` and
leaves `chunkLength = 15`. And since no byte is rejected on a size line, with
the limit `2^59 - 1` the digits `7FFFFFFFFFFFFFE` followed by the byte 255,
taken as the digit 42, wrap the length to `-2^63 + 10`, which is kept without
an error. -/
theorem chunkLength_out_of_bounds_between_calls :
    (NewChunkedBodyParser 5).feedMany collect [] [str "F"] =
        some (⟨.transferCompleted, 15, 0, 5⟩, []) ∧
      ((NewChunkedBodyParser 5).Feed collect [] (str "F")).map (fun r => (r.done, r.err)) =
        some (true, some .ErrTooBigChunkSize) ∧
      (NewChunkedBodyParser (2 ^ 59 - 1)).feedMany collect [] [str "7FFFFFFFFFFFFFE" ++ [255]] =
        some (⟨.chunkLength, -(2 ^ 63) + 10, 0, 2 ^ 59 - 1⟩, []) ∧
      ((NewChunkedBodyParser (2 ^ 59 - 1)).Feed collect []
          (str "7FFFFFFFFFFFFFE" ++ [255])).map (fun r => (r.done, r.err)) =
        some (false, none) := by
  decide

/-- C20 (as amended): no sequence of `Feed` calls on a constructed chunked
parser panics, whatever the slices and the limit: every slice expression in
`Feed` is evaluated with `0 ≤ chunkBodyBegin ≤ i ≤ len(data)`. If moreover the
slices hold bytes and `0 ≤ maxChunkSize < 2^59 - 2`, then between calls the
parser either is in state `transferCompleted` or has
`0 ≤ chunkLength ≤ maxChunkSize`. -/
theorem chunked_feedMany_safe {σ : Type} (cb : σ → Bytes → σ) (mx : Int) (s : σ)
    (slices : List Bytes) :
    ∃ q t, (NewChunkedBodyParser mx).feedMany cb s slices = some (q, t) ∧
      ((∀ d ∈ slices, ∀ c ∈ d, c < 256) → 0 ≤ mx → mx < 2 ^ 59 - 2 →
        q.state = .transferCompleted ∨ (0 ≤ q.chunkLength ∧ q.chunkLength ≤ mx)) := by
  obtain ⟨q, t, hq, -, hql⟩ := chunked_feedMany_invariant cb (NewChunkedBodyParser mx) s slices
    (fun _ => ⟨le_rfl, le_rfl⟩)
  refine ⟨q, t, hq, fun hbytes h0 h59 => ?_⟩
  obtain ⟨hm, hl⟩ := hql hbytes h0 h59 (Or.inr ⟨le_rfl, h0, fun hc => by simp [NewChunkedBodyParser] at hc⟩)
  rcases hl with hl | ⟨h1, h2, -⟩
  · exact Or.inl hl
  · right
    rw [hm] at h2
    exact ⟨h1, h2⟩

theorem feedLoop_meets {σ : Type} (P : Protocol σ) (I E : httpRequestParser → σ → Prop)
    (R : FeedResult σ → Prop)
    (refeed : httpRequestParser → σ → Bytes → Run (FeedResult σ))
    (href : ∀ p s d r, E p s → refeed p s d = .ret r → R r)
    (hstep : ∀ p s c rest, I p s → (p.feedStep P s c rest).meets I E R)
    (hend : ∀ p s, I p s → R ⟨p, s, none⟩)
    (data : Bytes) (p : httpRequestParser) (s : σ) (r : FeedResult σ) (hp : I p s)
    (h : httpRequestParser.feedLoop refeed P p s data = .ret r) : R r := by
  induction data generalizing p s with
  | nil =>
    simp only [httpRequestParser.feedLoop, Run.ret.injEq] at h
    subst h
    exact hend p s hp
  | cons c rest ih =>
    have hg := hstep p s c rest hp
    unfold httpRequestParser.feedLoop at h
    cases hst : p.feedStep P s c rest with
    | next q t =>
      rw [hst] at hg h
      exact ih q t hg h
    | ret q t err =>
      rw [hst] at hg h
      simp only [Run.ret.injEq] at h
      subst h
      exact hg
    | refeed q t extra =>
      rw [hst] at hg h
      exact href q t extra r hg h
    | panic =>
      rw [hst] at h
      exact absurd h (by simp)

theorem FeedN_nested {σ : Type} (P : Protocol σ) (I E : httpRequestParser → σ → Prop)
    (R : FeedResult σ → Prop)
    (hE : ∀ p s, E p s → p.state = .method ∧ I p s)
    (hstep : ∀ p s c rest, I p s → (p.feedStep P s c rest).meets I E R)
    (hempty : ∀ p s, E p s → R (p.feedEmpty P s))
    (hend : ∀ p s, I p s → R ⟨p, s, none⟩)
    (fuel : Nat) (p : httpRequestParser) (s : σ) (data : Bytes) (r : FeedResult σ)
    (hp : E p s) (h : p.FeedN P fuel s data = .ret r) : R r := by
  induction fuel generalizing p s data r with
  | zero => simp [httpRequestParser.FeedN] at h
  | succ n ih =>
    have href : ∀ q t d r, E q t → httpRequestParser.FeedN P n q t d = .ret r → R r :=
      fun q t d r hq hr => ih q t d r hq hr
    obtain ⟨hst, hi⟩ := hE p s hp
    unfold httpRequestParser.FeedN at h
    split_ifs at h with hlen
    · simp only [Run.ret.injEq] at h
      subst h
      exact hempty p s hp
    · simp only [hst] at h
      exact feedLoop_meets P I E R _ href hstep hend data p s r hi h

theorem Feed_meets {σ : Type} (P : Protocol σ) (I E : httpRequestParser → σ → Prop)
    (R : FeedResult σ → Prop)
    (hE : ∀ p s, E p s → p.state = .method ∧ I p s)
    (hstep : ∀ p s c rest, I p s → (p.feedStep P s c rest).meets I E R)
    (hbody : ∀ p s data, I p s → p.state = .body → (p.feedBody P s data).meets I E R)
    (hbegin : ∀ p s, I p s → p.state = .messageBegin →
      (p.orDie (P.OnMessageBegin s)).meets (fun q t => I { q with state := .method } t) E R)
    (hempty : ∀ p s, E p s → R (p.feedEmpty P s))
    (hdead : ∀ p s, I p s → p.state = .dead → R ⟨p, s, some .ErrParserIsDead⟩)
    (hend : ∀ p s, I p s → R ⟨p, s, none⟩)
    (p : httpRequestParser) (s : σ) (data : Bytes) (r : FeedResult σ) (hne : data ≠ [])
    (hp : I p s) (h : p.Feed P s data = .ret r) : R r := by
  have href : ∀ q t d r, E q t →
      httpRequestParser.FeedN P (data.length + 1) q t d = .ret r → R r :=
    fun q t d r hq hr => FeedN_nested P I E R hE hstep hempty hend _ q t d r hq hr
  have hlen : ¬ data.length = 0 := fun h0 => hne (List.length_eq_zero.1 h0)
  unfold httpRequestParser.Feed httpRequestParser.FeedN at h
  simp only [hlen, if_false] at h
  split at h
  · simp only [Run.ret.injEq] at h
    subst h
    exact hdead p s hp (by assumption)
  · have hg := hbegin p s hp (by assumption)
    split at h
    · rename_i heq
      rw [heq] at hg
      exact feedLoop_meets P I E R _ href hstep hend data _ _ r hg h
    · rename_i heq
      rw [heq] at hg
      simp only [Run.ret.injEq] at h
      subst h
      exact hg
    · rename_i heq
      unfold httpRequestParser.orDie at heq
      split at heq <;> cases heq
    · exact absurd h (by simp)
  · have hg := hbody p s data hp (by assumption)
    split at h
    · rename_i heq
      rw [heq] at hg
      simp only [Run.ret.injEq] at h
      subst h
      exact hend _ _ hg
    · rename_i heq
      rw [heq] at hg
      simp only [Run.ret.injEq] at h
      subst h
      exact hg
    · rename_i heq
      rw [heq] at hg
      exact href _ _ _ r hg h
    · exact absurd h (by simp)
  · exact feedLoop_meets P I E R _ href hstep hend data p s r hp h

theorem noUpgrade_append {log : CallLog} {ev : Event} {e : Option Err} (hl : noUpgrade log)
    (h : ev ≠ .messageComplete ∨ e = none) : noUpgrade (log ++ [(ev, e)]) := by
  intro tag hm
  rw [List.mem_append, List.mem_singleton] at hm
  rcases hm with hm | hm
  · exact hl tag hm
  · rw [Prod.mk.injEq] at hm
    rcases h with h | h
    · exact h hm.1.symm
    · rw [h] at hm
      exact absurd hm.2 (by simp)

theorem upgrade_ret_die {σ : Type} (p : httpRequestParser) (t : σ × CallLog) (e : Option Err)
    (ht : noUpgrade t.2) : (Step.ret p.die t e).meets upgradeInv upgradeEntry upgradeRes :=
  ⟨fun tag hm => absurd hm (ht tag), fun h => absurd h (by simp [httpRequestParser.die])⟩

theorem upgrade_orDie_andThen {σ : Type} (p : httpRequestParser) (ev : Event) (log : CallLog)
    (y : σ × Option Err) (k : httpRequestParser → σ × CallLog → Step (σ × CallLog))
    (hev : ev ≠ .messageComplete) (hl : noUpgrade log)
    (hk : ∀ t : σ × CallLog, noUpgrade t.2 → (k p t).meets upgradeInv upgradeEntry upgradeRes) :
    ((p.orDie (logCall ev log y)).andThen k).meets upgradeInv upgradeEntry upgradeRes := by
  rcases y with ⟨s1, e⟩
  cases e with
  | none => exact hk _ (noUpgrade_append hl (Or.inl hev))
  | some e => exact upgrade_ret_die p _ _ (noUpgrade_append hl (Or.inl hev))

theorem upgrade_orDie {σ : Type} (p : httpRequestParser) (ev : Event) (log : CallLog)
    (y : σ × Option Err) (hev : ev ≠ .messageComplete) (hl : noUpgrade log)
    (hp : p.bodyNotClose) :
    (p.orDie (logCall ev log y)).meets upgradeInv upgradeEntry upgradeRes := by
  rcases y with ⟨s1, e⟩
  cases e with
  | none => exact ⟨noUpgrade_append hl (Or.inl hev), hp⟩
  | some e => exact upgrade_ret_die p _ _ (noUpgrade_append hl (Or.inl hev))

theorem upgrade_completeMessage_andThen {σ : Type} (P : Protocol σ) (p : httpRequestParser)
    (t : σ × CallLog) (k : httpRequestParser → σ × CallLog → Step (σ × CallLog))
    (hl : noUpgrade t.2)
    (hk : ∀ u : σ × CallLog, noUpgrade u.2 →
      (k p.Clear u).meets upgradeInv upgradeEntry upgradeRes) :
    ((p.completeMessage P.logged t).andThen k).meets upgradeInv upgradeEntry upgradeRes := by
  unfold httpRequestParser.completeMessage
  simp only [Protocol.logged, logCall]
  rcases hy : P.OnMessageComplete t.1 with ⟨s1, e⟩
  cases e with
  | none => exact hk _ (noUpgrade_append hl (Or.inr rfl))
  | some e =>
    cases e
    case Upgrade tag =>
      refine ⟨fun tag1 hm => ?_, fun h => absurd h (by simp)⟩
      rw [List.mem_append, List.mem_singleton] at hm
      rcases hm with hm | hm
      · exact absurd hm (hl tag1)
      · simp only [Prod.mk.injEq, Option.some.injEq, Err.Upgrade.injEq, true_and] at hm
        subst hm
        exact ⟨rfl, rfl⟩
    all_goals
      refine ⟨fun tag1 hm => ?_, fun h => absurd h (by simp [httpRequestParser.die])⟩
      rw [List.mem_append, List.mem_singleton] at hm
      rcases hm with hm | hm
      · exact absurd hm (hl tag1)
      · simp at hm

theorem upgrade_completeMessage {σ : Type} (P : Protocol σ) (p : httpRequestParser)
    (t : σ × CallLog) (hl : noUpgrade t.2) :
    (p.completeMessage P.logged t).meets upgradeInv upgradeEntry upgradeRes := by
  have h := upgrade_completeMessage_andThen P p t (fun q u => .next q u) hl
    (fun u hu => ⟨hu, fun h => absurd h (by simp [httpRequestParser.Clear])⟩)
  cases hc : p.completeMessage P.logged t <;> rw [hc] at h <;> exact h

theorem upgrade_chooseBody {σ : Type} (P : Protocol σ) (p : httpRequestParser)
    (t : σ × CallLog) (hl : noUpgrade t.2) :
    (p.chooseBody P.logged t).meets upgradeInv upgradeEntry upgradeRes := by
  unfold httpRequestParser.chooseBody
  split_ifs with h1 h2
  · exact ⟨hl, fun h => absurd h (by simp)⟩
  · refine upgrade_completeMessage_andThen P p t _ hl (fun u hu => ?_)
    exact upgrade_orDie _ _ _ _ (by simp) hu (fun h => absurd h (by simp [httpRequestParser.Clear]))
  · exact ⟨hl, fun _ => by simpa using h1⟩

theorem interpretHeader_andThen_meets {σ : Type} (I E : httpRequestParser → σ → Prop)
    (R : FeedResult σ → Prop) (p : httpRequestParser) (s : σ) (key value : Bytes)
    (k : httpRequestParser → σ → Step σ)
    (hdie : ∀ q : httpRequestParser, q.settings = p.settings →
      R ⟨q.die, s, some .ErrInvalidContentLength⟩)
    (hk : ∀ q : httpRequestParser, q.state = p.state → q.settings = p.settings →
      q.startLineBuff = p.startLineBuff → q.startLineOffset = p.startLineOffset →
      (k q s).meets I E R) :
    ((p.interpretHeader s key value).andThen k).meets I E R := by
  unfold httpRequestParser.interpretHeader
  repeat' split
  all_goals first
    | trivial
    | exact hdie _ rfl
    | exact hk _ rfl rfl rfl rfl

theorem chunked_feedLoop_obs {σ : Type} (Q : σ → Prop) (cb : σ → Bytes → σ)
    (hcb : ∀ s b, Q s → Q (cb s b)) (data rest : Bytes) (i : Nat)
    (p : chunkedBodyParser) (s : σ) (r : ChunkedResult σ) (hs : Q s)
    (h : chunkedBodyParser.feedLoop cb data i rest p s = some r) : Q r.obs := by
  induction rest generalizing i p s with
  | nil =>
    unfold chunkedBodyParser.feedLoop at h
    split_ifs at h
    · split at h
      · simp at h
      · injection h with h; subst h; exact hcb _ _ hs
    · injection h with h; subst h; exact hs
  | cons c rest ih =>
    unfold chunkedBodyParser.feedLoop at h
    split at h
    all_goals (try simp only [] at h)
    all_goals repeat' first
      | exact ih _ _ _ hs h
      | exact ih _ _ _ (hcb _ _ hs) h
      | (injection h with h; subst h; first | exact hs | exact hcb _ _ hs)
      | (simp at h; done)
      | split at h

theorem chunked_Feed_obs {σ : Type} (Q : σ → Prop) (cb : σ → Bytes → σ)
    (hcb : ∀ s b, Q s → Q (cb s b)) (data : Bytes)
    (p : chunkedBodyParser) (s : σ) (r : ChunkedResult σ) (hs : Q s)
    (h : p.Feed cb s data = some r) : Q r.obs := by
  unfold chunkedBodyParser.Feed at h
  simp only at h
  split_ifs at h
  all_goals first
    | (injection h with h; subst h; exact hs)
    | exact chunked_feedLoop_obs Q cb hcb _ _ _ _ _ _ hs h

theorem pushBodyPiece_logged {σ : Type} (Q : CallLog → Prop)
    (hQ : ∀ log b e, Q log → Q (log ++ [(Event.body b, e)]))
    (P : Protocol σ) (p : httpRequestParser) (t : σ × CallLog)
    (data : Bytes) (r : httpRequestParser × (σ × CallLog) × Bool × Bytes × Option Err)
    (ht : Q t.2) (h : p.pushBodyPiece P.logged t data = some r) :
    Q r.2.1.2 ∧ r.1.state = p.state ∧ r.1.closeConnection = p.closeConnection ∧
      r.1.settings = p.settings := by
  unfold httpRequestParser.pushBodyPiece at h
  by_cases hch : p.isChunked = true
  · simp only [hch, if_true] at h
    split at h
    · simp at h
    · rename_i r0 heq
      injection h with h; subst h
      refine ⟨?_, rfl, rfl, rfl⟩
      exact chunked_Feed_obs (fun u : σ × CallLog => Q u.2) _
        (fun u b hu => hQ _ _ _ hu) _ _ _ _ ht heq
  · simp only [hch, Bool.false_eq_true, if_false] at h
    by_cases h1 : p.bodyBytesLeft > (data.length : Int)
    · simp only [h1, if_true] at h
      split at h
      all_goals
        rename_i heq
        injection h with h; subst h
        have hq := hQ t.2 data (P.OnBody t.1 data).2 ht
        simp only [Protocol.logged, logCall, Prod.mk.injEq] at heq
        obtain ⟨heq1, -⟩ := heq
        rw [← heq1]
        exact ⟨hq, rfl, rfl, rfl⟩
    · simp only [h1, if_false] at h
      by_cases h2 : p.bodyBytesLeft ≤ 0
      · simp only [h2, if_true] at h
        injection h with h; subst h
        exact ⟨ht, rfl, rfl, rfl⟩
      · simp only [h2, if_false] at h
        split at h
        · rename_i piece extra hs1 hs2
          split at h
          all_goals
            rename_i heq
            injection h with h; subst h
            have hq := hQ t.2 piece (P.OnBody t.1 piece).2 ht
            simp only [Protocol.logged, logCall, Prod.mk.injEq] at heq
            obtain ⟨heq1, -⟩ := heq
            rw [← heq1]
            exact ⟨hq, rfl, rfl, rfl⟩
        · simp at h

theorem noUpgrade_body (log : CallLog) (b : Bytes) (e : Option Err) (h : noUpgrade log) :
    noUpgrade (log ++ [(Event.body b, e)]) :=
  noUpgrade_append h (Or.inl (by simp))

set_option linter.unusedTactic false in
set_option linter.unreachableTactic false in
set_option maxHeartbeats 1600000 in
theorem upgrade_feedStep {σ : Type} (P : Protocol σ) (p : httpRequestParser) (t : σ × CallLog)
    (c : Nat) (rest : Bytes) (hp : upgradeInv p t) :
    (p.feedStep P.logged t c rest).meets upgradeInv upgradeEntry upgradeRes := by
  obtain ⟨hl, hb⟩ := hp
  unfold httpRequestParser.feedStep
  split
  case h_12 hst =>
    split
    · trivial
    · rename_i heq
      obtain ⟨h1, -, -, -⟩ := pushBodyPiece_logged noUpgrade noUpgrade_body P _ _ _ _ hl heq
      exact upgrade_ret_die _ _ _ h1
    · rename_i heq
      obtain ⟨h1, h2, h3, -⟩ := pushBodyPiece_logged noUpgrade noUpgrade_body P _ _ _ _ hl heq
      simp only at h1 h2 h3
      refine upgrade_completeMessage_andThen P _ _ _ h1 (fun u hu => ?_)
      refine upgrade_orDie_andThen _ _ _ _ _ (by simp) hu (fun v hv => ?_)
      refine ⟨hv, rfl, ?_⟩
      simp only [httpRequestParser.Clear]
      rw [h3]
      exact hb hst
    · rename_i heq
      obtain ⟨h1, h2, h3, -⟩ := pushBodyPiece_logged noUpgrade noUpgrade_body P _ _ _ _ hl heq
      simp only at h1 h2 h3
      refine ⟨fun tag hm => absurd hm (h1 tag), fun _ => ?_⟩
      simp only
      rw [h3]
      exact hb hst
  all_goals (try simp only [Protocol.logged])
  all_goals repeat' first
    | trivial
    | exact upgrade_ret_die _ _ _ (by assumption)
    | exact upgrade_chooseBody _ _ _ (by assumption)
    | exact upgrade_completeMessage _ _ _ (by assumption)
    | refine upgrade_orDie_andThen _ _ _ _ _ (by simp) (by assumption) (fun u hu => ?_)
    | refine interpretHeader_andThen_meets _ _ _ _ _ _ _ _
        (fun q _ => upgrade_ret_die q _ _ (by assumption)) (fun q hq _ _ _ => ?_)
    | exact ⟨by assumption, by assumption⟩
    | (refine ⟨by assumption, fun h => ?_⟩; simp_all; done)
    | (refine ⟨fun tag hm => absurd hm ((by assumption : noUpgrade _) tag), fun h => ?_⟩
       simp_all; done)
    | split

theorem upgrade_ret_none {σ : Type} (p : httpRequestParser) (t : σ × CallLog)
    (e : Option Err) (hl : noUpgrade t.2) (hb : p.bodyNotClose) :
    upgradeRes ⟨p, t, e⟩ :=
  ⟨fun tag hm => absurd hm (hl tag), hb⟩

set_option linter.unusedTactic false in
set_option linter.unreachableTactic false in
theorem upgrade_feedBody {σ : Type} (P : Protocol σ) (p : httpRequestParser) (t : σ × CallLog)
    (data : Bytes) (hp : upgradeInv p t) (hst : p.state = .body) :
    (p.feedBody P.logged t data).meets upgradeInv upgradeEntry upgradeRes := by
  obtain ⟨hl, hb⟩ := hp
  unfold httpRequestParser.feedBody
  split
  · trivial
  · rename_i heq
    obtain ⟨h1, -, -, -⟩ := pushBodyPiece_logged noUpgrade noUpgrade_body P _ _ _ _ hl heq
    exact upgrade_ret_die _ _ _ h1
  · rename_i heq
    obtain ⟨h1, h2, h3, -⟩ := pushBodyPiece_logged noUpgrade noUpgrade_body P _ _ _ _ hl heq
    simp only at h1 h2 h3
    refine upgrade_completeMessage_andThen P _ _ _ h1 (fun u hu => ?_)
    simp only [Protocol.logged]
    refine upgrade_orDie_andThen _ _ _ _ _ (by simp) hu (fun v hv => ?_)
    split
    · refine ⟨hv, rfl, ?_⟩
      simp only [httpRequestParser.Clear]
      rw [h3]
      exact hb hst
    · exact upgrade_ret_none _ _ _ hv (fun h => absurd h (by simp [httpRequestParser.Clear]))
  · rename_i heq
    obtain ⟨h1, h2, h3, -⟩ := pushBodyPiece_logged noUpgrade noUpgrade_body P _ _ _ _ hl heq
    simp only at h1 h2 h3
    refine upgrade_ret_none _ _ _ h1 (fun _ => ?_)
    rw [h3]
    exact hb hst

theorem upgrade_feedEmpty {σ : Type} (P : Protocol σ) (p : httpRequestParser) (t : σ × CallLog)
    (hp : upgradeEntry p t) : upgradeRes (p.feedEmpty P.logged t) := by
  obtain ⟨hl, hst, hcc⟩ := hp
  unfold httpRequestParser.feedEmpty
  simp only [hcc, Bool.false_eq_true, if_false]
  exact upgrade_ret_none _ _ _ hl (fun h => absurd h (by simp [hst]))

theorem Feed_upgrade {σ : Type} (P : Protocol σ) (p : httpRequestParser) (t : σ × CallLog)
    (data : Bytes) (r : FeedResult (σ × CallLog)) (hne : data ≠ []) (hp : upgradeInv p t)
    (h : p.Feed P.logged t data = .ret r) : upgradeRes r := by
  refine Feed_meets P.logged upgradeInv upgradeEntry upgradeRes ?_ ?_ ?_ ?_ ?_ ?_ ?_
    p t data r hne hp h
  · intro q u hq
    exact ⟨hq.2.1, hq.1, fun hb => absurd hb (by simp [hq.2.1])⟩
  · exact fun q u c rest hq => upgrade_feedStep P q u c rest hq
  · exact fun q u d hq hst => upgrade_feedBody P q u d hq hst
  · intro q u hq hst
    simp only [Protocol.logged]
    have := upgrade_orDie_andThen q .messageBegin u.2 (P.OnMessageBegin u.1)
      (fun q1 u1 => .next { q1 with state := .method } u1) (by simp) hq.1
      (fun v hv => ⟨hv, fun hb => absurd hb (by simp)⟩)
    cases hc : q.orDie (logCall Event.messageBegin u.2 (P.OnMessageBegin u.1)) <;>
      rw [hc] at this <;> exact this
  · exact fun q u hq => upgrade_feedEmpty P q u hq
  · exact fun q u hq _ => upgrade_ret_none _ _ _ hq.1 hq.2
  · exact fun q u hq => upgrade_ret_none _ _ _ hq.1 hq.2

/-- C13 (fails on the code): an `Upgrade` returned by `OnMessageComplete` on
the empty slice does not leave the parser alive. After the close-framed
request of scenario 7 the empty slice makes `Feed` call `die` and then
`OnMessageComplete`; the `Upgrade` is returned, the parser is dead, and the
next slice returns `ErrParserIsDead` without a call of `OnMessageBegin`. -/
theorem upgrade_on_empty_slice_kills :
    (httpRequestParser.feedEach upgrader freshParser []
        [str "GET / HTTP/1.1\r\nConnection: close\r\n\r\nbody-bytes", [], str "GET"]).map
        (fun r => (r.1.state, r.2.1.count .messageComplete, r.2.1.count .messageBegin, r.2.2)) =
      some (.dead, 1, 0, [none, some (.Upgrade 0), some .ErrParserIsDead]) := by
  decide

/-- C13 (as amended): a non-empty slice is fed to a parser that is not in
state `body` with `closeConnection` set, with the calls logged. If a call of
`OnMessageComplete` returned an `Upgrade`, `Feed` returns that value and leaves
the parser in state `messageBegin`. A parser `q` in state `messageBegin` fed a
non-empty slice calls `OnMessageBegin` and, when that returns no error, goes on
as the parser in state `method` does; when it returns an error the parser
dies and the error is returned. -/
theorem upgrade_returned_alive {σ : Type} (P : Protocol σ) (p q : httpRequestParser) (s : σ)
    (data : Bytes) (r : FeedResult (σ × CallLog)) (hne : data ≠ []) (hb : p.bodyNotClose)
    (h : p.Feed P.logged (s, []) data = .ret r) :
    (∀ tag, (Event.messageComplete, some (Err.Upgrade tag)) ∈ r.obs.2 →
      r.err = some (.Upgrade tag) ∧ r.parser.state = .messageBegin) ∧
    r.parser.bodyNotClose ∧
    (q.state = .messageBegin →
      q.Feed P s data =
        match P.OnMessageBegin s with
        | (s1, none) => ({ q with state := .method } : httpRequestParser).Feed P s1 data
        | (s1, some e) => .ret ⟨q.die, s1, some e⟩) := by
  have hr := Feed_upgrade P p (s, []) data r hne ⟨fun _ hm => by simp at hm, hb⟩ h
  refine ⟨hr.1, hr.2, fun hq => ?_⟩
  have hlen : ¬ data.length = 0 := fun h0 => hne (List.length_eq_zero.1 h0)
  unfold httpRequestParser.Feed
  rw [httpRequestParser.FeedN]
  simp only [hlen, if_false, hq]
  rcases P.OnMessageBegin s with ⟨s1, e⟩
  cases e with
  | none =>
    simp only [httpRequestParser.orDie]
    rw [httpRequestParser.FeedN]
    simp only [hlen, if_false]
  | some e => simp only [httpRequestParser.orDie]

/-- C13 on the request "GET / HTTP/1.1" without headers, with a protocol whose
`OnMessageComplete` returns `Upgrade 0`: the value is returned, the parser is
left in state `messageBegin`, and the next slice starts with a call of
`OnMessageBegin`. -/
theorem upgrade_returned_alive_witness :
    freshParser.Feed upgrader.logged ([], []) (str "GET / HTTP/1.1\r\n\r\n") =
      .ret ⟨{ freshParser with state := .messageBegin },
        ([.method (str "GET"), .path (str "/"), .protocol (str "HTTP/1.1"), .headersBegin,
          .messageComplete],
         [(.method (str "GET"), none), (.path (str "/"), none),
          (.protocol (str "HTTP/1.1"), none), (.headersBegin, none),
          (.messageComplete, some (.Upgrade 0))]),
        some (.Upgrade 0)⟩ ∧
    ({ freshParser with state := .messageBegin } : httpRequestParser).Feed upgrader []
        (str "GET / HTTP/1.1\r\n\r\n") =
      match upgrader.OnMessageBegin [] with
      | (s1, none) =>
        ({ ({ freshParser with state := .messageBegin } : httpRequestParser) with
          state := .method } : httpRequestParser).Feed upgrader s1 (str "GET / HTTP/1.1\r\n\r\n")
      | (s1, some e) =>
        .ret ⟨({ freshParser with state := .messageBegin } : httpRequestParser).die, s1, some e⟩ :=
  ⟨by decide,
    (upgrade_returned_alive upgrader freshParser
      ({ freshParser with state := .messageBegin } : httpRequestParser) []
      (str "GET / HTTP/1.1\r\n\r\n")
      ⟨{ freshParser with state := .messageBegin },
        ([.method (str "GET"), .path (str "/"), .protocol (str "HTTP/1.1"), .headersBegin,
          .messageComplete],
         [(.method (str "GET"), none), (.path (str "/"), none),
          (.protocol (str "HTTP/1.1"), none), (.headersBegin, none),
          (.messageComplete, some (.Upgrade 0))]),
        some (.Upgrade 0)⟩
      (by decide) (fun h => absurd h (by decide)) (by decide)).2.2 rfl⟩

theorem pathsValid_append {M : Int} {log : CallLog} {ev : Event} {e : Option Err}
    (hl : pathsValid M log) (h : ∀ b, ev = .path b → pathValid M b) :
    pathsValid M (log ++ [(ev, e)]) := by
  intro b e1 hm
  rw [List.mem_append, List.mem_singleton] at hm
  rcases hm with hm | hm
  · exact hl b e1 hm
  · rw [Prod.mk.injEq] at hm
    exact h b hm.1.symm

theorem pathsValid_body (M : Int) (log : CallLog) (b : Bytes) (e : Option Err)
    (h : pathsValid M log) : pathsValid M (log ++ [(Event.body b, e)]) :=
  pathsValid_append h (by simp)

theorem pathInv_of_state (p : httpRequestParser) (h : p.state ≠ .path) : p.pathInv :=
  fun hs => absurd hs h

theorem path_ret_die {σ : Type} (M : Int) (p : httpRequestParser) (t : σ × CallLog)
    (e : Option Err) (ht : pathsValid M t.2) (hs : p.settings.MaxPathLength = M) :
    (Step.ret p.die t e).meets (pathInvAt M) (pathEntry M) (pathRes M) :=
  ⟨ht, hs, pathInv_of_state _ (by simp [httpRequestParser.die])⟩

theorem path_orDie_andThen {σ : Type} (M : Int) (p : httpRequestParser) (ev : Event)
    (log : CallLog) (y : σ × Option Err)
    (k : httpRequestParser → σ × CallLog → Step (σ × CallLog))
    (hev : ∀ b, ev = .path b → pathValid M b) (hl : pathsValid M log)
    (hs : p.settings.MaxPathLength = M)
    (hk : ∀ t : σ × CallLog, pathsValid M t.2 →
      (k p t).meets (pathInvAt M) (pathEntry M) (pathRes M)) :
    ((p.orDie (logCall ev log y)).andThen k).meets (pathInvAt M) (pathEntry M) (pathRes M) := by
  rcases y with ⟨s1, e⟩
  cases e with
  | none => exact hk _ (pathsValid_append hl hev)
  | some e => exact path_ret_die M p _ _ (pathsValid_append hl hev) hs

theorem path_orDie {σ : Type} (M : Int) (p : httpRequestParser) (ev : Event)
    (log : CallLog) (y : σ × Option Err)
    (hev : ∀ b, ev = .path b → pathValid M b) (hl : pathsValid M log)
    (hs : p.settings.MaxPathLength = M) (hp : p.pathInv) :
    (p.orDie (logCall ev log y)).meets (pathInvAt M) (pathEntry M) (pathRes M) := by
  rcases y with ⟨s1, e⟩
  cases e with
  | none => exact ⟨pathsValid_append hl hev, hs, hp⟩
  | some e => exact path_ret_die M p _ _ (pathsValid_append hl hev) hs

theorem path_completeMessage_andThen {σ : Type} (M : Int) (P : Protocol σ)
    (p : httpRequestParser) (t : σ × CallLog)
    (k : httpRequestParser → σ × CallLog → Step (σ × CallLog))
    (hl : pathsValid M t.2) (hs : p.settings.MaxPathLength = M)
    (hk : ∀ u : σ × CallLog, pathsValid M u.2 →
      (k p.Clear u).meets (pathInvAt M) (pathEntry M) (pathRes M)) :
    ((p.completeMessage P.logged t).andThen k).meets (pathInvAt M) (pathEntry M)
      (pathRes M) := by
  unfold httpRequestParser.completeMessage
  simp only [Protocol.logged, logCall]
  have hv : ∀ e, pathsValid M (t.2 ++ [(Event.messageComplete, e)]) :=
    fun e => pathsValid_append hl (by simp)
  rcases hy : P.OnMessageComplete t.1 with ⟨s1, e⟩
  cases e with
  | none => exact hk _ (hv _)
  | some e =>
    cases e
    case Upgrade tag => exact ⟨hv _, hs, pathInv_of_state _ (by simp)⟩
    all_goals exact ⟨hv _, hs, pathInv_of_state _ (by simp [httpRequestParser.die])⟩

theorem path_completeMessage {σ : Type} (M : Int) (P : Protocol σ) (p : httpRequestParser)
    (t : σ × CallLog) (hl : pathsValid M t.2) (hs : p.settings.MaxPathLength = M) :
    (p.completeMessage P.logged t).meets (pathInvAt M) (pathEntry M) (pathRes M) := by
  have h := path_completeMessage_andThen M P p t (fun q u => .next q u) hl hs
    (fun u hu => ⟨hu, hs, pathInv_of_state _ (by simp [httpRequestParser.Clear])⟩)
  cases hc : p.completeMessage P.logged t <;> rw [hc] at h <;> exact h

theorem path_chooseBody {σ : Type} (M : Int) (P : Protocol σ) (p : httpRequestParser)
    (t : σ × CallLog) (hl : pathsValid M t.2) (hs : p.settings.MaxPathLength = M) :
    (p.chooseBody P.logged t).meets (pathInvAt M) (pathEntry M) (pathRes M) := by
  unfold httpRequestParser.chooseBody
  split_ifs with h1 h2
  · exact ⟨hl, hs, pathInv_of_state _ (by simp)⟩
  · refine path_completeMessage_andThen M P p t _ hl hs (fun u hu => ?_)
    exact path_orDie M _ _ _ _ (by simp) hu hs
      (pathInv_of_state _ (by simp [httpRequestParser.Clear]))
  · exact ⟨hl, hs, pathInv_of_state _ (by simp)⟩

set_option linter.unusedTactic false in
set_option linter.unreachableTactic false in
set_option maxHeartbeats 1600000 in
theorem path_feedStep {σ : Type} (M : Int) (P : Protocol σ) (p : httpRequestParser)
    (t : σ × CallLog) (c : Nat) (rest : Bytes) (hp : pathInvAt M p t) :
    (p.feedStep P.logged t c rest).meets (pathInvAt M) (pathEntry M) (pathRes M) := by
  obtain ⟨hl, hs, hi⟩ := hp
  unfold httpRequestParser.feedStep
  split
  case h_2 hst =>
    obtain ⟨h1, h2, h3⟩ := hi hst
    have hsl := sliceFrom_eq p.startLineBuff.bytes p.startLineOffset h1
    have hsl2 : sliceFrom (p.startLineBuff.append c).bytes p.startLineOffset =
        some (p.startLineBuff.bytes.drop p.startLineOffset ++ [c]) := by
      have h := sliceFrom_eq (p.startLineBuff.append c).bytes p.startLineOffset
        (by simp only [Buffer.append, List.length_append, List.length_singleton]; omega)
      rw [h]
      simp only [Buffer.append]
      rw [List.drop_append_of_le_length h1]
    split_ifs with hc hlen hpr
    · exact path_ret_die M _ _ _ hl hs
    · simp only [hsl, Protocol.logged]
      refine path_orDie_andThen M _ _ _ _ _ ?_ hl hs
        (fun u hu => ⟨hu, hs, pathInv_of_state _ (by simp)⟩)
      intro b hb
      injection hb with hb
      subst hb
      refine ⟨?_, h2, hs ▸ h3 hlen⟩
      intro hnil
      have := congrArg List.length hnil
      simp only [List.length_drop, List.length_nil] at this
      omega
    · simp only [hsl2]
      split_ifs with hlong
      · exact path_ret_die M _ _ _ hl hs
      · refine ⟨hl, hs, fun _ => ⟨?_, ?_, fun _ => ?_⟩⟩
        · simp only [Buffer.append, List.length_append, List.length_singleton]
          omega
        · simp only [Buffer.append]
          rw [List.drop_append_of_le_length h1]
          intro x hx
          rw [List.mem_append, List.mem_singleton] at hx
          rcases hx with hx | hx
          · exact h2 x hx
          · subst hx
            exact ⟨by simpa using hpr, hc⟩
        · simp only [Buffer.append]
          rw [List.drop_append_of_le_length h1]
          exact not_lt.1 hlong
    · exact path_ret_die M _ _ _ hl hs
  case h_12 hst =>
    split
    · trivial
    · rename_i heq
      obtain ⟨h1, -, -, h4⟩ :=
        pushBodyPiece_logged (pathsValid M) (pathsValid_body M) P _ _ _ _ hl heq
      exact path_ret_die M _ _ _ h1 (by rw [h4]; exact hs)
    · rename_i heq
      obtain ⟨h1, h2, -, h4⟩ :=
        pushBodyPiece_logged (pathsValid M) (pathsValid_body M) P _ _ _ _ hl heq
      simp only at h1 h2 h4
      have hs1 : ∀ q : httpRequestParser, q.settings = p.settings →
          q.settings.MaxPathLength = M := fun q hq => by rw [hq]; exact hs
      refine path_completeMessage_andThen M P _ _ _ h1 (hs1 _ h4) (fun u hu => ?_)
      refine path_orDie_andThen M _ _ _ _ _ (by simp) hu (hs1 _ h4) (fun v hv => ?_)
      exact ⟨rfl, hv, hs1 _ h4, pathInv_of_state _ (by simp [httpRequestParser.Clear])⟩
    · rename_i heq
      obtain ⟨h1, h2, -, h4⟩ :=
        pushBodyPiece_logged (pathsValid M) (pathsValid_body M) P _ _ _ _ hl heq
      simp only at h1 h2 h4
      exact ⟨h1, by rw [h4]; exact hs, pathInv_of_state _ (by rw [h2, hst]; simp)⟩
  all_goals (try simp only [Protocol.logged])
  all_goals repeat' first
    | trivial
    | exact path_ret_die M _ _ _ (by assumption) hs
    | exact path_chooseBody M _ _ _ (by assumption) (by assumption)
    | exact path_chooseBody M _ _ _ (by assumption) hs
    | exact path_completeMessage M _ _ _ (by assumption) hs
    | refine path_orDie_andThen M _ _ _ _ _ (by simp) (by assumption) hs (fun u hu => ?_)
    | refine path_orDie_andThen M _ _ _ _ _ (by simp) (by assumption) (by assumption)
        (fun u hu => ?_)
    | (refine interpretHeader_andThen_meets _ _ _ _ _ _ _ _
        (fun q hq => path_ret_die M q _ _ (by assumption) (by rw [hq]; exact hs))
        (fun q hq1 hq2 hq3 hq4 => ?_)
       have hsq : q.settings.MaxPathLength = M := by rw [hq2]; exact hs)
    | exact ⟨by assumption, hs, hi⟩
    | exact ⟨by assumption, hs, fun _ => ⟨le_rfl, by simp, fun h => absurd rfl h⟩⟩
    | (refine ⟨by assumption, hs, pathInv_of_state _ ?_⟩; simp_all; done)
    | (refine ⟨by assumption, by assumption, pathInv_of_state _ ?_⟩; simp_all; done)
    | split

set_option linter.unusedTactic false in
set_option linter.unreachableTactic false in
theorem path_feedBody {σ : Type} (M : Int) (P : Protocol σ) (p : httpRequestParser)
    (t : σ × CallLog) (data : Bytes) (hp : pathInvAt M p t) (hst : p.state = .body) :
    (p.feedBody P.logged t data).meets (pathInvAt M) (pathEntry M) (pathRes M) := by
  obtain ⟨hl, hs, -⟩ := hp
  have hs1 : ∀ q : httpRequestParser, q.settings = p.settings →
      q.settings.MaxPathLength = M := fun q hq => by rw [hq]; exact hs
  unfold httpRequestParser.feedBody
  split
  · trivial
  · rename_i heq
    obtain ⟨h1, -, -, h4⟩ :=
      pushBodyPiece_logged (pathsValid M) (pathsValid_body M) P _ _ _ _ hl heq
    exact path_ret_die M _ _ _ h1 (hs1 _ h4)
  · rename_i heq
    obtain ⟨h1, h2, -, h4⟩ :=
      pushBodyPiece_logged (pathsValid M) (pathsValid_body M) P _ _ _ _ hl heq
    simp only at h1 h2 h4
    refine path_completeMessage_andThen M P _ _ _ h1 (hs1 _ h4) (fun u hu => ?_)
    simp only [Protocol.logged]
    refine path_orDie_andThen M _ _ _ _ _ (by simp) hu (hs1 _ h4) (fun v hv => ?_)
    split
    · exact ⟨rfl, hv, hs1 _ h4, pathInv_of_state _ (by simp [httpRequestParser.Clear])⟩
    · exact ⟨hv, hs1 _ h4, pathInv_of_state _ (by simp [httpRequestParser.Clear])⟩
  · rename_i heq
    obtain ⟨h1, h2, -, h4⟩ :=
      pushBodyPiece_logged (pathsValid M) (pathsValid_body M) P _ _ _ _ hl heq
    simp only at h1 h2 h4
    exact ⟨h1, hs1 _ h4, pathInv_of_state _ (by rw [h2, hst]; simp)⟩

theorem path_feedEmpty {σ : Type} (M : Int) (P : Protocol σ) (p : httpRequestParser)
    (t : σ × CallLog) (hp : pathInvAt M p t) : pathRes M (p.feedEmpty P.logged t) := by
  obtain ⟨hl, hs, hi⟩ := hp
  have hv : ∀ (log : CallLog) e, pathsValid M log →
      pathsValid M (log ++ [(Event.messageComplete, e)]) :=
    fun log e h => pathsValid_append h (by simp)
  have hd : p.die.pathInv := pathInv_of_state _ (by simp [httpRequestParser.die])
  unfold httpRequestParser.feedEmpty
  split_ifs
  · simp only [Protocol.logged, logCall]
    rcases P.OnMessageComplete t.1 with ⟨s1, e1⟩
    cases e1 with
    | some e => exact ⟨hv _ _ hl, hs, hd⟩
    | none =>
      simp only
      rcases P.OnMessageComplete s1 with ⟨s2, e2⟩
      cases e2 with
      | none => exact ⟨hv _ _ (hv _ _ hl), hs, hd⟩
      | some e => cases e <;> exact ⟨hv _ _ (hv _ _ hl), hs, hd⟩
  · exact ⟨hl, hs, hi⟩

theorem Feed_paths {σ : Type} (M : Int) (P : Protocol σ) (p : httpRequestParser)
    (t : σ × CallLog) (data : Bytes) (r : FeedResult (σ × CallLog)) (hp : pathInvAt M p t)
    (h : p.Feed P.logged t data = .ret r) : pathRes M r := by
  by_cases hne : data = []
  · subst hne
    simp only [httpRequestParser.Feed, httpRequestParser.FeedN, List.length_nil, if_true,
      Run.ret.injEq] at h
    subst h
    exact path_feedEmpty M P p t hp
  refine Feed_meets P.logged (pathInvAt M) (pathEntry M) (pathRes M) ?_ ?_ ?_ ?_ ?_ ?_ ?_
    p t data r hne hp h
  · exact fun q u hq => hq
  · exact fun q u c rest hq => path_feedStep M P q u c rest hq
  · exact fun q u d hq hst => path_feedBody M P q u d hq hst
  · intro q u hq hst
    simp only [Protocol.logged]
    have := path_orDie_andThen M q .messageBegin u.2 (P.OnMessageBegin u.1)
      (fun q1 u1 => .next { q1 with state := .method } u1) (by simp) hq.1 hq.2.1
      (fun v hv => ⟨hv, hq.2.1, pathInv_of_state _ (by simp)⟩)
    cases hc : q.orDie (logCall Event.messageBegin u.2 (P.OnMessageBegin u.1)) <;>
      rw [hc] at this <;> exact this
  · exact fun q u hq => path_feedEmpty M P q u hq.2
  · exact fun q u hq _ => hq
  · exact fun q u hq => hq

theorem Feed_path_ret {σ : Type} (P : Protocol σ) (p q : httpRequestParser) (s t : σ) (c : Nat)
    (rest : Bytes) (e : Option Err) (hst : p.state = .path)
    (h : p.feedStep P s c rest = .ret q t e) : p.Feed P s (c :: rest) = .ret ⟨q, t, e⟩ := by
  unfold httpRequestParser.Feed
  rw [httpRequestParser.FeedN]
  simp only [List.length_cons, Nat.add_one_ne_zero, if_false, hst]
  rw [httpRequestParser.feedLoop, h]

/-- C16: a parser whose buffer holds a valid beginning of a path, as every
parser the constructor returns does, is fed a slice with the calls logged.
Every slice `OnPath` was given is not empty, holds printable bytes only,
none of them a space, and is at most `MaxPathLength` long, and the parser is
left with a valid beginning of a path again. In state `path` a byte that is
not printable returns `ErrInvalidPath`, so does a space when the path is
empty, and a printable byte that takes the path beyond `MaxPathLength`
returns `ErrBufferOverflow`. -/
theorem path_validation {σ : Type} (P : Protocol σ) (p : httpRequestParser) (s : σ) (c : Nat)
    (rest : Bytes) (hp : p.pathInv) :
    (∀ data r, p.Feed P.logged (s, []) data = .ret r →
      (∀ b e, (Event.path b, e) ∈ r.obs.2 → pathValid p.settings.MaxPathLength b) ∧
        r.parser.pathInv ∧ r.parser.settings.MaxPathLength = p.settings.MaxPathLength) ∧
    (p.state = .path → IsPrint c = false →
      p.Feed P s (c :: rest) = .ret ⟨p.die, s, some .ErrInvalidPath⟩) ∧
    (p.state = .path → p.startLineBuff.bytes.length = p.startLineOffset →
      p.Feed P s (32 :: rest) = .ret ⟨p.die, s, some .ErrInvalidPath⟩) ∧
    (p.state = .path → IsPrint c = true → c ≠ 32 →
      p.settings.MaxPathLength <
        (((p.startLineBuff.bytes.drop p.startLineOffset).length + 1 : Nat) : Int) →
      p.Feed P s (c :: rest) =
        .ret ⟨({ p with startLineBuff := p.startLineBuff.append c } : httpRequestParser).die, s,
          some .ErrBufferOverflow⟩) := by
  refine ⟨fun data r h => ?_, fun hst hc => ?_, fun hst hlen => ?_, fun hst hc h32 hlong => ?_⟩
  · have hr := Feed_paths p.settings.MaxPathLength P p (s, []) data r
      ⟨fun _ _ hm => by simp at hm, rfl, hp⟩ h
    exact ⟨hr.1, hr.2.2, hr.2.1⟩
  · apply Feed_path_ret P p _ s s c rest _ hst
    have h32 : c ≠ 32 := by
      rintro rfl
      simp [IsPrint] at hc
    unfold httpRequestParser.feedStep
    simp only [hst, h32, if_false, hc, Bool.false_eq_true, not_false_eq_true, if_true]
  · apply Feed_path_ret P p _ s s 32 rest _ hst
    unfold httpRequestParser.feedStep
    simp only [hst, if_true, hlen]
  · apply Feed_path_ret P p _ s s c rest _ hst
    obtain ⟨h1, -, -⟩ := hp hst
    have hsl : sliceFrom (p.startLineBuff.append c).bytes p.startLineOffset =
        some (p.startLineBuff.bytes.drop p.startLineOffset ++ [c]) := by
      have h := sliceFrom_eq (p.startLineBuff.append c).bytes p.startLineOffset
        (by simp only [Buffer.append, List.length_append, List.length_singleton]; omega)
      rw [h]
      simp only [Buffer.append]
      rw [List.drop_append_of_le_length h1]
    have hgt : ((p.startLineBuff.bytes.drop p.startLineOffset ++ [c]).length : Int) >
        p.settings.MaxPathLength := by
      rw [List.length_append, List.length_singleton]
      exact hlong
    unfold httpRequestParser.feedStep
    simp only [hst, h32, if_false, hc, not_true_eq_false, hsl, hgt, if_true]

/-- The parser the constructor returns is in state `method`, so it holds a
valid beginning of a path and is not in state `body`. -/
theorem NewHTTPRequestParser_invariants {σ : Type} (P : Protocol σ) (s : σ)
    (settings : Settings) (p : httpRequestParser)
    (h : (NewHTTPRequestParser P s settings).2 = .ok p) : p.pathInv ∧ p.bodyNotClose := by
  unfold NewHTTPRequestParser at h
  split at h
  · simp at h
  · simp only [Except.ok.injEq] at h
    subst h
    exact ⟨fun hs => absurd hs (by simp), fun hs => absurd hs (by simp)⟩

/-- C16 on the request "GET /a HTTP/1.1", whose path `/a` is valid, and on a
parser in state `path`: the byte 1 and a space before any path byte return
`ErrInvalidPath`, and a second path byte under `MaxPathLength = 1` returns
`ErrBufferOverflow`. -/
theorem path_validation_witness :
    pathValid freshParser.settings.MaxPathLength (str "/a") ∧
    pathStart.Feed recorder [] [1] = .ret ⟨pathStart.die, [], some .ErrInvalidPath⟩ ∧
    pathStart.Feed recorder [] [32] = .ret ⟨pathStart.die, [], some .ErrInvalidPath⟩ ∧
    pathFull.Feed recorder [] [97] =
      .ret ⟨({ pathFull with startLineBuff := pathFull.startLineBuff.append 97 } :
        httpRequestParser).die, [], some .ErrBufferOverflow⟩ :=
  ⟨((path_validation recorder freshParser [] 0 [] (fun h => absurd h (by decide))).1
      (str "GET /a HTTP/1.1\r\n\r\n")
      ⟨freshParser,
        ([.method (str "GET"), .path (str "/a"), .protocol (str "HTTP/1.1"), .headersBegin,
          .messageComplete, .messageBegin],
         [(.method (str "GET"), none), (.path (str "/a"), none),
          (.protocol (str "HTTP/1.1"), none), (.headersBegin, none),
          (.messageComplete, none), (.messageBegin, none)]),
        none⟩
      (by decide)).1 (str "/a") none (by decide),
    (path_validation recorder pathStart [] 1 []
      (fun _ => ⟨by decide, by decide, by decide⟩)).2.1 rfl rfl,
    (path_validation recorder pathStart [] 1 []
      (fun _ => ⟨by decide, by decide, by decide⟩)).2.2.1 rfl rfl,
    (path_validation recorder pathFull [] 97 []
      (fun _ => ⟨by decide, by decide, by decide⟩)).2.2.2 rfl rfl (by decide) (by decide)⟩

theorem unlog_andThen {σ : Type} (st : Step (σ × CallLog)) (st1 : Step σ)
    (k : httpRequestParser → σ × CallLog → Step (σ × CallLog))
    (k1 : httpRequestParser → σ → Step σ) (h : st.unlog = st1)
    (hk : ∀ q t, (k q t).unlog = k1 q t.1) : (st.andThen k).unlog = st1.andThen k1 := by
  subst h
  cases st with
  | next q t => exact hk q t
  | ret q t e => rfl
  | refeed q t x => rfl
  | panic => rfl

theorem unlog_orDie {σ : Type} (p : httpRequestParser) (ev : Event) (log : CallLog)
    (y : σ × Option Err) : (p.orDie (logCall ev log y)).unlog = p.orDie y := by
  rcases y with ⟨s1, e⟩
  cases e <;> rfl

theorem unlog_completeMessage {σ : Type} (P : Protocol σ) (p : httpRequestParser)
    (t : σ × CallLog) : (p.completeMessage P.logged t).unlog = p.completeMessage P t.1 := by
  unfold httpRequestParser.completeMessage
  simp only [Protocol.logged, logCall]
  rcases P.OnMessageComplete t.1 with ⟨s1, e⟩
  cases e with
  | none => rfl
  | some e => cases e <;> rfl

theorem unlog_chooseBody {σ : Type} (P : Protocol σ) (p : httpRequestParser)
    (t : σ × CallLog) : (p.chooseBody P.logged t).unlog = p.chooseBody P t.1 := by
  unfold httpRequestParser.chooseBody
  split_ifs
  · rfl
  · exact unlog_andThen _ _ _ _ (unlog_completeMessage P p t) (fun q u => unlog_orDie _ _ _ _)
  · rfl

theorem unlog_interpretHeader {σ : Type} (p : httpRequestParser) (t : σ × CallLog)
    (key value : Bytes) :
    (p.interpretHeader t key value).unlog = p.interpretHeader t.1 key value := by
  unfold httpRequestParser.interpretHeader
  repeat' split
  all_goals rfl

theorem chunked_feedLoop_map {σ τ : Type} (f : σ → τ) (cb : σ → Bytes → σ)
    (cb1 : τ → Bytes → τ) (hcb : ∀ s b, f (cb s b) = cb1 (f s) b) (data rest : Bytes) (i : Nat)
    (p : chunkedBodyParser) (s : σ) :
    (chunkedBodyParser.feedLoop cb data i rest p s).map
        (fun r => (⟨r.parser, f r.obs, r.done, r.extraBytes, r.err⟩ : ChunkedResult τ)) =
      chunkedBodyParser.feedLoop cb1 data i rest p (f s) := by
  induction rest generalizing i p s with
  | nil =>
    unfold chunkedBodyParser.feedLoop
    split_ifs
    · split <;> simp [hcb]
    · rfl
  | cons c rest ih =>
    rw [chunkedBodyParser.feedLoop, chunkedBodyParser.feedLoop]
    split
    all_goals (try simp only [])
    all_goals repeat' first
      | rfl
      | exact ih _ _ _
      | (rw [← hcb]; exact ih _ _ _)
      | (simp [hcb]; done)
      | split

theorem chunked_Feed_map {σ τ : Type} (f : σ → τ) (cb : σ → Bytes → σ)
    (cb1 : τ → Bytes → τ) (hcb : ∀ s b, f (cb s b) = cb1 (f s) b) (data : Bytes)
    (p : chunkedBodyParser) (s : σ) :
    (p.Feed cb s data).map
        (fun r => (⟨r.parser, f r.obs, r.done, r.extraBytes, r.err⟩ : ChunkedResult τ)) =
      p.Feed cb1 (f s) data := by
  unfold chunkedBodyParser.Feed
  simp only
  split_ifs
  all_goals first
    | rfl
    | exact chunked_feedLoop_map f cb cb1 hcb _ _ _ _ _

theorem unlog_pushBodyPiece {σ : Type} (P : Protocol σ) (p : httpRequestParser)
    (t : σ × CallLog) (data : Bytes) :
    (p.pushBodyPiece P.logged t data).map
        (fun r => (r.1, r.2.1.1, r.2.2.1, r.2.2.2.1, r.2.2.2.2)) =
      p.pushBodyPiece P t.1 data := by
  unfold httpRequestParser.pushBodyPiece
  by_cases hch : p.isChunked = true
  · simp only [hch, if_true]
    rw [← chunked_Feed_map (fun u : σ × CallLog => u.1)
      (fun s piece => (P.logged.OnBody s piece).1) (fun s piece => (P.OnBody s piece).1)
      (fun _ _ => rfl)]
    cases p.chunksParser.Feed (fun s piece => (P.logged.OnBody s piece).1) t data <;> rfl
  · simp only [hch, Bool.false_eq_true, if_false]
    split_ifs
    · simp only [Protocol.logged, logCall]
      rcases P.OnBody t.1 data with ⟨s1, e⟩
      cases e <;> rfl
    · rfl
    · cases hs1 : slice data 0 p.bodyBytesLeft with
      | none => rfl
      | some piece =>
        cases hs2 : sliceFrom data p.bodyBytesLeft with
        | none => rfl
        | some extra =>
          simp only [Protocol.logged, logCall]
          rcases P.OnBody t.1 piece with ⟨s1, e⟩
          cases e <;> rfl

set_option linter.unusedTactic false in
set_option linter.unreachableTactic false in
set_option maxHeartbeats 1600000 in
theorem unlog_feedStep {σ : Type} (P : Protocol σ) (p : httpRequestParser) (t : σ × CallLog)
    (c : Nat) (rest : Bytes) :
    (p.feedStep P.logged t c rest).unlog = p.feedStep P t.1 c rest := by
  unfold httpRequestParser.feedStep
  cases hst : p.state
  case body =>
    simp only
    rw [← unlog_pushBodyPiece P p t (c :: rest)]
    cases p.pushBodyPiece P.logged t (c :: rest) with
    | none => rfl
    | some r =>
      obtain ⟨q, u, done, extra, err⟩ := r
      cases done <;> cases err
      all_goals first
        | rfl
        | exact unlog_andThen _ _ _ _ (unlog_completeMessage P q u) (fun q1 u1 =>
            unlog_andThen _ _ _ _ (unlog_orDie _ _ _ _) (fun _ _ => rfl))
  all_goals simp only [Protocol.logged]
  all_goals repeat' first
    | rfl
    | exact unlog_orDie _ _ _ _
    | exact unlog_chooseBody _ _ _
    | exact unlog_completeMessage _ _ _
    | exact unlog_interpretHeader _ _ _ _
    | refine unlog_andThen _ _ _ _ ?_ (fun q u => ?_)
    | split_ifs
    | (split <;> rename_i heq <;> simp only [heq])
    | (split <;> rename_i heq1 heq2 <;> simp only [heq1, heq2])
    | split

theorem unlog_feedBody {σ : Type} (P : Protocol σ) (p : httpRequestParser) (t : σ × CallLog)
    (data : Bytes) : (p.feedBody P.logged t data).unlog = p.feedBody P t.1 data := by
  unfold httpRequestParser.feedBody
  rw [← unlog_pushBodyPiece P p t data]
  cases p.pushBodyPiece P.logged t data with
  | none => rfl
  | some r =>
    obtain ⟨q, u, done, extra, err⟩ := r
    cases done <;> cases err
    all_goals first
      | rfl
      | exact unlog_andThen _ _ _ _ (unlog_completeMessage P q u) (fun q1 u1 =>
          unlog_andThen _ _ _ _ (unlog_orDie _ _ _ _) (fun _ _ => by split_ifs <;> rfl))

theorem unlog_feedEmpty {σ : Type} (P : Protocol σ) (p : httpRequestParser) (t : σ × CallLog) :
    (p.feedEmpty P.logged t).unlog = p.feedEmpty P t.1 := by
  unfold httpRequestParser.feedEmpty
  split_ifs
  · simp only [Protocol.logged, logCall]
    rcases P.OnMessageComplete t.1 with ⟨s1, e1⟩
    cases e1 with
    | some e => rfl
    | none =>
      simp only
      rcases P.OnMessageComplete s1 with ⟨s2, e2⟩
      cases e2 with
      | none => rfl
      | some e => cases e <;> rfl
  · rfl

theorem unlog_feedLoop {σ : Type} (P : Protocol σ)
    (refeed : httpRequestParser → σ × CallLog → Bytes → Run (FeedResult (σ × CallLog)))
    (refeed1 : httpRequestParser → σ → Bytes → Run (FeedResult σ))
    (href : ∀ q u d, (refeed q u d).map FeedResult.unlog = refeed1 q u.1 d)
    (data : Bytes) (p : httpRequestParser) (t : σ × CallLog) :
    (httpRequestParser.feedLoop refeed P.logged p t data).map FeedResult.unlog =
      httpRequestParser.feedLoop refeed1 P p t.1 data := by
  induction data generalizing p t with
  | nil => rfl
  | cons c rest ih =>
    rw [httpRequestParser.feedLoop, httpRequestParser.feedLoop, ← unlog_feedStep P p t c rest]
    cases p.feedStep P.logged t c rest with
    | next q u => exact ih q u
    | ret q u e => rfl
    | refeed q u x => exact href q u x
    | panic => rfl

theorem unlog_FeedN {σ : Type} (P : Protocol σ) (fuel : Nat) (p : httpRequestParser)
    (t : σ × CallLog) (data : Bytes) :
    (p.FeedN P.logged fuel t data).map FeedResult.unlog = p.FeedN P fuel t.1 data := by
  induction fuel generalizing p t data with
  | zero => rfl
  | succ n ih =>
    rw [httpRequestParser.FeedN, httpRequestParser.FeedN]
    split_ifs
    · exact congrArg Run.ret (unlog_feedEmpty P p t)
    · cases hst : p.state with
      | dead => rfl
      | messageBegin =>
        simp only [Protocol.logged, logCall]
        rcases P.OnMessageBegin t.1 with ⟨s1, e⟩
        cases e with
        | none => exact unlog_feedLoop P _ _ (fun q u d => ih q u d) _ _ _
        | some e => rfl
      | body =>
        simp only
        rw [← unlog_feedBody P p t data]
        cases p.feedBody P.logged t data with
        | next q u => rfl
        | ret q u e => rfl
        | refeed q u x => exact ih q u x
        | panic => rfl
      | _ => exact unlog_feedLoop P _ _ (fun q u d => ih q u d) _ _ _

/-- The log of calls does not change the run: `Feed` with the logged protocol
returns what `Feed` with the protocol itself returns, with the log next to its
observer, and panics where it panics. -/
theorem Feed_logged {σ : Type} (P : Protocol σ) (p : httpRequestParser) (s : σ)
    (log : CallLog) (data : Bytes) :
    (p.Feed P.logged (s, log) data).map FeedResult.unlog = p.Feed P s data :=
  unlog_FeedN P _ p (s, log) data

theorem or32_byte (d : Nat) (hd : d < 256) :
    d ||| 0x20 = if d % 64 < 32 then d + 32 else d := by
  interval_cases d <;> rfl

theorem or32_mod (d : Nat) : (d ||| 0x20) % 256 = (d % 256) ||| 0x20 := by
  apply Nat.eq_of_testBit_eq
  intro i
  rw [show (256 : Nat) = 2 ^ 8 by norm_num, show (0x20 : Nat) = 2 ^ 5 by norm_num,
    Nat.testBit_mod_two_pow, Nat.testBit_or, Nat.testBit_or, Nat.testBit_mod_two_pow,
    Nat.testBit_two_pow]
  by_cases h : i < 8 <;> by_cases h5 : 5 = i <;> simp [h, h5]
  omega

theorem fold_byte (d : Nat) :
    (d ||| 0x20) % 256 = if d % 64 < 32 then d % 256 + 32 else d % 256 := by
  rw [or32_mod, or32_byte (d % 256) (Nat.mod_lt _ (by norm_num))]
  have : d % 256 % 64 = d % 64 := by omega
  rw [this]

theorem fold_lower (c d : Nat) (hc : 97 ≤ c ∧ c ≤ 122) (hd : d < 256) :
    (d ||| 0x20) % 256 = c ↔ d = c ∨ d = c - 32 := by
  rw [fold_byte]
  split_ifs <;> omega

theorem fold_upper (c d : Nat) (hc : 65 ≤ c ∧ c ≤ 90) : (d ||| 0x20) % 256 ≠ c := by
  rw [fold_byte]
  split_ifs <;> omega

theorem map_fold_iff (sample data : Bytes) (hl : data.length = sample.length)
    (hs : ∀ c ∈ sample, 97 ≤ c ∧ c ≤ 122) (hd : ∀ d ∈ data, d < 256) :
    data.map (fun d => (d ||| 0x20) % 256) = sample ↔
      ∀ (i : Nat) c d, sample[i]? = some c → data[i]? = some d → d = c ∨ d = c - 32 := by
  induction sample generalizing data with
  | nil =>
    cases data with
    | nil => simp
    | cons d ds => simp at hl
  | cons c cs ih =>
    cases data with
    | nil => simp at hl
    | cons d ds =>
      simp only [List.length_cons, Nat.add_right_cancel_iff] at hl
      have hc := hs c (by simp)
      have hdd := hd d (by simp)
      have ih1 := ih ds hl (fun x hx => hs x (by simp [hx])) (fun x hx => hd x (by simp [hx]))
      simp only [List.map_cons, List.cons.injEq]
      rw [fold_lower c d hc hdd, ih1]
      constructor
      · rintro ⟨h0, hrest⟩ i c1 d1 h1 h2
        cases i with
        | zero =>
          simp only [List.getElem?_cons_zero, Option.some.injEq] at h1 h2
          subst h1 h2
          exact h0
        | succ j =>
          simp only [List.getElem?_cons_succ] at h1 h2
          exact hrest j c1 d1 h1 h2
      · intro h
        refine ⟨h 0 c d (by simp) (by simp), fun i c1 d1 h1 h2 => h (i + 1) c1 d1 ?_ ?_⟩
        · simpa using h1
        · simpa using h2

/-- C21: `EqualFold` never indexes `data` out of range. For a sample of
lowercase ASCII letters and a `data` of bytes it is true if and only if
`data` is as long as the sample and every `data[i]` is `sample[i]` or its
uppercase counterpart. For a sample that holds an uppercase letter it is false
whatever `data` is; so `EqualFold("A", "A")` is false, and `EqualFold("a", "A")`
is true while `EqualFold("A", "a")` is false. -/
theorem EqualFold_oneSided (sample data : Bytes) :
    (∃ b, EqualFold sample data = some b) ∧
    ((∀ c ∈ sample, 97 ≤ c ∧ c ≤ 122) → (∀ d ∈ data, d < 256) →
      (EqualFold sample data = some true ↔
        data.length = sample.length ∧
          ∀ (i : Nat) c d, sample[i]? = some c → data[i]? = some d → d = c ∨ d = c - 32)) ∧
    ((∃ c ∈ sample, 65 ≤ c ∧ c ≤ 90) → EqualFold sample data = some false) ∧
    EqualFold (str "A") (str "A") = some false ∧
    EqualFold (str "a") (str "A") = some true ∧
    EqualFold (str "A") (str "a") = some false := by
  refine ⟨⟨_, EqualFold_eq sample data⟩, fun hs hd => ?_, fun hu => ?_,
    by decide, by decide, by decide⟩
  · rw [EqualFold_eq]
    simp only [Option.some.injEq, foldsTo, Bool.and_eq_true, decide_eq_true_eq]
    constructor
    · rintro ⟨hl, hm⟩
      exact ⟨hl, (map_fold_iff sample data hl hs hd).1 hm⟩
    · rintro ⟨hl, hm⟩
      exact ⟨hl, (map_fold_iff sample data hl hs hd).2 hm⟩
  · obtain ⟨c, hc, hcu⟩ := hu
    rw [EqualFold_eq]
    simp only [Option.some.injEq, foldsTo, Bool.and_eq_false_imp, decide_eq_true_eq,
      decide_eq_false_iff_not]
    intro _ hm
    rw [← hm, List.mem_map] at hc
    obtain ⟨d, -, hdc⟩ := hc
    exact fold_upper c d hcu hdc

/-- C21 on the sample `chunked` of the `Transfer-Encoding` header: the value
"ChUnKeD" folds to it, so each of its bytes is the byte of the sample or its
uppercase counterpart, and nothing folds to the sample "Chunked". -/
theorem EqualFold_oneSided_witness :
    EqualFold chunked (str "ChUnKeD") = some true ∧
    ((str "ChUnKeD").length = chunked.length ∧
      ∀ (i : Nat) c d, chunked[i]? = some c → (str "ChUnKeD")[i]? = some d →
        d = c ∨ d = c - 32) ∧
    EqualFold (str "Chunked") chunked = some false :=
  ⟨by decide,
    ((EqualFold_oneSided chunked (str "ChUnKeD")).2.1 (by decide) (by decide)).1 (by decide),
    (EqualFold_oneSided (str "Chunked") chunked).2.2.1 ⟨67, by decide, by decide⟩⟩

end httpparser
